import Mathlib

/-!
# individual: categorical variables and events

A shallow embedding of `inst/include/CategoricalVariable.h` and
`inst/include/Event.h`.

* `individual_index_t` (declared in `common_types.h`, which is not among the
  sources) is modelled from the specification as a fixed-capacity bitset.
* `named_array_t<T>` is `std::unordered_map<std::string, T>`; it is embedded as
  an association list whose keys are kept distinct by `insert`.
* `std::map<size_t, T>` is embedded as an association list kept in ascending
  key order by `insert`.
* A mutating member function that may throw returns `Except σ σ`:
  `.ok s` is a normal return leaving the object in state `s`, `.error s` is an
  exception that propagates to the caller with the object left in state `s`.
* `size_t` is 64 bits wide; `t + delay` and `++t` wrap modulo `2 ^ 64`.
-/

namespace Individual

/-! ## IndividualIndex -/

/-- Modelled from the spec: `individual_index_t` (`common_types.h` is absent).
A fixed-capacity bitset over the identifiers `[0, N)`: bit `i` of `bits` says
whether identifier `i` is present, and the capacity is the number of bits. -/
structure IndividualIndex where
  bits : List Bool
deriving DecidableEq, Repr

namespace IndividualIndex

/-- Modelled from the spec: the capacity `N` of the bitset. -/
def max_size (b : IndividualIndex) : Nat := b.bits.length

/-- Modelled from the spec: `individual_index_t(size)`, the empty set of
capacity `size`. -/
def empty (size : Nat) : IndividualIndex := ⟨List.replicate size false⟩

/-- Modelled from the spec: membership test. Identifiers at or beyond the
capacity are never present. -/
def contains (b : IndividualIndex) (i : Nat) : Bool := b.bits.getD i false

/-- Modelled from the spec: `insert(id)`; an identifier at or beyond the
capacity fails with `OutOfRange`. -/
def insert (b : IndividualIndex) (i : Nat) : Option IndividualIndex :=
  if i < b.max_size then some ⟨b.bits.set i true⟩ else none

/-- Modelled from the spec: in-place union `a |= b`. The receiver keeps its
capacity. -/
def or (a b : IndividualIndex) : IndividualIndex :=
  ⟨(List.range a.max_size).map fun i => a.contains i || b.contains i⟩

/-- Modelled from the spec: in-place intersection `a &= b`. The receiver
keeps its capacity. -/
def and (a b : IndividualIndex) : IndividualIndex :=
  ⟨(List.range a.max_size).map fun i => a.contains i && b.contains i⟩

/-- Modelled from the spec: complement relative to the capacity (`!a`, `~a`). -/
def not (a : IndividualIndex) : IndividualIndex := ⟨a.bits.map (!·)⟩

/-- Modelled from the spec: set difference `a \ b`. The receiver keeps its
capacity. -/
def difference (a b : IndividualIndex) : IndividualIndex :=
  ⟨(List.range a.max_size).map fun i => a.contains i && !b.contains i⟩

/-- Modelled from the spec: cardinality. -/
def size (a : IndividualIndex) : Nat := a.bits.count true

/-- Modelled from the spec: `extend(k)` grows the capacity by `k`; the new
identifiers are initially absent. -/
def extend (a : IndividualIndex) (k : Nat) : IndividualIndex :=
  ⟨a.bits ++ List.replicate k false⟩

/-- Modelled from the spec: the identifiers of `[0, n)` that are left once
those of `index` are removed, in ascending order. -/
def remaining (n : Nat) (index : List Nat) : List Nat :=
  (List.range n).filter fun i => !index.contains i

/-- Modelled from the spec: `shrink(ids)` removes the given identifiers from
the universe and compacts the remaining identifiers, keeping their order, so
that they are contiguous. An identifier at or beyond the capacity fails with
`OutOfRange`. -/
def shrink (a : IndividualIndex) (index : List Nat) : Option IndividualIndex :=
  if index.all (· < a.max_size) then
    some ⟨(remaining a.max_size index).map a.contains⟩
  else none

/-- Modelled from the spec: iteration `cbegin() .. cend()` visits the members
in ascending order. -/
def toList (a : IndividualIndex) : List Nat :=
  (List.range a.max_size).filter a.contains

end IndividualIndex

/-! ## named_array_t -/

/-- `named_array_t<T>`, an `std::unordered_map<std::string, T>`. -/
abbrev named_array_t (α : Type) := List (String × α)

namespace named_array_t

/-- The keys of the map, in iteration order. -/
def keys {α : Type} (m : named_array_t α) : List String := m.map Prod.fst

/-- `m.find(key)`; `none` stands for `m.end()`. -/
def find {α : Type} : named_array_t α → String → Option α
  | [], _ => none
  | (k, v) :: rest, key => if k = key then some v else find rest key

/-- `m.insert({key, value})`: nothing happens when the key is already there. -/
def insert {α : Type} : named_array_t α → String → α → named_array_t α
  | [], key, value => [(key, value)]
  | (k, v) :: rest, key, value =>
    if k = key then (k, v) :: rest else (k, v) :: insert rest key value

/-- Store `value` in the slot `m.at(key)` refers to. -/
def assign {α : Type} : named_array_t α → String → α → named_array_t α
  | [], _, _ => []
  | (k, v) :: rest, key, value =>
    if k = key then (k, value) :: rest else (k, v) :: assign rest key value

end named_array_t

/-! ## CategoricalVariable.h -/

deriving instance DecidableEq for Except

/-- The state a member function leaves behind, whether it returned or threw. -/
def final {σ : Type} : Except σ σ → σ
  | .ok s => s
  | .error s => s

/-- `class ExtendUpdate`. -/
structure ExtendUpdate where
  values : List String
deriving DecidableEq, Repr

/-- The second loop of `ExtendUpdate::update`:
`indices.at(values[i]).insert(initial_size + i)` for `i = 0, 1, ...`.
`at` throws on an unknown key. The counter `i` is an `unsigned`; it is not
wrapped here, so the model covers `values.size() < 2 ^ 32`. -/
def ExtendUpdate.place_loop (initial_size : Nat) :
    List String → Nat → named_array_t IndividualIndex →
      Except (named_array_t IndividualIndex) (named_array_t IndividualIndex)
  | [], _, indices => .ok indices
  | value :: rest, i, indices =>
    match indices.find value with
    | none => .error indices
    | some b =>
      match b.insert (initial_size + i) with
      | none => .error indices
      | some b' => place_loop initial_size rest (i + 1) (indices.assign value b')

/-- `ExtendUpdate::update`. `indices.begin()` of an empty map may not be
dereferenced; the model reports that case as a failure. -/
def ExtendUpdate.update (u : ExtendUpdate) (indices : named_array_t IndividualIndex) :
    Except (named_array_t IndividualIndex) (named_array_t IndividualIndex) :=
  match indices with
  | [] => .error indices
  | first :: _ =>
    let initial_size := first.2.max_size
    let extended := indices.map fun entry => (entry.1, entry.2.extend u.values.length)
    ExtendUpdate.place_loop initial_size u.values 0 extended

/-- `std::unique` on a vector: drop every element equal to its predecessor. -/
def unique : List Nat → List Nat
  | [] => []
  | [a] => [a]
  | a :: b :: rest => if a = b then unique (b :: rest) else a :: unique (b :: rest)

/-- `class ShrinkUpdate`. -/
structure ShrinkUpdate where
  index : List Nat
deriving DecidableEq, Repr

/-- `ShrinkUpdate(const std::vector<size_t>&)`: sort, then deduplicate. -/
def ShrinkUpdate.of_vector (index : List Nat) : ShrinkUpdate :=
  ⟨unique (index.insertionSort (· ≤ ·))⟩

/-- `ShrinkUpdate(const individual_index_t&)`. -/
def ShrinkUpdate.of_index (index : IndividualIndex) : ShrinkUpdate :=
  ⟨index.toList⟩

/-- `ShrinkUpdate::update`: `entry.second.shrink(index)` for every entry; a
failing `shrink` leaves the entries before it shrunk. -/
def ShrinkUpdate.update_loop (index : List Nat) :
    named_array_t IndividualIndex →
      Except (named_array_t IndividualIndex) (named_array_t IndividualIndex)
  | [] => .ok []
  | entry :: rest =>
    match entry.2.shrink index with
    | none => .error (entry :: rest)
    | some b =>
      match update_loop index rest with
      | .ok rest' => .ok ((entry.1, b) :: rest')
      | .error rest' => .error ((entry.1, b) :: rest')

/-- `ShrinkUpdate::update`. -/
def ShrinkUpdate.update (u : ShrinkUpdate) (indices : named_array_t IndividualIndex) :
    Except (named_array_t IndividualIndex) (named_array_t IndividualIndex) :=
  ShrinkUpdate.update_loop u.index indices

/-- An element of `resize_updates`: the closure captures either an
`ExtendUpdate` or a `ShrinkUpdate` by value. -/
inductive ResizeUpdate where
  | extend (u : ExtendUpdate)
  | shrink (u : ShrinkUpdate)
deriving DecidableEq, Repr

/-- Call the closure on `indices`. -/
def ResizeUpdate.apply : ResizeUpdate → named_array_t IndividualIndex →
    Except (named_array_t IndividualIndex) (named_array_t IndividualIndex)
  | .extend u, indices => u.update indices
  | .shrink u, indices => u.update indices

/-- `using update_t = std::pair<std::string, individual_index_t>`. -/
abbrev update_t := String × IndividualIndex

/-- `class CategoricalVariable`. Both queues have their front at the head of
the list. -/
structure CategoricalVariable where
  categories : List String
  indices : named_array_t IndividualIndex
  updates : List update_t
  resize_updates : List ResizeUpdate
deriving DecidableEq, Repr

namespace CategoricalVariable

/-- The first loop of the constructor. -/
def init_indices (size : Nat) : List String → named_array_t IndividualIndex →
    named_array_t IndividualIndex
  | [], indices => indices
  | category :: rest, indices =>
    init_indices size rest (indices.insert category (IndividualIndex.empty size))

/-- The second loop of the constructor: `indices.at(values[i]).insert(i)`. -/
def init_values : List String → Nat → named_array_t IndividualIndex →
    Option (named_array_t IndividualIndex)
  | [], _, indices => some indices
  | value :: rest, i, indices =>
    match indices.find value with
    | none => none
    | some b =>
      match b.insert i with
      | none => none
      | some b' => init_values rest (i + 1) (indices.assign value b')

/-- `CategoricalVariable::CategoricalVariable(categories, values)`; `none`
when the constructor throws. -/
def create (categories values : List String) : Option CategoricalVariable :=
  match init_values values 0 (init_indices values.length categories []) with
  | none => none
  | some indices => some ⟨categories, indices, [], []⟩

/-- `CategoricalVariable::size`. `none` stands for dereferencing
`indices.begin()` of an empty map. -/
def size (v : CategoricalVariable) : Option Nat :=
  match v.indices with
  | [] => none
  | first :: _ => some first.2.max_size

/-- `CategoricalVariable::queue_update`. -/
def queue_update (v : CategoricalVariable) (category : String) (index : IndividualIndex) :
    CategoricalVariable :=
  { v with updates := v.updates ++ [(category, index)] }

/-- The body of the `while` loop of `CategoricalVariable::update` without
the `pop`: one pass over all entries for the update `next`. -/
def apply_update (next : update_t) (indices : named_array_t IndividualIndex) :
    named_array_t IndividualIndex :=
  let inverse_update := next.2.not
  indices.map fun entry =>
    if entry.1 = next.1 then
      (entry.1, entry.2.or next.2)
    else
      (entry.1, entry.2.and inverse_update)

/-- The `while (updates.size() > 0)` loop of `CategoricalVariable::update`. -/
def apply_updates : List update_t → named_array_t IndividualIndex →
    named_array_t IndividualIndex
  | [], indices => indices
  | next :: rest, indices => apply_updates rest (apply_update next indices)

/-- `CategoricalVariable::queue_extend`. -/
def queue_extend (v : CategoricalVariable) (new_values : List String) : CategoricalVariable :=
  { v with resize_updates := v.resize_updates ++ [.extend ⟨new_values⟩] }

/-- `CategoricalVariable::queue_shrink(const individual_index_t&)`. -/
def queue_shrink_index (v : CategoricalVariable) (index : IndividualIndex) :
    Except CategoricalVariable CategoricalVariable :=
  if some index.max_size ≠ v.size then .error v
  else .ok { v with resize_updates := v.resize_updates ++ [.shrink (.of_index index)] }

/-- The validation loop of `queue_shrink(const std::vector<size_t>&)`:
`true` when some `x >= size()`. With an empty `index` the loop body never
runs and `size()` is not evaluated. -/
def shrink_rejected (v : CategoricalVariable) (index : List Nat) : Bool :=
  index.any fun x =>
    match v.size with
    | none => true
    | some n => decide (n ≤ x)

/-- `CategoricalVariable::queue_shrink(const std::vector<size_t>&)`. -/
def queue_shrink (v : CategoricalVariable) (index : List Nat) :
    Except CategoricalVariable CategoricalVariable :=
  if v.shrink_rejected index then .error v
  else .ok { v with resize_updates := v.resize_updates ++ [.shrink (.of_vector index)] }

/-- The loop of `CategoricalVariable::apply_resize_updates` over the queue
`queue`: an update that throws stays at the front of the queue. -/
def resize_loop : List ResizeUpdate → named_array_t IndividualIndex →
    Except (List ResizeUpdate × named_array_t IndividualIndex)
      (List ResizeUpdate × named_array_t IndividualIndex)
  | [], indices => .ok ([], indices)
  | update :: rest, indices =>
    match update.apply indices with
    | .error indices' => .error (update :: rest, indices')
    | .ok indices' => resize_loop rest indices'

/-- `CategoricalVariable::apply_resize_updates`. -/
def apply_resize_updates (v : CategoricalVariable) :
    Except CategoricalVariable CategoricalVariable :=
  match resize_loop v.resize_updates v.indices with
  | .ok (queue, indices) => .ok { v with indices := indices, resize_updates := queue }
  | .error (queue, indices) => .error { v with indices := indices, resize_updates := queue }

/-- `CategoricalVariable::update`. -/
def update (v : CategoricalVariable) : Except CategoricalVariable CategoricalVariable :=
  apply_resize_updates { v with indices := apply_updates v.updates v.indices, updates := [] }

end CategoricalVariable

/-- How a call that returns a value can end without one: `stop message` is
`Rcpp::stop(message)`; `undefined` marks a step whose behaviour C++ leaves
undefined, such as dereferencing `begin()` of an empty container or converting
to `size_t` a `double` that is negative or not below `2 ^ 64`. -/
inductive Failure where
  | stop (message : String)
  | undefined
deriving DecidableEq, Repr

namespace CategoricalVariable

/-- The loop of `get_index_of(const std::vector<std::string>)`. -/
def get_index_of_loop (indices : named_array_t IndividualIndex) :
    List String → IndividualIndex → Except Failure IndividualIndex
  | [], result => .ok result
  | category :: rest, result =>
    match indices.find category with
    | none => .error (.stop ("unknown category: " ++ category))
    | some b => get_index_of_loop indices rest (result.or b)

/-- `CategoricalVariable::get_index_of(const std::vector<std::string>)`. -/
def get_index_of (v : CategoricalVariable) (categories : List String) :
    Except Failure IndividualIndex :=
  match v.size with
  | none => .error .undefined
  | some size => get_index_of_loop v.indices categories (IndividualIndex.empty size)

/-- `CategoricalVariable::get_index_of(const std::string)`. -/
def get_index_of_category (v : CategoricalVariable) (category : String) :
    Except Failure IndividualIndex :=
  match v.indices.find category with
  | none => .error (.stop ("unknown category: " ++ category))
  | some b => .ok b

/-- The loop of `get_size_of(const std::vector<std::string>)`. -/
def get_size_of_loop (indices : named_array_t IndividualIndex) :
    List String → Nat → Except Failure Nat
  | [], result => .ok result
  | category :: rest, result =>
    match indices.find category with
    | none => .error (.stop ("unknown category: " ++ category))
    | some b => get_size_of_loop indices rest (result + b.size)

/-- `CategoricalVariable::get_size_of(const std::vector<std::string>)`. -/
def get_size_of (v : CategoricalVariable) (categories : List String) : Except Failure Nat :=
  get_size_of_loop v.indices categories 0

/-- `CategoricalVariable::get_size_of(const std::string)`. -/
def get_size_of_category (v : CategoricalVariable) (category : String) :
    Except Failure Nat :=
  match v.indices.find category with
  | none => .error (.stop ("unknown category: " ++ category))
  | some b => .ok (0 + b.size)

end CategoricalVariable

/-! ## Properties the claims speak about -/

/-- The per-category indices form a partition of `[0, n)`: the map holds one
entry per category, every index has capacity `n`, the indices of different
categories are disjoint, and their union is exactly `[0, n)`. -/
def Partition (indices : named_array_t IndividualIndex) (n : Nat) : Prop :=
  indices.keys.Nodup ∧
  (∀ c b, indices.find c = some b → b.max_size = n) ∧
  (∀ c₁ c₂ b₁ b₂, indices.find c₁ = some b₁ → indices.find c₂ = some b₂ → c₁ ≠ c₂ →
    ∀ i, ¬ (b₁.contains i = true ∧ b₂.contains i = true)) ∧
  (∀ i, i < n ↔ ∃ c b, indices.find c = some b ∧ b.contains i = true)

/-- An executable check of `Partition`: every identifier below `n` is held by
exactly one entry. -/
def is_partition (indices : named_array_t IndividualIndex) (n : Nat) : Bool :=
  decide indices.keys.Nodup &&
  indices.all (fun entry => entry.2.max_size == n) &&
  (List.range n).all fun i => (indices.filter fun entry => entry.2.contains i).length == 1

/-- The identifier a surviving individual `s` carries after the identifiers
`ids` have been removed: the number of surviving identifiers below `s`, so the
`k`-th survivor in ascending order (counting from zero) becomes `k`. -/
def new_identifier (ids : List Nat) (s : Nat) : Nat :=
  ((List.range s).filter fun j => decide (j ∉ ids)).length

/-- The commit step as the specification words it for one queued
`(category, index)`: the destination category's index becomes
`destination ∪ index`, every other category's index becomes `other ∧ ¬index`. -/
def spec_step (indices : named_array_t IndividualIndex) (u : update_t) :
    named_array_t IndividualIndex :=
  indices.map fun entry =>
    (entry.1, if entry.1 = u.1 then entry.2.or u.2 else entry.2.and u.2.not)

/-- The same step with the other categories written as the set difference
`other \ index`. -/
def spec_step_difference (indices : named_array_t IndividualIndex) (u : update_t) :
    named_array_t IndividualIndex :=
  indices.map fun entry =>
    (entry.1, if entry.1 = u.1 then entry.2.or u.2 else entry.2.difference u.2)

/-- A queueing call made by a process between two commits. -/
inductive QueueCall where
  | queue_update (category : String) (index : IndividualIndex)
  | queue_extend (new_values : List String)
  | queue_shrink (index : List Nat)
  | queue_shrink_index (index : IndividualIndex)
deriving DecidableEq, Repr

/-- Make one queueing call; a `queue_shrink` that throws leaves the variable
as it was and the caller carries on. -/
def QueueCall.run (v : CategoricalVariable) : QueueCall → CategoricalVariable
  | .queue_update category index => v.queue_update category index
  | .queue_extend new_values => v.queue_extend new_values
  | .queue_shrink index => final (v.queue_shrink index)
  | .queue_shrink_index index => final (v.queue_shrink_index index)

/-- Make a sequence of queueing calls, first to last. -/
def run_calls (v : CategoricalVariable) (calls : List QueueCall) : CategoricalVariable :=
  calls.foldl QueueCall.run v

/-- The number of values of a `size_t`. -/
def SIZE_T : Nat := 2 ^ 64

/-- `round` of `<cmath>` on a finite `double`, read as a rational: the
nearest integer, halfway cases away from zero. -/
def round_half_away (x : ℚ) : Int :=
  if 0 ≤ x then ⌊x + 1 / 2⌋ else -⌊-x + 1 / 2⌋

/-- `round_delay`, element by element from the front: a negative delay stops
with `Rcpp::stop("delay must be >= 0")`; `static_cast<size_t>(round(delay[i]))`
is defined only when the rounded value is below `2 ^ 64`, and is undefined
otherwise. The delays are finite `double`s. -/
def round_delay : List ℚ → Except Failure (List Nat)
  | [] => .ok []
  | d :: rest =>
    if d < 0 then .error (.stop "delay must be >= 0")
    else if (SIZE_T : Int) ≤ round_half_away d then .error .undefined
    else
      match round_delay rest with
      | .error failure => .error failure
      | .ok rounded => .ok ((round_half_away d).toNat :: rounded)

/-- How a call that changes an object fails: an exception leaves the object in
`state`, or the behaviour of the call is undefined. -/
inductive Thrown (σ : Type) where
  | threw (state : σ)
  | undefined
deriving DecidableEq, Repr

/-- A listener handle (`SEXP`): an external pointer to a C++ listener
(`TYPEOF(listener) == EXTPTRSXP`) or an R function. -/
inductive SEXP where
  | extptr (id : Nat)
  | closure (id : Nat)
deriving DecidableEq, Repr

/-- One call of a targeted listener: a C++ listener receives `(t, target)`, an
R function receives `(t, r_target)` with the members of `target` numbered from
one. -/
inductive TargetedCall where
  | cpp (listener : Nat) (t : Nat) (target : IndividualIndex)
  | r (listener : Nat) (t : Nat) (r_target : List Nat)
deriving DecidableEq, Repr

/-- `std::map<size_t, individual_index_t>`: entries in ascending key order. -/
abbrev schedule_map := List (Nat × IndividualIndex)

namespace schedule_map

/-- `m.find(key)`; `none` stands for `m.end()`. -/
def find : schedule_map → Nat → Option IndividualIndex
  | [], _ => none
  | (k, v) :: rest, key => if k = key then some v else find rest key

/-- `m.insert({key, value})`: the entry goes to its place in key order;
nothing happens when the key is already there. -/
def insert : schedule_map → Nat → IndividualIndex → schedule_map
  | [], key, value => [(key, value)]
  | (k, v) :: rest, key, value =>
    if key < k then (key, value) :: (k, v) :: rest
    else if key = k then (k, v) :: rest
    else (k, v) :: insert rest key value

/-- `m.erase(key)`. -/
def erase : schedule_map → Nat → schedule_map
  | [], _ => []
  | (k, v) :: rest, key => if k = key then rest else (k, v) :: erase rest key

/-- The keys in iteration order. -/
def keys (m : schedule_map) : List Nat := m.map Prod.fst

/-- The keys are strictly ascending, as in every `std::map`. -/
def Ordered (m : schedule_map) : Prop := m.Pairwise fun a b => a.1 < b.1

instance (m : schedule_map) : Decidable m.Ordered := by
  unfold Ordered
  infer_instance

end schedule_map

/-- `struct TargetedEvent : public EventBase`. -/
structure TargetedEvent where
  listeners : List SEXP
  t : Nat
  targeted_schedule : schedule_map
  size : Nat
deriving DecidableEq, Repr

namespace TargetedEvent

/-- `TargetedEvent(size_t size)`. -/
def create (size : Nat) : TargetedEvent := ⟨[], 0, [], size⟩

/-- `EventBase::add_listener`. -/
def add_listener (e : TargetedEvent) (listener : SEXP) : TargetedEvent :=
  { e with listeners := e.listeners ++ [listener] }

/-- The loop over the listeners in `TargetedEvent::process`. -/
def fire (listeners : List SEXP) (t : Nat) (target : IndividualIndex) : List TargetedCall :=
  listeners.map fun listener =>
    match listener with
    | .extptr id => .cpp id t target
    | .closure id => .r id t (target.toList.map (· + 1))

/-- `TargetedEvent::process`: the listener calls it makes, in order. The event
itself is not changed. -/
def process (e : TargetedEvent) : List TargetedCall :=
  match e.targeted_schedule with
  | [] => []
  | first :: _ => if first.1 = e.t then fire e.listeners e.t first.2 else []

/-- `TargetedEvent::tick`. -/
def tick (e : TargetedEvent) : TargetedEvent :=
  { e with targeted_schedule := e.targeted_schedule.erase e.t, t := (e.t + 1) % SIZE_T }

/-- `targeted_schedule.at(key) |= target` for a key that is in the map. -/
def or_at (m : schedule_map) (key : Nat) (target : IndividualIndex) : schedule_map :=
  m.map fun entry => if entry.1 = key then (entry.1, entry.2.or target) else entry

/-- `TargetedEvent::schedule(const individual_index_t&, size_t)`. -/
def schedule (e : TargetedEvent) (target : IndividualIndex) (delay : Nat) : TargetedEvent :=
  let target_timestep := (e.t + delay) % SIZE_T
  let inserted :=
    match e.targeted_schedule.find target_timestep with
    | none => e.targeted_schedule.insert target_timestep (IndividualIndex.empty e.size)
    | some _ => e.targeted_schedule
  { e with targeted_schedule := or_at inserted target_timestep target }

/-- The inner loop of the vectorised `schedule`: insert `target_vector[i]` for
every `i` with `rounded[i] == v`. `none` when an insert is out of range or
`target_vector` is too short. -/
def bucket (v : Nat) : List Nat → List Nat → IndividualIndex → Option IndividualIndex
  | [], _, target => some target
  | r :: rounded, target_vector, target =>
    if r = v then
      match target_vector.head? with
      | none => none
      | some id =>
        match target.insert id with
        | none => none
        | some target' => bucket v rounded target_vector.tail target'
    else bucket v rounded target_vector.tail target

/-- The outer loop of the vectorised `schedule` over `delay_values` in the
order the `std::unordered_set` yields them. -/
def schedule_loop (target_vector rounded : List Nat) :
    List Nat → TargetedEvent → Except TargetedEvent TargetedEvent
  | [], e => .ok e
  | v :: delay_values, e =>
    match bucket v rounded target_vector (IndividualIndex.empty e.size) with
    | none => .error e
    | some target => schedule_loop target_vector rounded delay_values (e.schedule target v)

/-- `TargetedEvent::schedule(const std::vector<size_t>&, const
std::vector<double>&)`. The iteration order of the `std::unordered_set` is
not specified; `order` says in which order it yields the distinct values of
`rounded`. -/
def schedule_vector_in (order : List Nat → List Nat) (e : TargetedEvent)
    (target_vector : List Nat) (delay : List ℚ) :
    Except (Thrown TargetedEvent) TargetedEvent :=
  match round_delay delay with
  | .error (.stop _) => .error (.threw e)
  | .error .undefined => .error .undefined
  | .ok rounded =>
    match schedule_loop target_vector rounded (order rounded) e with
    | .ok e' => .ok e'
    | .error e' => .error (.threw e')

/-- `TargetedEvent::clear_schedule`. -/
def clear_schedule (e : TargetedEvent) (target : IndividualIndex) : TargetedEvent :=
  let not_target := target.not
  { e with targeted_schedule := e.targeted_schedule.map fun entry =>
      (entry.1, entry.2.and not_target) }

/-- `TargetedEvent::get_scheduled`. -/
def get_scheduled (e : TargetedEvent) : IndividualIndex :=
  e.targeted_schedule.foldl (fun scheduled entry => scheduled.or entry.2)
    (IndividualIndex.empty e.size)

/-- The listener calls made by `n` simulation steps, each `process()` followed
by `tick()`; one list of calls per step. -/
def run : Nat → TargetedEvent → List (List TargetedCall)
  | 0, _ => []
  | n + 1, e => e.process :: run n e.tick

/-- The event after `n` steps of `process()` followed by `tick()`. -/
def after : Nat → TargetedEvent → TargetedEvent
  | 0, e => e
  | n + 1, e => after n e.tick

/-- An admissible iteration order of the `std::unordered_set` built from
`rounded`: every distinct value once. -/
def IsOrderOf (delay_values rounded : List Nat) : Prop :=
  delay_values.Nodup ∧ ∀ v, v ∈ delay_values ↔ v ∈ rounded

/-- Every entry of the schedule has the capacity of the event. -/
def Capacity (e : TargetedEvent) : Prop :=
  ∀ entry ∈ e.targeted_schedule, entry.2.max_size = e.size

instance (e : TargetedEvent) : Decidable e.Capacity := by
  unfold Capacity
  infer_instance

instance (delay_values rounded : List Nat) : Decidable (IsOrderOf delay_values rounded) :=
  decidable_of_iff (delay_values.Nodup ∧ (∀ v ∈ delay_values, v ∈ rounded) ∧
      ∀ v ∈ rounded, v ∈ delay_values) (by
    unfold IsOrderOf
    constructor
    · rintro ⟨h₁, h₂, h₃⟩
      exact ⟨h₁, fun v => ⟨h₂ v, h₃ v⟩⟩
    · rintro ⟨h₁, h₂⟩
      exact ⟨h₁, fun v hv => (h₂ v).1 hv, fun v hv => (h₂ v).2 hv⟩)

end TargetedEvent

/-- The set `{id}` with capacity `size`. -/
def IndividualIndex.singleton (size id : Nat) : IndividualIndex :=
  ⟨(List.range size).map fun i => decide (i = id)⟩

/-- The bucket of the rounded delay `v` as the specification words it: the
identifiers whose delay rounds to `v`. -/
def spec_bucket (size : Nat) (target_vector rounded : List Nat) (v : Nat) : IndividualIndex :=
  ⟨(List.range size).map fun id => (target_vector.zip rounded).contains (id, v)⟩

/-- One scalar `schedule(bucket_v, v)` per distinct rounded delay `v`, in the
order `delay_values`. -/
def schedule_per_bucket (e : TargetedEvent) (target_vector rounded delay_values : List Nat) :
    TargetedEvent :=
  delay_values.foldl (fun e v => e.schedule (spec_bucket e.size target_vector rounded v) v) e

/-- One scalar `schedule({target_ids[i]}, round(delays[i]))` per individual. -/
def schedule_per_individual (e : TargetedEvent) (target_vector rounded : List Nat) :
    TargetedEvent :=
  (target_vector.zip rounded).foldl
    (fun e p => e.schedule (IndividualIndex.singleton e.size p.1) p.2) e

/-- A sequence of scalar `schedule(target, delay)` calls, first to last. -/
def TargetedEvent.schedule_all (e : TargetedEvent) (calls : List (Nat × IndividualIndex)) :
    TargetedEvent :=
  calls.foldl (fun e call => e.schedule call.2 call.1) e

/-- `TargetedEvent::schedule(const individual_index_t&, double)`: the delay is
rounded and converted, with no test of its sign; the conversion of a negative
value, or of one that is not below `2 ^ 64`, is undefined. -/
def TargetedEvent.schedule_double (e : TargetedEvent) (target : IndividualIndex) (delay : ℚ) :
    Except Failure TargetedEvent :=
  if round_half_away delay < 0 ∨ (SIZE_T : Int) ≤ round_half_away delay then .error .undefined
  else .ok (e.schedule target (round_half_away delay).toNat)

/-- One call of an untargeted listener: both kinds receive the timestep. -/
inductive EventCall where
  | cpp (listener : Nat) (t : Nat)
  | r (listener : Nat) (t : Nat)
deriving DecidableEq, Repr

/-- `std::set<size_t>`: the elements in ascending order, each once. -/
abbrev schedule_set := List Nat

namespace schedule_set

/-- `s.insert(x)`: the element goes to its place in the order; nothing happens
when it is already there. -/
def insert : schedule_set → Nat → schedule_set
  | [], x => [x]
  | y :: rest, x =>
    if x < y then x :: y :: rest
    else if x = y then y :: rest
    else y :: insert rest x

/-- `s.erase(x)`. -/
def erase : schedule_set → Nat → schedule_set
  | [], _ => []
  | y :: rest, x => if y = x then rest else y :: erase rest x

/-- The elements are strictly ascending, as in every `std::set`. -/
def Ordered (s : schedule_set) : Prop := s.Pairwise (· < ·)

instance (s : schedule_set) : Decidable s.Ordered := by
  unfold Ordered
  infer_instance

end schedule_set

/-- `struct Event : public EventBase`. -/
structure Event where
  listeners : List SEXP
  t : Nat
  simple_schedule : schedule_set
deriving DecidableEq, Repr

namespace Event

/-- The loop over the listeners in `Event::process`. -/
def fire (listeners : List SEXP) (t : Nat) : List EventCall :=
  listeners.map fun listener =>
    match listener with
    | .extptr id => .cpp id t
    | .closure id => .r id t

/-- `Event::process`: the listener calls it makes, in order. The set is not
tested for emptiness before `*simple_schedule.begin()` is read. -/
def process (e : Event) : Except Failure (List EventCall) :=
  match e.simple_schedule with
  | [] => .error .undefined
  | first :: _ => .ok (if first = e.t then fire e.listeners e.t else [])

/-- `Event::tick`. -/
def tick (e : Event) : Event :=
  { e with simple_schedule := e.simple_schedule.erase e.t, t := (e.t + 1) % SIZE_T }

/-- `Event::schedule`: `round_delay` runs to its end before the first insert. -/
def schedule (e : Event) (delays : List ℚ) : Except (Thrown Event) Event :=
  match round_delay delays with
  | .error (.stop _) => .error (.threw e)
  | .error .undefined => .error .undefined
  | .ok rounded =>
    .ok { e with simple_schedule :=
      rounded.foldl (fun s delay => s.insert ((e.t + delay) % SIZE_T)) e.simple_schedule }

/-- `Event::clear_schedule`. -/
def clear_schedule (e : Event) : Event :=
  { e with simple_schedule := [] }

end Event

namespace Event

/-- The state of a newly constructed `Event`. -/
def create : Event := ⟨[], 0, []⟩

/-- `EventBase::add_listener` on an `Event`. -/
def add_listener (e : Event) (listener : SEXP) : Event :=
  { e with listeners := e.listeners ++ [listener] }

/-- No scheduled timestep lies before `t`; `t` and the timesteps are values of
a `size_t`, and the set is in ascending order. -/
def Timely (e : Event) : Prop :=
  e.t < SIZE_T ∧ e.simple_schedule.Ordered ∧ ∀ x ∈ e.simple_schedule, e.t ≤ x ∧ x < SIZE_T

instance (e : Event) : Decidable e.Timely := by
  unfold Timely
  infer_instance

/-- One call on an `Event` in which no `t + delay` overflows. A `schedule`
that returns or throws leaves the event in the state its outcome carries; a
call whose behaviour is undefined is no step, so `process()` is a step only
where its behaviour is defined, and it leaves the event as it is. -/
inductive Step : Event → Event → Prop where
  | add_listener (e : Event) (listener : SEXP) : Step e (e.add_listener listener)
  | schedule (e e' : Event) (delays : List ℚ)
      (hrun : e.schedule delays = .ok e' ∨ e.schedule delays = .error (.threw e'))
      (h : ∀ d ∈ delays, 0 ≤ d → e.t + (round_half_away d).toNat < SIZE_T) :
      Step e e'
  | clear_schedule (e : Event) : Step e e.clear_schedule
  | process (e : Event) (calls : List EventCall) (h : e.process = .ok calls) : Step e e
  | tick (e : Event) : Step e e.tick

/-- The states reachable from the initial state by such calls. -/
inductive Reachable : Event → Prop where
  | initial : Reachable create
  | step {e e' : Event} (h : Reachable e) (s : Step e e') : Reachable e'

end Event

namespace TargetedEvent

/-- No pending timestep lies before `t`; `t` and the timesteps are values of a
`size_t`, and the map is in key order. -/
def Timely (e : TargetedEvent) : Prop :=
  e.t < SIZE_T ∧ e.targeted_schedule.Ordered ∧
    ∀ entry ∈ e.targeted_schedule, e.t ≤ entry.1 ∧ entry.1 < SIZE_T

instance (e : TargetedEvent) : Decidable e.Timely := by
  unfold Timely
  infer_instance

/-- One call on a `TargetedEvent` in which no `t + delay` overflows. A
`schedule` that returns or throws leaves the event in the state its outcome
carries; a call whose behaviour is undefined is no step; `process()` leaves the
event as it is. -/
inductive Step : TargetedEvent → TargetedEvent → Prop where
  | add_listener (e : TargetedEvent) (listener : SEXP) : Step e (e.add_listener listener)
  | schedule (e : TargetedEvent) (target : IndividualIndex) (delay : Nat)
      (h : e.t + delay < SIZE_T) : Step e (e.schedule target delay)
  | schedule_double (e e' : TargetedEvent) (target : IndividualIndex) (delay : ℚ)
      (hrun : e.schedule_double target delay = .ok e')
      (h : e.t + (round_half_away delay).toNat < SIZE_T) : Step e e'
  | schedule_vector (e e' : TargetedEvent) (order : List Nat → List Nat)
      (target_vector : List Nat) (delay : List ℚ)
      (horder : ∀ rounded, IsOrderOf (order rounded) rounded)
      (hrun : schedule_vector_in order e target_vector delay = .ok e' ∨
        schedule_vector_in order e target_vector delay = .error (.threw e'))
      (h : ∀ d ∈ delay, 0 ≤ d → e.t + (round_half_away d).toNat < SIZE_T) :
      Step e e'
  | clear_schedule (e : TargetedEvent) (target : IndividualIndex) :
      Step e (e.clear_schedule target)
  | process (e : TargetedEvent) : Step e e
  | tick (e : TargetedEvent) : Step e e.tick

/-- The states reachable from a newly constructed event by such calls. -/
inductive Reachable : TargetedEvent → Prop where
  | initial (size : Nat) : Reachable (create size)
  | step {e e' : TargetedEvent} (h : Reachable e) (s : Step e e') : Reachable e'

/-- What `process()` does when it acts on the entry for `t`, if there is one. -/
def process_by_find (e : TargetedEvent) (t : Nat) : List TargetedCall :=
  match e.targeted_schedule.find t with
  | some target => fire e.listeners t target
  | none => []

end TargetedEvent

/-! ### Pointwise description of the bitset operations -/

namespace IndividualIndex

theorem contains_eq_getElem? (b : IndividualIndex) (i : Nat) :
    b.contains i = (b.bits[i]?).getD false := by
  simp [contains, List.getD_eq_getElem?_getD]

theorem contains_lt {b : IndividualIndex} {i : Nat} (h : b.contains i = true) :
    i < b.max_size := by
  by_contra hlt
  have : b.bits[i]? = none := List.getElem?_eq_none (by simpa [max_size] using hlt)
  simp [contains_eq_getElem?, this] at h

theorem contains_of_le {b : IndividualIndex} {i : Nat} (h : b.max_size ≤ i) :
    b.contains i = false := by
  cases hc : b.contains i
  · rfl
  · exact absurd (contains_lt hc) (by omega)

theorem ext_iff_contains {a b : IndividualIndex} :
    a = b ↔ a.max_size = b.max_size ∧ ∀ i, a.contains i = b.contains i := by
  constructor
  · rintro rfl
    exact ⟨rfl, fun _ => rfl⟩
  · rintro ⟨hsz, hc⟩
    cases a with
    | mk xs =>
      cases b with
      | mk ys =>
        simp only [max_size] at hsz
        congr 1
        apply List.ext_getElem hsz
        intro i h1 h2
        have := hc i
        simp only [contains_eq_getElem?, List.getElem?_eq_getElem h1,
          List.getElem?_eq_getElem h2, Option.getD_some] at this
        exact this

@[simp] theorem max_size_empty (n : Nat) : (empty n).max_size = n := by
  simp [empty, max_size]

@[simp] theorem contains_empty (n i : Nat) : (empty n).contains i = false := by
  simp only [contains_eq_getElem?, empty, List.getElem?_replicate]
  split <;> rfl

@[simp] theorem max_size_or (a b : IndividualIndex) : (a.or b).max_size = a.max_size := by
  simp [IndividualIndex.or, max_size]

@[simp] theorem max_size_and (a b : IndividualIndex) : (a.and b).max_size = a.max_size := by
  simp [IndividualIndex.and, max_size]

@[simp] theorem max_size_not (a : IndividualIndex) : a.not.max_size = a.max_size := by
  simp [IndividualIndex.not, max_size]

@[simp] theorem max_size_difference (a b : IndividualIndex) :
    (a.difference b).max_size = a.max_size := by
  simp [difference, max_size]

@[simp] theorem max_size_extend (a : IndividualIndex) (k : Nat) :
    (a.extend k).max_size = a.max_size + k := by
  simp [extend, max_size]

theorem contains_range_map (n : Nat) (f : Nat → Bool) (i : Nat) :
    (IndividualIndex.mk ((List.range n).map f)).contains i = (decide (i < n) && f i) := by
  simp only [contains_eq_getElem?, List.getElem?_map, List.getElem?_range]
  by_cases h : i < n
  · simp [List.getElem?_range h, h]
  · simp [List.getElem?_eq_none (l := List.range n) (by simpa using h), h]

theorem contains_or (a b : IndividualIndex) (i : Nat) :
    (a.or b).contains i = (a.contains i || (decide (i < a.max_size) && b.contains i)) := by
  rw [IndividualIndex.or, contains_range_map]
  by_cases h : i < a.max_size
  · simp [h]
  · simp [h, contains_of_le (Nat.le_of_not_lt h)]

theorem contains_and (a b : IndividualIndex) (i : Nat) :
    (a.and b).contains i = (a.contains i && b.contains i) := by
  rw [IndividualIndex.and, contains_range_map]
  by_cases h : i < a.max_size
  · simp [h]
  · simp [h, contains_of_le (Nat.le_of_not_lt h)]

theorem contains_difference (a b : IndividualIndex) (i : Nat) :
    (a.difference b).contains i = (a.contains i && !b.contains i) := by
  rw [difference, contains_range_map]
  by_cases h : i < a.max_size
  · simp [h]
  · simp [h, contains_of_le (Nat.le_of_not_lt h)]

theorem contains_not (a : IndividualIndex) (i : Nat) :
    a.not.contains i = (decide (i < a.max_size) && !a.contains i) := by
  simp only [contains_eq_getElem?, IndividualIndex.not, List.getElem?_map, max_size]
  by_cases h : i < a.bits.length
  · simp [List.getElem?_eq_getElem h, h]
  · simp [List.getElem?_eq_none (l := a.bits) (by simpa using h), h]

theorem contains_extend (a : IndividualIndex) (k i : Nat) :
    (a.extend k).contains i = a.contains i := by
  simp only [contains_eq_getElem?, extend]
  by_cases h : i < a.bits.length
  · simp [List.getElem?_append_left h]
  · have h' : a.bits.length ≤ i := Nat.le_of_not_lt h
    rw [List.getElem?_append_right h', List.getElem?_eq_none (l := a.bits) h',
      List.getElem?_replicate]
    split <;> rfl

theorem insert_eq_some {b b' : IndividualIndex} {i : Nat} (h : b.insert i = some b') :
    i < b.max_size ∧ b'.max_size = b.max_size ∧
      ∀ j, b'.contains j = (decide (j = i) || b.contains j) := by
  unfold insert at h
  split at h
  · rename_i hlt
    cases h
    refine ⟨hlt, by simp [max_size], fun j => ?_⟩
    simp only [contains_eq_getElem?, List.getElem?_set]
    by_cases hj : i = j
    · subst hj
      simp [max_size] at hlt
      simp [hlt]
    · have hj' : ¬ j = i := fun h => hj h.symm
      simp [hj, hj']
  · cases h

theorem insert_isSome {b : IndividualIndex} {i : Nat} (h : i < b.max_size) :
    ∃ b', b.insert i = some b' := by
  simp [insert, h]

end IndividualIndex

/-! ### Lookup in a `named_array_t` -/

namespace named_array_t

theorem find_eq_none_iff {α : Type} (m : named_array_t α) (c : String) :
    m.find c = none ↔ c ∉ m.keys := by
  induction m with
  | nil => simp [find, keys]
  | cons e rest ih =>
    obtain ⟨k, v⟩ := e
    by_cases h : k = c
    · simp [find, keys, h]
    · have h' : ¬ c = k := fun hc => h hc.symm
      simpa [find, keys, h, h'] using ih

theorem find_isSome_of_mem_keys {α : Type} {m : named_array_t α} {c : String}
    (h : c ∈ m.keys) : ∃ b, m.find c = some b := by
  cases hf : m.find c with
  | none => exact absurd h ((find_eq_none_iff m c).1 hf)
  | some b => exact ⟨b, rfl⟩

theorem mem_keys_of_find {α : Type} {m : named_array_t α} {c : String} {b : α}
    (h : m.find c = some b) : c ∈ m.keys := by
  by_contra hc
  rw [(find_eq_none_iff m c).2 hc] at h
  cases h

theorem mem_of_find {α : Type} {m : named_array_t α} {c : String} {b : α}
    (h : m.find c = some b) : (c, b) ∈ m := by
  induction m with
  | nil => simp [find] at h
  | cons e rest ih =>
    obtain ⟨k, v⟩ := e
    by_cases hk : k = c
    · simp [find, hk] at h
      simp [hk, h]
    · simp [find, hk] at h
      exact List.mem_cons_of_mem _ (ih h)

theorem find_of_mem {α : Type} {m : named_array_t α} (hnd : m.keys.Nodup) {c : String} {b : α}
    (h : (c, b) ∈ m) : m.find c = some b := by
  induction m with
  | nil => simp at h
  | cons e rest ih =>
    obtain ⟨k, v⟩ := e
    simp only [keys, List.map_cons, List.nodup_cons] at hnd
    rcases List.mem_cons.1 h with heq | hmem
    · cases heq
      simp [find]
    · have hck : k ≠ c := by
        rintro rfl
        exact hnd.1 (List.mem_map.2 ⟨(k, b), hmem, rfl⟩)
      simp only [find, hck, if_false]
      exact ih hnd.2 hmem

theorem keys_map_snd {α : Type} (m : named_array_t α) (f : String × α → α) :
    keys (m.map fun entry => (entry.1, f entry)) = m.keys := by
  simp [keys, List.map_map, Function.comp_def]

theorem find_map_snd {α : Type} (m : named_array_t α) (f : String × α → α) (c : String) :
    find (m.map fun entry => (entry.1, f entry)) c = (m.find c).map fun b => f (c, b) := by
  induction m with
  | nil => simp [find]
  | cons e rest ih =>
    obtain ⟨k, v⟩ := e
    by_cases hk : k = c
    · subst hk
      simp [find]
    · simpa [find, hk] using ih

theorem keys_assign {α : Type} (m : named_array_t α) (key : String) (value : α) :
    (m.assign key value).keys = m.keys := by
  induction m with
  | nil => simp [assign]
  | cons e rest ih =>
    obtain ⟨k, v⟩ := e
    by_cases hk : k = key
    · simp [assign, keys, hk]
    · simp only [assign, hk, if_false, keys, List.map_cons] at ih ⊢
      rw [ih]

theorem find_assign {α : Type} (m : named_array_t α) (key : String) (value : α) (c : String) :
    (m.assign key value).find c =
      if c = key then (m.find key).map (fun _ => value) else m.find c := by
  induction m with
  | nil => simp [assign, find]
  | cons e rest ih =>
    obtain ⟨k, v⟩ := e
    by_cases hk : k = key
    · subst hk
      by_cases hc : c = k
      · subst hc
        simp [assign, find]
      · have hc' : ¬ k = c := fun h => hc h.symm
        simp [assign, find, hc, hc']
    · by_cases hc : c = key
      · subst hc
        simpa [assign, find, hk] using ih
      · by_cases hkc : k = c
        · simp [assign, find, hk, hc, hkc]
        · simpa [assign, find, hk, hc, hkc] using ih

theorem mem_keys_insert {α : Type} (m : named_array_t α) (key : String) (value : α)
    (c : String) : c ∈ (m.insert key value).keys ↔ c ∈ m.keys ∨ c = key := by
  induction m with
  | nil => simp [insert, keys]
  | cons e rest ih =>
    obtain ⟨k, v⟩ := e
    by_cases hk : k = key
    · subst hk
      simp only [insert, if_true, keys, List.map_cons, List.mem_cons]
      tauto
    · simp only [insert, hk, if_false, keys, List.map_cons, List.mem_cons] at ih ⊢
      rw [ih]
      tauto

theorem keys_insert_nodup {α : Type} (m : named_array_t α) (key : String) (value : α)
    (h : m.keys.Nodup) : (m.insert key value).keys.Nodup := by
  induction m with
  | nil => simp [insert, keys]
  | cons e rest ih =>
    obtain ⟨k, v⟩ := e
    by_cases hk : k = key
    · simpa [insert, hk] using h
    · have h' := List.nodup_cons.1 h
      have hgoal : (k :: (insert rest key value).keys).Nodup := by
        refine List.nodup_cons.2 ⟨fun hmem => ?_, ih h'.2⟩
        rcases (mem_keys_insert rest key value k).1 hmem with h₁ | h₁
        · exact h'.1 h₁
        · exact hk h₁
      simpa [insert, hk, keys] using hgoal

theorem mem_insert {α : Type} (m : named_array_t α) (key : String) (value : α)
    (entry : String × α) (h : entry ∈ m.insert key value) :
    entry ∈ m ∨ entry = (key, value) := by
  induction m with
  | nil =>
    simp only [insert, List.mem_singleton] at h
    exact Or.inr h
  | cons e rest ih =>
    obtain ⟨k, v⟩ := e
    by_cases hk : k = key
    · simp only [insert, hk, if_true] at h
      exact Or.inl (by simpa [hk] using h)
    · simp only [insert, hk, if_false, List.mem_cons] at h
      rcases h with h | h
      · exact Or.inl (by simp [h])
      · rcases ih h with h₁ | h₁
        · exact Or.inl (List.mem_cons_of_mem _ h₁)
        · exact Or.inr h₁

end named_array_t

/-! ### Value updates -/

namespace CategoricalVariable

theorem find_apply_update (next : update_t) (indices : named_array_t IndividualIndex)
    (c : String) :
    (apply_update next indices).find c =
      (indices.find c).map fun b => if c = next.1 then b.or next.2 else b.and next.2.not := by
  have h : apply_update next indices =
      indices.map fun entry =>
        (entry.1, if entry.1 = next.1 then entry.2.or next.2 else entry.2.and next.2.not) := by
    unfold apply_update
    apply List.map_congr_left
    intro entry _
    by_cases hk : entry.1 = next.1 <;> simp [hk]
  rw [h, named_array_t.find_map_snd]

theorem keys_apply_update (next : update_t) (indices : named_array_t IndividualIndex) :
    (apply_update next indices).keys = indices.keys := by
  unfold apply_update named_array_t.keys
  rw [List.map_map]
  apply List.map_congr_left
  intro entry _
  by_cases hk : entry.1 = next.1 <;> simp [hk]

theorem keys_apply_updates (queue : List update_t) (indices : named_array_t IndividualIndex) :
    (apply_updates queue indices).keys = indices.keys := by
  induction queue generalizing indices with
  | nil => rfl
  | cons next rest ih => rw [apply_updates, ih, keys_apply_update]

/-- One value update: which identifiers an index holds afterwards. -/
theorem contains_apply_update {next : update_t} {indices : named_array_t IndividualIndex}
    {n : Nat} (hcap : ∀ c b, indices.find c = some b → b.max_size = n)
    (hnext : next.2.max_size = n) {c : String} {b' : IndividualIndex}
    (h : (apply_update next indices).find c = some b') :
    ∃ b, indices.find c = some b ∧ b'.max_size = n ∧
      ∀ i, b'.contains i =
        if next.2.contains i = true then decide (c = next.1) else b.contains i := by
  rw [find_apply_update] at h
  cases hb : indices.find c with
  | none => simp [hb] at h
  | some b =>
    have hbn := hcap c b hb
    simp only [hb, Option.map_some', Option.some.injEq] at h
    refine ⟨b, rfl, ?_, fun i => ?_⟩
    · subst h
      by_cases hc : c = next.1 <;> simp [hc, hbn]
    · subst h
      by_cases hc : c = next.1
      · simp only [hc, if_true, IndividualIndex.contains_or, decide_True]
        cases hx : next.2.contains i
        · simp
        · have := IndividualIndex.contains_lt hx
          simp [hbn, hnext ▸ this]
      · simp only [hc, if_false, IndividualIndex.contains_and, IndividualIndex.contains_not,
          decide_False]
        cases hx : next.2.contains i
        · cases hbi : b.contains i
          · simp
          · have := IndividualIndex.contains_lt hbi
            simp [hnext, hbn ▸ this]
        · simp

end CategoricalVariable

theorem Partition.apply_update {indices : named_array_t IndividualIndex} {n : Nat}
    (hp : Partition indices n) {next : update_t} (hkey : next.1 ∈ indices.keys)
    (hnext : next.2.max_size = n) :
    Partition (CategoricalVariable.apply_update next indices) n := by
  obtain ⟨hnd, hcap, hdis, hcov⟩ := hp
  refine ⟨?_, ?_, ?_, ?_⟩
  · rw [CategoricalVariable.keys_apply_update]
    exact hnd
  · intro c b' h
    obtain ⟨_, _, hsz, _⟩ := CategoricalVariable.contains_apply_update hcap hnext h
    exact hsz
  · intro c₁ c₂ b₁' b₂' h₁ h₂ hne i ⟨hi₁, hi₂⟩
    obtain ⟨b₁, hb₁, _, hc₁⟩ := CategoricalVariable.contains_apply_update hcap hnext h₁
    obtain ⟨b₂, hb₂, _, hc₂⟩ := CategoricalVariable.contains_apply_update hcap hnext h₂
    rw [hc₁] at hi₁
    rw [hc₂] at hi₂
    cases hx : next.2.contains i
    · simp only [hx] at hi₁ hi₂
      exact hdis c₁ c₂ b₁ b₂ hb₁ hb₂ hne i ⟨by simpa using hi₁, by simpa using hi₂⟩
    · simp only [hx, if_true, decide_eq_true_eq] at hi₁ hi₂
      exact hne (hi₁.trans hi₂.symm)
  · intro i
    constructor
    · intro hi
      cases hx : next.2.contains i
      · obtain ⟨c, b, hb, hbi⟩ := (hcov i).1 hi
        have hf := CategoricalVariable.find_apply_update next indices c
        rw [hb] at hf
        obtain ⟨b₀, hb₀, _, hc₀⟩ := CategoricalVariable.contains_apply_update hcap hnext hf
        refine ⟨c, _, hf, ?_⟩
        rw [hc₀, hx]
        rw [hb] at hb₀
        cases hb₀
        simpa using hbi
      · obtain ⟨b, hb⟩ := named_array_t.find_isSome_of_mem_keys hkey
        have hf := CategoricalVariable.find_apply_update next indices next.1
        rw [hb] at hf
        obtain ⟨b₀, _, _, hc₀⟩ := CategoricalVariable.contains_apply_update hcap hnext hf
        refine ⟨next.1, _, hf, ?_⟩
        rw [hc₀, hx]
        simp
    · rintro ⟨c, b', hb', hi⟩
      obtain ⟨_, _, hsz, _⟩ := CategoricalVariable.contains_apply_update hcap hnext hb'
      exact hsz ▸ IndividualIndex.contains_lt hi

theorem Partition.apply_updates {queue : List update_t}
    {indices : named_array_t IndividualIndex} {n : Nat}
    (hp : Partition indices n)
    (hq : ∀ u ∈ queue, u.1 ∈ indices.keys ∧ u.2.max_size = n) :
    Partition (CategoricalVariable.apply_updates queue indices) n := by
  induction queue generalizing indices with
  | nil => exact hp
  | cons next rest ih =>
    have hn := hq next (List.mem_cons_self _ _)
    apply ih (hp.apply_update hn.1 hn.2)
    intro u hu
    rw [CategoricalVariable.keys_apply_update]
    exact hq u (List.mem_cons_of_mem _ hu)

/-! ### Extending the population -/

theorem ExtendUpdate.place_loop_spec (n N : Nat) :
    ∀ (values : List String) (j : Nat) (indices : named_array_t IndividualIndex),
      (∀ c ∈ values, c ∈ indices.keys) →
      (∀ c b, indices.find c = some b → b.max_size = N) →
      n + j + values.length ≤ N →
      ∃ indices', ExtendUpdate.place_loop n values j indices = .ok indices' ∧
        indices'.keys = indices.keys ∧
        ∀ c b', indices'.find c = some b' →
          ∃ b, indices.find c = some b ∧ b'.max_size = N ∧
            ∀ x, b'.contains x = true ↔
              (b.contains x = true ∨ ∃ k, values[k]? = some c ∧ x = n + j + k) := by
  intro values
  induction values with
  | nil =>
    intro j indices _ hcap _
    refine ⟨indices, rfl, rfl, fun c b' hb' => ⟨b', hb', hcap c b' hb', fun x => ?_⟩⟩
    simp
  | cons value rest ih =>
    intro j indices hkeys hcap hlen
    obtain ⟨b, hb⟩ := named_array_t.find_isSome_of_mem_keys
      (hkeys value (List.mem_cons_self _ _))
    have hbN := hcap value b hb
    have hlt : n + j < b.max_size := by
      simp only [List.length_cons] at hlen
      omega
    obtain ⟨b₁, hb₁⟩ := IndividualIndex.insert_isSome hlt
    obtain ⟨_, hb₁sz, hb₁c⟩ := IndividualIndex.insert_eq_some hb₁
    have hkeys₁ : (indices.assign value b₁).keys = indices.keys :=
      named_array_t.keys_assign _ _ _
    have hfind₁ : ∀ c, (indices.assign value b₁).find c =
        if c = value then some b₁ else indices.find c := by
      intro c
      rw [named_array_t.find_assign, hb]
      rfl
    obtain ⟨indices', hrun, hk', hspec⟩ := ih (j + 1) (indices.assign value b₁)
      (fun c hc => hkeys₁ ▸ hkeys c (List.mem_cons_of_mem _ hc))
      (fun c b₂ h => by
        rw [hfind₁] at h
        by_cases hcv : c = value
        · simp only [hcv, if_true, Option.some.injEq] at h
          rw [← h, hb₁sz, hbN]
        · simp only [hcv, if_false] at h
          exact hcap c b₂ h)
      (by simp only [List.length_cons] at hlen; omega)
    refine ⟨indices', ?_, hk'.trans hkeys₁, ?_⟩
    · simp only [ExtendUpdate.place_loop, hb, hb₁]
      exact hrun
    · intro c b' hb'
      obtain ⟨b₂, hb₂, hsz, hc⟩ := hspec c b' hb'
      rw [hfind₁] at hb₂
      by_cases hcv : c = value
      · subst hcv
        simp only [if_true, Option.some.injEq] at hb₂
        subst hb₂
        refine ⟨b, hb, hsz, fun x => ?_⟩
        rw [hc, hb₁c]
        constructor
        · rintro (h | ⟨k, hk, hx⟩)
          · simp only [Bool.or_eq_true, decide_eq_true_eq] at h
            rcases h with h | h
            · exact Or.inr ⟨0, by simp, by omega⟩
            · exact Or.inl h
          · exact Or.inr ⟨k + 1, by simpa using hk, by omega⟩
        · rintro (h | ⟨k, hk, hx⟩)
          · exact Or.inl (by simp [h])
          · cases k with
            | zero => exact Or.inl (by simp [hx])
            | succ k => exact Or.inr ⟨k, by simpa using hk, by omega⟩
      · simp only [hcv, if_false] at hb₂
        refine ⟨b₂, hb₂, hsz, fun x => ?_⟩
        rw [hc]
        constructor
        · rintro (h | ⟨k, hk, hx⟩)
          · exact Or.inl h
          · exact Or.inr ⟨k + 1, by simpa using hk, by omega⟩
        · rintro (h | ⟨k, hk, hx⟩)
          · exact Or.inl h
          · cases k with
            | zero =>
              simp only [List.getElem?_cons_zero, Option.some.injEq] at hk
              exact absurd hk.symm hcv
            | succ k => exact Or.inr ⟨k, by simpa using hk, by omega⟩

/-- What `ExtendUpdate::update` does to indices of a common capacity `n` when
every value is a key of the map. -/
theorem ExtendUpdate.update_spec (u : ExtendUpdate) (indices : named_array_t IndividualIndex)
    (n : Nat) (hne : indices ≠ []) (hnd : indices.keys.Nodup)
    (hcap : ∀ c b, indices.find c = some b → b.max_size = n)
    (hkeys : ∀ c ∈ u.values, c ∈ indices.keys) :
    ∃ indices', u.update indices = .ok indices' ∧ indices'.keys = indices.keys ∧
      ∀ c b', indices'.find c = some b' →
        ∃ b, indices.find c = some b ∧ b'.max_size = n + u.values.length ∧
          ∀ x, b'.contains x = true ↔
            (b.contains x = true ∨ ∃ k, u.values[k]? = some c ∧ x = n + k) := by
  cases indices with
  | nil => exact absurd rfl hne
  | cons first rest =>
    have hfirst : first.2.max_size = n :=
      hcap first.1 first.2 (named_array_t.find_of_mem hnd (List.mem_cons_self _ _))
    let extended : named_array_t IndividualIndex :=
      (first :: rest).map fun entry => (entry.1, entry.2.extend u.values.length)
    have hfe : ∀ c, extended.find c =
        (named_array_t.find (first :: rest) c).map fun b => b.extend u.values.length :=
      fun c => named_array_t.find_map_snd (first :: rest) (fun e => e.2.extend u.values.length) c
    have hke : extended.keys = named_array_t.keys (first :: rest) :=
      named_array_t.keys_map_snd (first :: rest) (fun e => e.2.extend u.values.length)
    obtain ⟨indices', hrun, hk', hspec⟩ :=
      ExtendUpdate.place_loop_spec n (n + u.values.length) u.values 0 extended
        (fun c hc => hke ▸ hkeys c hc)
        (fun c b h => by
          rw [hfe] at h
          cases hb : named_array_t.find (first :: rest) c with
          | none => simp [hb] at h
          | some b₀ =>
            simp only [hb, Option.map_some', Option.some.injEq] at h
            rw [← h, IndividualIndex.max_size_extend, hcap c b₀ hb])
        (by omega)
    refine ⟨indices', ?_, hk'.trans hke, ?_⟩
    · simp only [ExtendUpdate.update, hfirst]
      exact hrun
    · intro c b' hb'
      obtain ⟨b₁, hb₁, hsz, hc⟩ := hspec c b' hb'
      rw [hfe] at hb₁
      cases hb : named_array_t.find (first :: rest) c with
      | none => simp [hb] at hb₁
      | some b₀ =>
        simp only [hb, Option.map_some', Option.some.injEq] at hb₁
        refine ⟨b₀, rfl, hsz, fun x => ?_⟩
        rw [hc, ← hb₁, IndividualIndex.contains_extend]
        simp

theorem Partition.extend {indices : named_array_t IndividualIndex} {n : Nat}
    (hp : Partition indices n) (hne : indices ≠ []) (u : ExtendUpdate)
    (hkeys : ∀ c ∈ u.values, c ∈ indices.keys) :
    ∃ indices', u.update indices = .ok indices' ∧ indices'.keys = indices.keys ∧
      Partition indices' (n + u.values.length) := by
  obtain ⟨hnd, hcap, hdis, hcov⟩ := hp
  obtain ⟨indices', hrun, hk', hspec⟩ := u.update_spec indices n hne hnd hcap hkeys
  refine ⟨indices', hrun, hk', hk' ▸ hnd, ?_, ?_, ?_⟩
  · intro c b' hb'
    obtain ⟨_, _, hsz, _⟩ := hspec c b' hb'
    exact hsz
  · intro c₁ c₂ b₁' b₂' h₁ h₂ hne' i ⟨hi₁, hi₂⟩
    obtain ⟨b₁, hb₁, _, hc₁⟩ := hspec c₁ b₁' h₁
    obtain ⟨b₂, hb₂, _, hc₂⟩ := hspec c₂ b₂' h₂
    rcases (hc₁ i).1 hi₁ with ho₁ | ⟨k₁, hk₁, hx₁⟩ <;>
      rcases (hc₂ i).1 hi₂ with ho₂ | ⟨k₂, hk₂, hx₂⟩
    · exact hdis c₁ c₂ b₁ b₂ hb₁ hb₂ hne' i ⟨ho₁, ho₂⟩
    · have := IndividualIndex.contains_lt ho₁
      rw [hcap c₁ b₁ hb₁] at this
      omega
    · have := IndividualIndex.contains_lt ho₂
      rw [hcap c₂ b₂ hb₂] at this
      omega
    · have hk : k₁ = k₂ := by omega
      subst hk
      rw [hk₁] at hk₂
      exact hne' (Option.some.inj hk₂)
  · intro i
    constructor
    · intro hi
      by_cases hlt : i < n
      · obtain ⟨c, b, hb, hbi⟩ := (hcov i).1 hlt
        obtain ⟨b', hb'⟩ := named_array_t.find_isSome_of_mem_keys
          (hk' ▸ named_array_t.mem_keys_of_find hb)
        obtain ⟨b₀, hb₀, _, hc⟩ := hspec c b' hb'
        rw [hb] at hb₀
        cases hb₀
        exact ⟨c, b', hb', (hc i).2 (Or.inl hbi)⟩
      · have hk : i - n < u.values.length := by omega
        have hget : u.values[i - n]? = some (u.values[i - n]) := List.getElem?_eq_getElem hk
        obtain ⟨b', hb'⟩ := named_array_t.find_isSome_of_mem_keys
          (hk' ▸ hkeys _ (List.getElem_mem hk))
        obtain ⟨b₀, _, _, hc⟩ := hspec _ b' hb'
        exact ⟨_, b', hb', (hc i).2 (Or.inr ⟨i - n, hget, by omega⟩)⟩
    · rintro ⟨c, b', hb', hi⟩
      obtain ⟨_, _, hsz, _⟩ := hspec c b' hb'
      exact hsz ▸ IndividualIndex.contains_lt hi

/-! ### Shrinking the population -/

theorem mem_unique (x : Nat) : ∀ l : List Nat, x ∈ unique l ↔ x ∈ l
  | [] => by simp [unique]
  | [a] => by simp [unique]
  | a :: b :: rest => by
    have ih := mem_unique x (b :: rest)
    by_cases hab : a = b
    · subst hab
      simp only [unique, if_true, ih, List.mem_cons]
      tauto
    · simp only [unique, hab, if_false, List.mem_cons] at ih ⊢
      rw [ih]

theorem ShrinkUpdate.mem_of_vector (ids : List Nat) (x : Nat) :
    x ∈ (ShrinkUpdate.of_vector ids).index ↔ x ∈ ids := by
  simp only [ShrinkUpdate.of_vector, mem_unique]
  exact (List.perm_insertionSort (· ≤ ·) ids).mem_iff

namespace IndividualIndex

theorem remaining_congr (n : Nat) {index₁ index₂ : List Nat}
    (h : ∀ x, x ∈ index₁ ↔ x ∈ index₂) : remaining n index₁ = remaining n index₂ := by
  unfold remaining
  apply List.filter_congr
  intro i _
  by_cases h₁ : i ∈ index₁
  · simp [h₁, (h i).1 h₁]
  · have h₂ : i ∉ index₂ := fun h₂ => h₁ ((h i).2 h₂)
    simp [h₁, h₂]

theorem mem_remaining {n : Nat} {index : List Nat} {s : Nat} :
    s ∈ remaining n index ↔ s < n ∧ s ∉ index := by
  simp [remaining]

theorem remaining_nodup (n : Nat) (index : List Nat) : (remaining n index).Nodup :=
  (List.nodup_range n).filter _

theorem length_remaining (n : Nat) (index : List Nat) (h : ∀ x ∈ index, x < n) :
    (remaining n index).length = n - index.dedup.length := by
  have h₁ : (remaining n index).length = ((Finset.range n) \ index.toFinset).card := by
    rw [← List.toFinset_card_of_nodup (remaining_nodup n index)]
    congr 1
    ext s
    simp [mem_remaining]
  have h₂ : index.toFinset ⊆ Finset.range n := by
    intro x hx
    simpa using h x (by simpa using hx)
  rw [h₁, Finset.card_sdiff h₂, Finset.card_range, List.card_toFinset]

theorem remaining_succ (n : Nat) (index : List Nat) :
    remaining (n + 1) index =
      remaining n index ++ (if n ∈ index then [] else [n]) := by
  unfold remaining
  rw [List.range_succ, List.filter_append]
  by_cases h : n ∈ index <;> simp [h]

theorem length_remaining_eq_new_identifier (index : List Nat) (s : Nat) :
    (remaining s index).length = new_identifier index s := by
  unfold remaining new_identifier
  congr 1
  apply List.filter_congr
  intro i _
  by_cases h : i ∈ index <;> simp [h]

/-- A surviving identifier `s` sits at position `new_identifier index s` of the
list of survivors. -/
theorem remaining_getElem?_new_identifier (index : List Nat) (s : Nat) (hs : s ∉ index) :
    ∀ n, s < n → (remaining n index)[new_identifier index s]? = some s := by
  intro n
  induction n with
  | zero => intro h; omega
  | succ n ih =>
    intro hlt
    rw [remaining_succ]
    by_cases hsn : s = n
    · subst hsn
      simp only [hs, if_false]
      rw [← length_remaining_eq_new_identifier]
      simp
    · have hlt' : s < n := by omega
      have := ih hlt'
      have hlen : new_identifier index s < (remaining n index).length := by
        by_contra hge
        rw [List.getElem?_eq_none (Nat.le_of_not_lt hge)] at this
        cases this
      rw [List.getElem?_append_left hlen]
      exact this

theorem new_identifier_of_getElem? {n : Nat} {index : List Nat} {k s : Nat}
    (h : (remaining n index)[k]? = some s) :
    s < n ∧ s ∉ index ∧ new_identifier index s = k := by
  obtain ⟨hk, hget⟩ := List.getElem?_eq_some.1 h
  have hmem : s ∈ remaining n index := hget ▸ List.getElem_mem hk
  obtain ⟨hsn, hsi⟩ := mem_remaining.1 hmem
  refine ⟨hsn, hsi, ?_⟩
  have h₂ := remaining_getElem?_new_identifier index s hsi n hsn
  obtain ⟨hk₂, hget₂⟩ := List.getElem?_eq_some.1 h₂
  exact (List.Nodup.getElem_inj_iff (remaining_nodup n index)).1 (hget₂.trans hget.symm)

end IndividualIndex

/-! ### The resize queue -/

theorem Partition.capacity_of_mem {indices : named_array_t IndividualIndex} {n : Nat}
    (hp : Partition indices n) : ∀ entry ∈ indices, entry.2.max_size = n :=
  fun entry h => hp.2.1 entry.1 entry.2 (named_array_t.find_of_mem hp.1 h)

theorem Partition.size_eq {v : CategoricalVariable} {n : Nat}
    (hp : Partition v.indices n) (hne : v.indices ≠ []) : v.size = some n := by
  unfold CategoricalVariable.size
  cases h : v.indices with
  | nil => exact absurd h hne
  | cons first rest =>
    have := hp.capacity_of_mem first (h ▸ List.mem_cons_self _ _)
    simp [this]

theorem CategoricalVariable.indices_ne_nil_of_size {v : CategoricalVariable} {n : Nat}
    (h : v.size = some n) : v.indices ≠ [] := by
  intro hnil
  simp [CategoricalVariable.size, hnil] at h

theorem ShrinkUpdate.update_loop_ok (index : List Nat) (n : Nat)
    (hidx : ∀ x ∈ index, x < n) :
    ∀ indices : named_array_t IndividualIndex, (∀ entry ∈ indices, entry.2.max_size = n) →
      ShrinkUpdate.update_loop index indices = .ok (indices.map fun entry =>
        (entry.1, ⟨(IndividualIndex.remaining n index).map entry.2.contains⟩)) := by
  intro indices
  induction indices with
  | nil => intro _; rfl
  | cons entry rest ih =>
    intro hcap
    have he := hcap entry (List.mem_cons_self _ _)
    have hs : entry.2.shrink index =
        some ⟨(IndividualIndex.remaining n index).map entry.2.contains⟩ := by
      unfold IndividualIndex.shrink
      rw [he, if_pos (by simpa using hidx)]
    simp only [ShrinkUpdate.update_loop, hs, ih fun e h => hcap e (List.mem_cons_of_mem _ h),
      List.map_cons]

theorem ShrinkUpdate.update_loop_error (index : List Nat) (n : Nat)
    (hidx : ¬ ∀ x ∈ index, x < n) (indices : named_array_t IndividualIndex)
    (hcap : ∀ entry ∈ indices, entry.2.max_size = n) :
    final (ShrinkUpdate.update_loop index indices) = indices ∧
      (indices ≠ [] → ShrinkUpdate.update_loop index indices = .error indices) := by
  cases indices with
  | nil => exact ⟨rfl, fun h => absurd rfl h⟩
  | cons entry rest =>
    have he := hcap entry (List.mem_cons_self _ _)
    have hs : entry.2.shrink index = none := by
      unfold IndividualIndex.shrink
      rw [he, if_neg (by simpa using hidx)]
    simp [ShrinkUpdate.update_loop, hs, final]

theorem IndividualIndex.contains_mk_remaining (a : IndividualIndex) (n : Nat)
    (index : List Nat) (k : Nat) :
    (IndividualIndex.mk ((remaining n index).map a.contains)).contains k = true ↔
      ∃ s, (remaining n index)[k]? = some s ∧ a.contains s = true := by
  rw [contains_eq_getElem? ⟨_⟩ k]
  simp only [List.getElem?_map]
  cases hk : (remaining n index)[k]? with
  | none => simp
  | some s => simp

theorem Partition.shrink_map {indices : named_array_t IndividualIndex} {n : Nat}
    (hp : Partition indices n) (index : List Nat) :
    Partition (indices.map fun entry =>
        (entry.1, ⟨(IndividualIndex.remaining n index).map entry.2.contains⟩))
      (IndividualIndex.remaining n index).length := by
  obtain ⟨hnd, hcap, hdis, hcov⟩ := hp
  have hfind := fun c => named_array_t.find_map_snd indices
    (fun e => IndividualIndex.mk ((IndividualIndex.remaining n index).map e.2.contains)) c
  have hkeys := named_array_t.keys_map_snd indices
    (fun e => IndividualIndex.mk ((IndividualIndex.remaining n index).map e.2.contains))
  refine ⟨hkeys ▸ hnd, ?_, ?_, ?_⟩
  · intro c b' hb'
    rw [hfind] at hb'
    cases hb : indices.find c with
    | none => simp [hb] at hb'
    | some b =>
      simp only [hb, Option.map_some', Option.some.injEq] at hb'
      subst hb'
      simp [IndividualIndex.max_size]
  · intro c₁ c₂ b₁' b₂' h₁ h₂ hne i ⟨hi₁, hi₂⟩
    rw [hfind] at h₁ h₂
    cases hb₁ : indices.find c₁ with
    | none => simp [hb₁] at h₁
    | some b₁ =>
      cases hb₂ : indices.find c₂ with
      | none => simp [hb₂] at h₂
      | some b₂ =>
        simp only [hb₁, hb₂, Option.map_some', Option.some.injEq] at h₁ h₂
        subst h₁ h₂
        obtain ⟨s₁, hs₁, hc₁⟩ := (IndividualIndex.contains_mk_remaining b₁ n index i).1 hi₁
        obtain ⟨s₂, hs₂, hc₂⟩ := (IndividualIndex.contains_mk_remaining b₂ n index i).1 hi₂
        rw [hs₁] at hs₂
        cases hs₂
        exact hdis c₁ c₂ b₁ b₂ hb₁ hb₂ hne s₁ ⟨hc₁, hc₂⟩
  · intro i
    constructor
    · intro hi
      have hget : (IndividualIndex.remaining n index)[i]? = some _ :=
        List.getElem?_eq_getElem hi
      obtain ⟨hsn, _, _⟩ := IndividualIndex.new_identifier_of_getElem? hget
      obtain ⟨c, b, hb, hbs⟩ := (hcov _).1 hsn
      refine ⟨c, _, ?_, (IndividualIndex.contains_mk_remaining b n index i).2 ⟨_, hget, hbs⟩⟩
      rw [hfind, hb]
      rfl
    · rintro ⟨c, b', hb', hi⟩
      rw [hfind] at hb'
      cases hb : indices.find c with
      | none => simp [hb] at hb'
      | some b =>
        simp only [hb, Option.map_some', Option.some.injEq] at hb'
        subst hb'
        have := IndividualIndex.contains_lt hi
        simpa [IndividualIndex.max_size] using this

/-- A queued shrink either is applied to every index or fails before any
index has changed; the partition survives in both cases. -/
theorem Partition.shrink {indices : named_array_t IndividualIndex} {n : Nat}
    (hp : Partition indices n) (u : ShrinkUpdate) :
    ∃ m, Partition (final (u.update indices)) m ∧
      (final (u.update indices)).keys = indices.keys := by
  by_cases hidx : ∀ x ∈ u.index, x < n
  · refine ⟨(IndividualIndex.remaining n u.index).length, ?_, ?_⟩
    · rw [ShrinkUpdate.update, ShrinkUpdate.update_loop_ok u.index n hidx indices
        hp.capacity_of_mem]
      exact hp.shrink_map u.index
    · rw [ShrinkUpdate.update, ShrinkUpdate.update_loop_ok u.index n hidx indices
        hp.capacity_of_mem]
      exact named_array_t.keys_map_snd indices _
  · have := (ShrinkUpdate.update_loop_error u.index n hidx indices hp.capacity_of_mem).1
    refine ⟨n, ?_, ?_⟩
    · rw [ShrinkUpdate.update, this]
      exact hp
    · rw [ShrinkUpdate.update, this]

theorem named_array_t.ne_nil_of_keys_eq {α : Type} {m₁ m₂ : named_array_t α}
    (h : m₁.keys = m₂.keys) (hne : m₂ ≠ []) : m₁ ≠ [] := by
  intro hnil
  subst hnil
  cases m₂ with
  | nil => exact hne rfl
  | cons e rest => simp [named_array_t.keys] at h

theorem CategoricalVariable.resize_loop_partition :
    ∀ (queue : List ResizeUpdate) (indices : named_array_t IndividualIndex) (n : Nat),
      Partition indices n → indices ≠ [] →
      (∀ u, ResizeUpdate.extend u ∈ queue → ∀ c ∈ u.values, c ∈ indices.keys) →
      ∃ m, Partition (final (CategoricalVariable.resize_loop queue indices)).2 m ∧
        (final (CategoricalVariable.resize_loop queue indices)).2.keys = indices.keys := by
  intro queue
  induction queue with
  | nil =>
    intro indices n hp _ _
    exact ⟨n, hp, rfl⟩
  | cons update rest ih =>
    intro indices n hp hne hext
    cases update with
    | extend u =>
      obtain ⟨indices', hrun, hk, hp'⟩ :=
        hp.extend hne u (hext u (List.mem_cons_self _ _))
      obtain ⟨m, hpm, hkm⟩ := ih indices' _ hp' (named_array_t.ne_nil_of_keys_eq hk hne)
        (fun w hw c hc => hk ▸ hext w (List.mem_cons_of_mem _ hw) c hc)
      refine ⟨m, ?_, ?_⟩
      · simpa only [CategoricalVariable.resize_loop, ResizeUpdate.apply, hrun] using hpm
      · simpa only [CategoricalVariable.resize_loop, ResizeUpdate.apply, hrun] using hkm.trans hk
    | shrink u =>
      obtain ⟨m₁, hp₁, hk₁⟩ := hp.shrink u
      cases hrun : u.update indices with
      | error indices' =>
        rw [hrun] at hp₁ hk₁
        refine ⟨m₁, ?_, ?_⟩
        · simpa only [CategoricalVariable.resize_loop, ResizeUpdate.apply, hrun] using hp₁
        · simpa only [CategoricalVariable.resize_loop, ResizeUpdate.apply, hrun] using hk₁
      | ok indices' =>
        rw [hrun] at hp₁ hk₁
        simp only [final] at hp₁ hk₁
        obtain ⟨m, hpm, hkm⟩ := ih indices' _ hp₁ (named_array_t.ne_nil_of_keys_eq hk₁ hne)
          (fun w hw c hc => hk₁ ▸ hext w (List.mem_cons_of_mem _ hw) c hc)
        refine ⟨m, ?_, ?_⟩
        · simpa only [CategoricalVariable.resize_loop, ResizeUpdate.apply, hrun] using hpm
        · simpa only [CategoricalVariable.resize_loop, ResizeUpdate.apply, hrun]
            using hkm.trans hk₁

theorem CategoricalVariable.final_apply_resize_updates (v : CategoricalVariable) :
    (final v.apply_resize_updates).indices =
      (final (CategoricalVariable.resize_loop v.resize_updates v.indices)).2 := by
  unfold CategoricalVariable.apply_resize_updates
  cases h : CategoricalVariable.resize_loop v.resize_updates v.indices with
  | error p => rfl
  | ok p => rfl

/-! ### The executable partition check -/

theorem is_partition_sound {indices : named_array_t IndividualIndex} {n : Nat}
    (h : is_partition indices n = true) : Partition indices n := by
  simp only [is_partition, Bool.and_eq_true, decide_eq_true_eq, List.all_eq_true, beq_iff_eq,
    List.mem_range] at h
  obtain ⟨⟨hnd, hcap⟩, hone⟩ := h
  have hcap' : ∀ c b, indices.find c = some b → b.max_size = n :=
    fun c b hb => hcap (c, b) (named_array_t.mem_of_find hb)
  refine ⟨hnd, hcap', ?_, ?_⟩
  · intro c₁ c₂ b₁ b₂ h₁ h₂ hne i ⟨hi₁, hi₂⟩
    have hi : i < n := hcap' c₁ b₁ h₁ ▸ IndividualIndex.contains_lt hi₁
    obtain ⟨e, he⟩ := List.length_eq_one.1 (hone i hi)
    have m₁ : (c₁, b₁) ∈ indices.filter fun entry => entry.2.contains i :=
      List.mem_filter.2 ⟨named_array_t.mem_of_find h₁, hi₁⟩
    have m₂ : (c₂, b₂) ∈ indices.filter fun entry => entry.2.contains i :=
      List.mem_filter.2 ⟨named_array_t.mem_of_find h₂, hi₂⟩
    rw [he, List.mem_singleton] at m₁ m₂
    exact hne (congrArg Prod.fst (m₁.trans m₂.symm))
  · intro i
    constructor
    · intro hi
      obtain ⟨e, he⟩ := List.length_eq_one.1 (hone i hi)
      have hmem : e ∈ indices.filter fun entry => entry.2.contains i := by
        rw [he]
        exact List.mem_singleton_self e
      obtain ⟨hm, hc⟩ := List.mem_filter.1 hmem
      exact ⟨e.1, e.2, named_array_t.find_of_mem hnd hm, hc⟩
    · rintro ⟨c, b, hb, hi⟩
      exact hcap' c b hb ▸ IndividualIndex.contains_lt hi

/-! ### The constructor -/

namespace CategoricalVariable

theorem init_indices_spec (size : Nat) :
    ∀ (categories : List String) (indices : named_array_t IndividualIndex),
      indices.keys.Nodup → (∀ entry ∈ indices, entry.2 = IndividualIndex.empty size) →
      (init_indices size categories indices).keys.Nodup ∧
      (∀ entry ∈ init_indices size categories indices,
        entry.2 = IndividualIndex.empty size) ∧
      ∀ c, c ∈ (init_indices size categories indices).keys ↔
        (c ∈ indices.keys ∨ c ∈ categories) := by
  intro categories
  induction categories with
  | nil => intro indices hnd hempty; exact ⟨hnd, hempty, fun c => by simp [init_indices]⟩
  | cons category rest ih =>
    intro indices hnd hempty
    obtain ⟨h₁, h₂, h₃⟩ := ih (indices.insert category (IndividualIndex.empty size))
      (named_array_t.keys_insert_nodup _ _ _ hnd)
      (fun entry he => by
        rcases named_array_t.mem_insert _ _ _ _ he with h | h
        · exact hempty entry h
        · rw [h])
    refine ⟨h₁, h₂, fun c => ?_⟩
    have := h₃ c
    rw [named_array_t.mem_keys_insert] at this
    simp only [init_indices, List.mem_cons]
    rw [this]
    tauto

theorem init_values_eq_place_loop :
    ∀ (values : List String) (i : Nat) (indices : named_array_t IndividualIndex),
      init_values values i indices =
        match ExtendUpdate.place_loop 0 values i indices with
        | .ok indices' => some indices'
        | .error _ => none := by
  intro values
  induction values with
  | nil => intro i indices; rfl
  | cons value rest ih =>
    intro i indices
    cases hf : indices.find value with
    | none => simp [init_values, ExtendUpdate.place_loop, hf]
    | some b =>
      cases hi : b.insert i with
      | none => simp [init_values, ExtendUpdate.place_loop, hf, hi]
      | some b' => simp [init_values, ExtendUpdate.place_loop, hf, hi, ih]

/-- The constructor, given at least one category and initial values all drawn
from the category list, builds a variable without pending updates whose
indices form a partition of `[0, values.size())`, one index per category. -/
theorem create_partition (categories values : List String) (hne : categories ≠ [])
    (hvalues : ∀ c ∈ values, c ∈ categories) :
    ∃ v, create categories values = some v ∧ v.categories = categories ∧
      v.updates = [] ∧ v.resize_updates = [] ∧ v.size = some values.length ∧
      Partition v.indices values.length ∧ ∀ c, c ∈ v.indices.keys ↔ c ∈ categories := by
  obtain ⟨hnd, hempty, hkeys⟩ := init_indices_spec values.length categories []
    (by simp [named_array_t.keys]) (by simp)
  have hkeys' : ∀ c, c ∈ (init_indices values.length categories []).keys ↔ c ∈ categories := by
    intro c
    rw [hkeys]
    simp [named_array_t.keys]
  have hcap : ∀ c b, (init_indices values.length categories []).find c = some b →
      b.max_size = values.length := by
    intro c b hb
    have := hempty _ (named_array_t.mem_of_find hb)
    simp only at this
    rw [this, IndividualIndex.max_size_empty]
  obtain ⟨indices', hrun, hk, hspec⟩ := ExtendUpdate.place_loop_spec 0 values.length values 0
    (init_indices values.length categories []) (fun c hc => (hkeys' c).2 (hvalues c hc)) hcap
    (by omega)
  have hfind : ∀ c b', indices'.find c = some b' →
      b'.max_size = values.length ∧ ∀ x, b'.contains x = true ↔ values[x]? = some c := by
    intro c b' hb'
    obtain ⟨b, hb, hsz, hc⟩ := hspec c b' hb'
    refine ⟨hsz, fun x => ?_⟩
    have hbe := hempty _ (named_array_t.mem_of_find hb)
    simp only at hbe
    rw [hc, hbe]
    simp only [IndividualIndex.contains_empty, Bool.false_eq_true, false_or, Nat.zero_add]
    constructor
    · rintro ⟨k, hk', rfl⟩
      exact hk'
    · intro h
      exact ⟨x, h, rfl⟩
  have hpart : Partition indices' values.length := by
    refine ⟨hk ▸ hnd, fun c b' hb' => (hfind c b' hb').1, ?_, ?_⟩
    · intro c₁ c₂ b₁ b₂ h₁ h₂ hne' i ⟨hi₁, hi₂⟩
      have e₁ := ((hfind c₁ b₁ h₁).2 i).1 hi₁
      have e₂ := ((hfind c₂ b₂ h₂).2 i).1 hi₂
      rw [e₁] at e₂
      exact hne' (Option.some.inj e₂)
    · intro i
      constructor
      · intro hi
        have hget : values[i]? = some values[i] := List.getElem?_eq_getElem hi
        obtain ⟨b', hb'⟩ := named_array_t.find_isSome_of_mem_keys
          (hk ▸ (hkeys' _).2 (hvalues _ (List.getElem_mem hi)))
        exact ⟨_, b', hb', ((hfind _ b' hb').2 i).2 hget⟩
      · rintro ⟨c, b', hb', hi⟩
        exact (hfind c b' hb').1 ▸ IndividualIndex.contains_lt hi
  have hne' : indices' ≠ [] := by
    obtain ⟨c, hc⟩ := List.exists_mem_of_ne_nil categories hne
    have : c ∈ indices'.keys := hk ▸ (hkeys' c).2 hc
    intro hnil
    rw [hnil] at this
    simp [named_array_t.keys] at this
  refine ⟨⟨categories, indices', [], []⟩, ?_, rfl, rfl, rfl, ?_, hpart, fun c => ?_⟩
  · simp [create, init_values_eq_place_loop, hrun]
  · exact Partition.size_eq (v := ⟨categories, indices', [], []⟩) hpart hne'
  · show c ∈ indices'.keys ↔ _
    rw [hk]
    exact hkeys' c

end CategoricalVariable

/-! ### Lookup in a `schedule_map` -/

namespace schedule_map

theorem lookup_eq_none_iff (m : schedule_map) (key : Nat) : m.find key = none ↔ key ∉ m.keys := by
  induction m with
  | nil => simp [find, keys]
  | cons entry rest ih =>
    obtain ⟨k, v⟩ := entry
    by_cases h : k = key
    · simp [find, keys, h]
    · have h' : ¬ key = k := fun hc => h hc.symm
      simpa [find, keys, h, h'] using ih

theorem mem_of_lookup {m : schedule_map} {key : Nat} {b : IndividualIndex}
    (h : m.find key = some b) : (key, b) ∈ m := by
  induction m with
  | nil => simp [find] at h
  | cons entry rest ih =>
    obtain ⟨k, v⟩ := entry
    by_cases hk : k = key
    · simp [find, hk] at h
      simp [hk, h]
    · simp [find, hk] at h
      exact List.mem_cons_of_mem _ (ih h)

theorem lookup_of_mem {m : schedule_map} (ho : m.Ordered) {key : Nat} {b : IndividualIndex}
    (h : (key, b) ∈ m) : m.find key = some b := by
  induction m with
  | nil => simp at h
  | cons entry rest ih =>
    obtain ⟨k, v⟩ := entry
    have ho' := List.pairwise_cons.1 ho
    rcases List.mem_cons.1 h with heq | hmem
    · cases heq
      simp [find]
    · have hlt := ho'.1 _ hmem
      have hne : ¬ k = key := by
        simp only at hlt
        omega
      simp only [find, hne, if_false]
      exact ih ho'.2 hmem

theorem find_insert {m : schedule_map} {key : Nat} (value : IndividualIndex)
    (h : m.find key = none) (k : Nat) :
    (m.insert key value).find k = if k = key then some value else m.find k := by
  induction m with
  | nil =>
    by_cases hk : k = key
    · simp [insert, find, hk]
    · have hk' : ¬ key = k := fun hc => hk hc.symm
      simp [insert, find, hk, hk']
  | cons entry rest ih =>
    obtain ⟨k₀, v₀⟩ := entry
    have hne : ¬ k₀ = key := by
      intro hc
      simp [find, hc] at h
    have hrest : find rest key = none := by simpa [find, hne] using h
    by_cases hlt : key < k₀
    · by_cases hk : k = key
      · simp [insert, hlt, find, hk]
      · have hk' : ¬ key = k := fun hc => hk hc.symm
        simp [insert, hlt, find, hk, hk']
    · have hne' : ¬ key = k₀ := fun hc => hne hc.symm
      simp only [insert, hlt, hne', if_false, find]
      by_cases hk₀ : k₀ = k
      · have hk : ¬ k = key := fun hc => hne (hk₀.trans hc)
        simp [hk₀, hk]
      · simp only [hk₀, if_false]
        exact ih hrest

theorem insert_ordered {m : schedule_map} (ho : m.Ordered) (key : Nat)
    (value : IndividualIndex) : (m.insert key value).Ordered := by
  induction m with
  | nil => simp [insert, Ordered]
  | cons entry rest ih =>
    obtain ⟨k₀, v₀⟩ := entry
    have ho' := List.pairwise_cons.1 ho
    by_cases hlt : key < k₀
    · simp only [insert, hlt, if_true]
      refine List.pairwise_cons.2 ⟨?_, ho⟩
      intro a ha
      rcases List.mem_cons.1 ha with heq | hmem
      · subst heq
        exact hlt
      · exact Nat.lt_trans hlt (ho'.1 a hmem)
    · by_cases heq : key = k₀
      · simpa [insert, hlt, heq] using ho
      · simp only [insert, hlt, heq, if_false]
        refine List.pairwise_cons.2 ⟨?_, ih ho'.2⟩
        intro a ha
        have hkeys : ∀ (r : schedule_map), ∀ a ∈ insert r key value, a.1 = key ∨ a ∈ r := by
          intro r
          induction r with
          | nil =>
            intro a ha
            simp only [insert, List.mem_singleton] at ha
            exact Or.inl (by rw [ha])
          | cons e r ihr =>
            obtain ⟨k₁, v₁⟩ := e
            intro a ha
            by_cases h₁ : key < k₁
            · simp only [insert, h₁, if_true, List.mem_cons] at ha
              rcases ha with ha | ha | ha
              · exact Or.inl (by rw [ha])
              · exact Or.inr (by simp [ha])
              · exact Or.inr (List.mem_cons_of_mem _ ha)
            · by_cases h₂ : key = k₁
              · simp only [insert, h₁, h₂, if_false, if_true] at ha
                exact Or.inr (by simpa [h₂] using ha)
              · simp only [insert, h₁, h₂, if_false, List.mem_cons] at ha
                rcases ha with ha | ha
                · exact Or.inr (by simp [ha])
                · rcases ihr a ha with h | h
                  · exact Or.inl h
                  · exact Or.inr (List.mem_cons_of_mem _ h)
        rcases hkeys rest a ha with h | h
        · simp only [h]
          omega
        · exact ho'.1 a h

theorem lookup_map_snd (m : schedule_map) (f : Nat × IndividualIndex → IndividualIndex)
    (k : Nat) :
    find (m.map fun entry => (entry.1, f entry)) k = (m.find k).map fun b => f (k, b) := by
  induction m with
  | nil => simp [find]
  | cons entry rest ih =>
    obtain ⟨k₀, v₀⟩ := entry
    by_cases hk : k₀ = k
    · subst hk
      simp [find]
    · simpa [find, hk] using ih

theorem keys_of_map_snd (m : schedule_map) (f : Nat × IndividualIndex → IndividualIndex) :
    keys (m.map fun entry => (entry.1, f entry)) = m.keys := by
  simp [keys, List.map_map, Function.comp_def]

/-- Two maps in key order that answer every lookup alike are the same map. -/
theorem ext_of_find : ∀ {m₁ m₂ : schedule_map}, m₁.Ordered → m₂.Ordered →
    (∀ k, m₁.find k = m₂.find k) → m₁ = m₂
  | [], [], _, _, _ => rfl
  | [], (k, v) :: rest, _, _, h => by
    have := h k
    simp [find] at this
  | (k, v) :: rest, [], _, _, h => by
    have := h k
    simp [find] at this
  | (k₁, v₁) :: r₁, (k₂, v₂) :: r₂, ho₁, ho₂, h => by
    have ho₁' := List.pairwise_cons.1 ho₁
    have ho₂' := List.pairwise_cons.1 ho₂
    have hnone₁ : ∀ k, k ≤ k₁ → find r₁ k = none := by
      intro k hk
      rw [lookup_eq_none_iff]
      intro hmem
      obtain ⟨a, ha, rfl⟩ := List.mem_map.1 hmem
      have := ho₁'.1 a ha
      simp only at this
      omega
    have hnone₂ : ∀ k, k ≤ k₂ → find r₂ k = none := by
      intro k hk
      rw [lookup_eq_none_iff]
      intro hmem
      obtain ⟨a, ha, rfl⟩ := List.mem_map.1 hmem
      have := ho₂'.1 a ha
      simp only at this
      omega
    have hk : k₁ = k₂ := by
      rcases Nat.lt_trichotomy k₁ k₂ with hlt | heq | hgt
      · have := h k₁
        have hne : ¬ k₂ = k₁ := by omega
        simp [find, hne, hnone₂ k₁ (by omega)] at this
      · exact heq
      · have := h k₂
        have hne : ¬ k₁ = k₂ := by omega
        simp [find, hne, hnone₁ k₂ (by omega)] at this
    subst hk
    have hv : v₁ = v₂ := by
      have := h k₁
      simpa [find] using this
    subst hv
    have hrest : r₁ = r₂ := by
      apply ext_of_find ho₁'.2 ho₂'.2
      intro k
      by_cases hkk : k₁ = k
      · subst hkk
        rw [hnone₁ k₁ (Nat.le_refl _), hnone₂ k₁ (Nat.le_refl _)]
      · have := h k
        simpa [find, hkk] using this
    rw [hrest]

end schedule_map

namespace TargetedEvent

theorem or_at_eq_map (m : schedule_map) (key : Nat) (target : IndividualIndex) :
    or_at m key target =
      m.map fun entry => (entry.1, if entry.1 = key then entry.2.or target else entry.2) := by
  unfold or_at
  apply List.map_congr_left
  intro entry _
  by_cases h : entry.1 = key <;> simp [h]

theorem find_or_at (m : schedule_map) (key : Nat) (target : IndividualIndex) (k : Nat) :
    (or_at m key target).find k =
      if k = key then (m.find key).map fun b => b.or target else m.find k := by
  rw [or_at_eq_map, schedule_map.lookup_map_snd]
  by_cases hk : k = key
  · subst hk
    simp
  · simp [hk]

theorem keys_or_at (m : schedule_map) (key : Nat) (target : IndividualIndex) :
    (or_at m key target).keys = m.keys := by
  unfold or_at schedule_map.keys
  rw [List.map_map]
  apply List.map_congr_left
  intro entry _
  by_cases h : entry.1 = key <;> simp [h]

theorem ordered_of_keys_eq {m₁ m₂ : schedule_map} (h : m₁.keys = m₂.keys)
    (ho : m₂.Ordered) : m₁.Ordered := by
  have h₂ : (m₂.keys).Pairwise (· < ·) := List.pairwise_map.2 ho
  rw [← h] at h₂
  exact List.pairwise_map.1 h₂

/-- What a lookup in the schedule answers after `schedule(target, delay)`. -/
theorem find_schedule (e : TargetedEvent) (target : IndividualIndex) (delay k : Nat) :
    (e.schedule target delay).targeted_schedule.find k =
      if k = (e.t + delay) % SIZE_T then
        some (((e.targeted_schedule.find ((e.t + delay) % SIZE_T)).getD
          (IndividualIndex.empty e.size)).or target)
      else e.targeted_schedule.find k := by
  unfold schedule
  simp only
  rw [find_or_at]
  cases hf : e.targeted_schedule.find ((e.t + delay) % SIZE_T) with
  | none =>
    simp only [schedule_map.find_insert _ hf]
    by_cases hk : k = (e.t + delay) % SIZE_T <;> simp [hk]
  | some b =>
    by_cases hk : k = (e.t + delay) % SIZE_T <;> simp [hk, hf]

theorem schedule_ordered (e : TargetedEvent) (target : IndividualIndex) (delay : Nat)
    (ho : e.targeted_schedule.Ordered) : (e.schedule target delay).targeted_schedule.Ordered := by
  unfold schedule
  simp only
  apply ordered_of_keys_eq (keys_or_at _ _ _)
  cases hf : e.targeted_schedule.find ((e.t + delay) % SIZE_T) with
  | none => exact schedule_map.insert_ordered ho _ _
  | some b => exact ho

@[simp] theorem schedule_t (e : TargetedEvent) (target : IndividualIndex) (delay : Nat) :
    (e.schedule target delay).t = e.t := rfl

@[simp] theorem schedule_size (e : TargetedEvent) (target : IndividualIndex) (delay : Nat) :
    (e.schedule target delay).size = e.size := rfl

@[simp] theorem schedule_listeners (e : TargetedEvent) (target : IndividualIndex)
    (delay : Nat) : (e.schedule target delay).listeners = e.listeners := rfl

/-! ### Invariants of a `TargetedEvent` -/

theorem erase_sublist (m : schedule_map) (key : Nat) : (m.erase key).Sublist m := by
  induction m with
  | nil => exact List.Sublist.slnil
  | cons entry rest ih =>
    obtain ⟨k, v⟩ := entry
    by_cases hk : k = key
    · simp only [schedule_map.erase, hk, if_true]
      exact List.sublist_cons_self _ _
    · simp only [schedule_map.erase, hk, if_false]
      exact ih.cons₂ _

theorem create_invariant (size : Nat) :
    (create size).targeted_schedule.Ordered ∧ (create size).Capacity := by
  simp [create, schedule_map.Ordered, Capacity]

theorem tick_invariant (e : TargetedEvent)
    (h : e.targeted_schedule.Ordered ∧ e.Capacity) :
    e.tick.targeted_schedule.Ordered ∧ e.tick.Capacity :=
  ⟨List.Pairwise.sublist (erase_sublist _ _) h.1,
    fun entry he => h.2 entry ((erase_sublist _ _).subset he)⟩

theorem clear_schedule_invariant (e : TargetedEvent) (target : IndividualIndex)
    (h : e.targeted_schedule.Ordered ∧ e.Capacity) :
    (e.clear_schedule target).targeted_schedule.Ordered ∧ (e.clear_schedule target).Capacity := by
  constructor
  · exact ordered_of_keys_eq
      (schedule_map.keys_of_map_snd e.targeted_schedule fun p => p.2.and target.not) h.1
  · intro entry he
    obtain ⟨e₀, he₀, rfl⟩ := List.mem_map.1 he
    simpa using h.2 e₀ he₀

theorem schedule_invariant (e : TargetedEvent) (target : IndividualIndex) (delay : Nat)
    (h : e.targeted_schedule.Ordered ∧ e.Capacity) :
    (e.schedule target delay).targeted_schedule.Ordered ∧ (e.schedule target delay).Capacity := by
  refine ⟨schedule_ordered e target delay h.1, ?_⟩
  intro entry he
  have ho := schedule_ordered e target delay h.1
  have hf := schedule_map.lookup_of_mem ho he
  rw [find_schedule] at hf
  by_cases hk : entry.1 = (e.t + delay) % SIZE_T
  · simp only [hk, if_true, Option.some.injEq] at hf
    rw [← hf, IndividualIndex.max_size_or]
    cases hb : e.targeted_schedule.find ((e.t + delay) % SIZE_T) with
    | none => simp
    | some b => simpa using h.2 _ (schedule_map.mem_of_lookup hb)
  · simp only [hk, if_false] at hf
    exact h.2 _ (schedule_map.mem_of_lookup hf)

end TargetedEvent

/-! ## Claims about `CategoricalVariable` -/

/-- C1. If the per-category indices form a partition of `[0, size())`, every
queued value update names a category of the variable and carries an index of
capacity `size()`, and every queued extend lists only categories of the
variable, then after `update()`, whether it returned or threw, the per-category
indices are pairwise disjoint and their union is exactly `[0, size())` for the
new `size()`. Queued shrinks need no assumption. -/
theorem update_preserves_partition (v : CategoricalVariable) (n : Nat)
    (hpart : Partition v.indices n) (hsize : v.size = some n)
    (hupdates : ∀ u ∈ v.updates, u.1 ∈ v.indices.keys ∧ u.2.max_size = n)
    (hextends : ∀ u, ResizeUpdate.extend u ∈ v.resize_updates →
      ∀ c ∈ u.values, c ∈ v.indices.keys) :
    ∃ m, (final v.update).size = some m ∧ Partition (final v.update).indices m := by
  have hne := CategoricalVariable.indices_ne_nil_of_size hsize
  have hp₁ := hpart.apply_updates hupdates
  have hk₁ := CategoricalVariable.keys_apply_updates v.updates v.indices
  have hne₁ := named_array_t.ne_nil_of_keys_eq hk₁ hne
  obtain ⟨m, hpm, hkm⟩ := CategoricalVariable.resize_loop_partition v.resize_updates
    (CategoricalVariable.apply_updates v.updates v.indices) n hp₁ hne₁
    (fun u hu c hc => hk₁ ▸ hextends u hu c hc)
  have hfin := CategoricalVariable.final_apply_resize_updates
    { v with indices := CategoricalVariable.apply_updates v.updates v.indices, updates := [] }
  have hidx : (final v.update).indices =
      (final (CategoricalVariable.resize_loop v.resize_updates
        (CategoricalVariable.apply_updates v.updates v.indices))).2 := hfin
  refine ⟨m, ?_, ?_⟩
  · apply Partition.size_eq (hidx ▸ hpm)
    rw [hidx]
    exact named_array_t.ne_nil_of_keys_eq hkm hne₁
  · rw [hidx]
    exact hpm

/-- Witness for C1: three individuals in two categories, with one value
update, one extend and one shrink pending. -/
theorem update_preserves_partition_witness :
    ∃ m, (final (CategoricalVariable.update
        ⟨["S", "I"], [("S", ⟨[true, false, true]⟩), ("I", ⟨[false, true, false]⟩)],
          [("I", ⟨[true, false, false]⟩)], [.extend ⟨["S"]⟩, .shrink ⟨[1]⟩]⟩)).size = some m ∧
      Partition (final (CategoricalVariable.update
        ⟨["S", "I"], [("S", ⟨[true, false, true]⟩), ("I", ⟨[false, true, false]⟩)],
          [("I", ⟨[true, false, false]⟩)], [.extend ⟨["S"]⟩, .shrink ⟨[1]⟩]⟩)).indices m :=
  update_preserves_partition
    ⟨["S", "I"], [("S", ⟨[true, false, true]⟩), ("I", ⟨[false, true, false]⟩)],
      [("I", ⟨[true, false, false]⟩)], [.extend ⟨["S"]⟩, .shrink ⟨[1]⟩]⟩ 3
    (is_partition_sound (by decide)) (by decide) (by decide)
    (by
      intro u hu c hc
      simp only [List.mem_cons, ResizeUpdate.extend.injEq, List.mem_singleton,
        List.not_mem_nil, or_false] at hu
      rcases hu with hu | hu
      · subst hu
        simp only [List.mem_singleton] at hc
        subst hc
        decide
      · cases hu)

theorem CategoricalVariable.update_of_no_resize (v : CategoricalVariable)
    (hr : v.resize_updates = []) :
    v.update = .ok { v with indices := CategoricalVariable.apply_updates v.updates v.indices,
                            updates := [] } := by
  simp [CategoricalVariable.update, CategoricalVariable.apply_resize_updates, hr,
    CategoricalVariable.resize_loop]

theorem CategoricalVariable.apply_updates_append (q₁ q₂ : List update_t)
    (indices : named_array_t IndividualIndex) :
    CategoricalVariable.apply_updates (q₁ ++ q₂) indices =
      CategoricalVariable.apply_updates q₂ (CategoricalVariable.apply_updates q₁ indices) := by
  induction q₁ generalizing indices with
  | nil => rfl
  | cons next rest ih => exact ih _

theorem CategoricalVariable.capacity_apply_updates (queue : List update_t) (n : Nat) :
    ∀ indices : named_array_t IndividualIndex,
      (∀ c b, indices.find c = some b → b.max_size = n) →
      ∀ c b, (CategoricalVariable.apply_updates queue indices).find c = some b →
        b.max_size = n := by
  induction queue with
  | nil => intro indices h; exact h
  | cons next rest ih =>
    intro indices h
    apply ih
    intro c b hb
    rw [CategoricalVariable.find_apply_update] at hb
    cases hf : indices.find c with
    | none => simp [hf] at hb
    | some b₀ =>
      simp only [hf, Option.map_some', Option.some.injEq] at hb
      subst hb
      by_cases hc : c = next.1 <;> simp [hc, h c b₀ hf]

/-- C2. Last write wins: on a partitioned variable with no resize update
pending, after `queue_update(A, X); queue_update(B, Y); update()` for distinct
known categories `A`, `B` and indices of capacity `size()`, every individual of
`X ∩ Y` is a member of `B`, is not a member of `A`, and is a member of no
category other than `B`. Value updates that were already pending do not
matter. -/
theorem last_write_wins (v : CategoricalVariable) (n : Nat) (A B : String)
    (X Y : IndividualIndex) (hpart : Partition v.indices n)
    (hr : v.resize_updates = [])
    (hAB : A ≠ B) (hA : A ∈ v.indices.keys) (hB : B ∈ v.indices.keys)
    (hX : X.max_size = n) (hY : Y.max_size = n) :
    ∃ v', ((v.queue_update A X).queue_update B Y).update = .ok v' ∧
      ∀ i, X.contains i = true → Y.contains i = true →
        (∃ b, v'.indices.find B = some b ∧ b.contains i = true) ∧
        (∃ a, v'.indices.find A = some a ∧ a.contains i = false) ∧
        ∀ c b, c ≠ B → v'.indices.find c = some b → b.contains i = false := by
  refine ⟨_, CategoricalVariable.update_of_no_resize _ hr, ?_⟩
  intro i _ hYi
  have hcap₀ := CategoricalVariable.capacity_apply_updates v.updates n v.indices hpart.2.1
  have hstep₁ := fun c b h =>
    @CategoricalVariable.contains_apply_update (A, X)
      (CategoricalVariable.apply_updates v.updates v.indices) n hcap₀ hX c b h
  have hcap₁ : ∀ c b, (CategoricalVariable.apply_update (A, X)
      (CategoricalVariable.apply_updates v.updates v.indices)).find c = some b →
      b.max_size = n := fun c b h => (hstep₁ c b h).choose_spec.2.1
  have hstep₂ := fun c b h =>
    @CategoricalVariable.contains_apply_update (B, Y) _ n hcap₁ hY c b h
  have hidx : (CategoricalVariable.apply_updates
      ((v.queue_update A X).queue_update B Y).updates
      ((v.queue_update A X).queue_update B Y).indices) =
      CategoricalVariable.apply_update (B, Y)
        (CategoricalVariable.apply_update (A, X)
          (CategoricalVariable.apply_updates v.updates v.indices)) := by
    simp [CategoricalVariable.queue_update, CategoricalVariable.apply_updates_append,
      CategoricalVariable.apply_updates]
  have hkeys : ∀ c, c ∈ v.indices.keys →
      ∃ b, (CategoricalVariable.apply_update (B, Y)
        (CategoricalVariable.apply_update (A, X)
          (CategoricalVariable.apply_updates v.updates v.indices))).find c = some b := by
    intro c hc
    apply named_array_t.find_isSome_of_mem_keys
    rw [CategoricalVariable.keys_apply_update, CategoricalVariable.keys_apply_update,
      CategoricalVariable.keys_apply_updates]
    exact hc
  have hmem : ∀ c b, (CategoricalVariable.apply_update (B, Y)
      (CategoricalVariable.apply_update (A, X)
        (CategoricalVariable.apply_updates v.updates v.indices))).find c = some b →
      b.contains i = decide (c = B) := by
    intro c b h
    obtain ⟨_, _, _, hc⟩ := hstep₂ c b h
    rw [hc i, hYi]
    rfl
  simp only [hidx]
  refine ⟨?_, ?_, ?_⟩
  · obtain ⟨b, hb⟩ := hkeys B hB
    exact ⟨b, hb, by rw [hmem B b hb]; simp⟩
  · obtain ⟨a, ha⟩ := hkeys A hA
    exact ⟨a, ha, by rw [hmem A a ha]; simp [hAB]⟩
  · intro c b hc hb
    rw [hmem c b hb]
    simp [hc]

/-- Witness for C2: individual `0` is named by both queued updates. -/
theorem last_write_wins_witness :
    ∃ v', ((CategoricalVariable.queue_update
        ⟨["S", "I", "R"], [("S", ⟨[true, true]⟩), ("I", ⟨[false, false]⟩),
          ("R", ⟨[false, false]⟩)], [], []⟩ "I" ⟨[true, true]⟩).queue_update
          "R" ⟨[true, false]⟩).update = .ok v' ∧
      ∀ i, (IndividualIndex.mk [true, true]).contains i = true →
        (IndividualIndex.mk [true, false]).contains i = true →
        (∃ b, v'.indices.find "R" = some b ∧ b.contains i = true) ∧
        (∃ a, v'.indices.find "I" = some a ∧ a.contains i = false) ∧
        ∀ c b, c ≠ "R" → v'.indices.find c = some b → b.contains i = false :=
  last_write_wins
    ⟨["S", "I", "R"], [("S", ⟨[true, true]⟩), ("I", ⟨[false, false]⟩),
      ("R", ⟨[false, false]⟩)], [], []⟩ 2 "I" "R" ⟨[true, true]⟩ ⟨[true, false]⟩
    (is_partition_sound (by decide)) rfl (by decide) (by decide) (by decide) rfl rfl

theorem CategoricalVariable.apply_updates_eq_foldl (queue : List update_t)
    (indices : named_array_t IndividualIndex) :
    CategoricalVariable.apply_updates queue indices = queue.foldl spec_step indices := by
  induction queue generalizing indices with
  | nil => rfl
  | cons next rest ih =>
    rw [CategoricalVariable.apply_updates, List.foldl_cons, ih]
    congr 1
    unfold CategoricalVariable.apply_update spec_step
    apply List.map_congr_left
    intro entry _
    by_cases hk : entry.1 = next.1 <;> simp [hk]

theorem IndividualIndex.and_not_eq_difference {a b : IndividualIndex}
    (h : a.max_size ≤ b.max_size) : a.and b.not = a.difference b := by
  rw [IndividualIndex.ext_iff_contains]
  refine ⟨by simp, fun i => ?_⟩
  rw [IndividualIndex.contains_and, IndividualIndex.contains_not,
    IndividualIndex.contains_difference]
  cases ha : a.contains i
  · simp
  · have := IndividualIndex.contains_lt ha
    have hlt : i < b.max_size := by omega
    simp [hlt]

theorem spec_step_capacity {indices : named_array_t IndividualIndex} {n : Nat}
    (hcap : ∀ entry ∈ indices, entry.2.max_size = n) (u : update_t) :
    ∀ entry ∈ spec_step indices u, entry.2.max_size = n := by
  intro entry h
  obtain ⟨e, he, rfl⟩ := List.mem_map.1 h
  by_cases hk : e.1 = u.1 <;> simp [hk, hcap e he]

theorem foldl_spec_step_eq_difference (queue : List update_t) (n : Nat) :
    ∀ indices : named_array_t IndividualIndex,
      (∀ entry ∈ indices, entry.2.max_size = n) → (∀ u ∈ queue, u.2.max_size = n) →
      queue.foldl spec_step indices = queue.foldl spec_step_difference indices := by
  induction queue with
  | nil => intro _ _ _; rfl
  | cons next rest ih =>
    intro indices hcap hq
    have hstep : spec_step indices next = spec_step_difference indices next := by
      unfold spec_step spec_step_difference
      apply List.map_congr_left
      intro entry he
      by_cases hk : entry.1 = next.1
      · simp [hk]
      · simp only [hk, if_false]
        rw [IndividualIndex.and_not_eq_difference]
        rw [hcap entry he, hq next (List.mem_cons_self _ _)]
    rw [List.foldl_cons, List.foldl_cons, ← hstep]
    exact ih _ (spec_step_capacity hcap next) fun u hu => hq u (List.mem_cons_of_mem _ hu)

/-- C3. When only value updates are queued, `update()` returns normally and
the new per-category indices are the left fold, over the queue in enqueue
order, of the step that replaces the destination category's index by
`destination ∪ index` and every other category's index by `other ∧ ¬index`;
the category list is untouched and both queues end empty. When the indices and
the queued indices all have one capacity, `other ∧ ¬index` is the set
difference `other \ index`. -/
theorem update_eq_foldl_spec_step (v : CategoricalVariable) (hr : v.resize_updates = []) :
    v.update = .ok ⟨v.categories, v.updates.foldl spec_step v.indices, [], []⟩ ∧
    ∀ n, (∀ entry ∈ v.indices, entry.2.max_size = n) → (∀ u ∈ v.updates, u.2.max_size = n) →
      v.updates.foldl spec_step v.indices = v.updates.foldl spec_step_difference v.indices := by
  refine ⟨?_, fun n hcap hq => foldl_spec_step_eq_difference v.updates n v.indices hcap hq⟩
  rw [CategoricalVariable.update_of_no_resize v hr,
    CategoricalVariable.apply_updates_eq_foldl, hr]

/-- Witness for C3: two value updates queued on a variable of two individuals. -/
theorem update_eq_foldl_spec_step_witness :
    (CategoricalVariable.update ⟨["S", "I"], [("S", ⟨[true, true]⟩), ("I", ⟨[false, false]⟩)],
        [("I", ⟨[true, false]⟩), ("S", ⟨[true, true]⟩)], []⟩ =
      .ok ⟨["S", "I"], [("S", ⟨[true, true]⟩), ("I", ⟨[false, false]⟩)], [], []⟩) ∧
    (CategoricalVariable.update ⟨["S", "I"], [("S", ⟨[true, true]⟩), ("I", ⟨[false, false]⟩)],
        [("I", ⟨[true, false]⟩), ("S", ⟨[true, true]⟩)], []⟩ =
      .ok ⟨["S", "I"], List.foldl spec_step
        [("S", ⟨[true, true]⟩), ("I", ⟨[false, false]⟩)]
        [("I", ⟨[true, false]⟩), ("S", ⟨[true, true]⟩)], [], []⟩) :=
  ⟨by decide,
    (update_eq_foldl_spec_step ⟨["S", "I"],
      [("S", ⟨[true, true]⟩), ("I", ⟨[false, false]⟩)],
      [("I", ⟨[true, false]⟩), ("S", ⟨[true, true]⟩)], []⟩ rfl).1⟩

/-- C5. For a partitioned variable with empty queues and a list `values` of
known category names, `queue_extend(values); update()` returns normally;
`size()` has grown by `len(values)`; the new identifier `old_size + i` is a
member of category `values[i]` and of no other category; and every identifier
below `old_size` keeps exactly the membership it had. -/
theorem extend_commit (v : CategoricalVariable) (n : Nat) (values : List String)
    (hpart : Partition v.indices n) (hsize : v.size = some n)
    (hq : v.updates = []) (hr : v.resize_updates = [])
    (hvalues : ∀ c ∈ values, c ∈ v.indices.keys) :
    ∃ v', (v.queue_extend values).update = .ok v' ∧
      v'.size = some (n + values.length) ∧
      v'.indices.keys = v.indices.keys ∧
      (∀ i (hi : i < values.length) c b', v'.indices.find c = some b' →
        (b'.contains (n + i) = true ↔ c = values[i])) ∧
      (∀ c b b', v.indices.find c = some b → v'.indices.find c = some b' →
        ∀ j, j < n → b'.contains j = b.contains j) := by
  have hne := CategoricalVariable.indices_ne_nil_of_size hsize
  obtain ⟨indices', hrun, hk, hspec⟩ :=
    ExtendUpdate.update_spec ⟨values⟩ v.indices n hne hpart.1 hpart.2.1 hvalues
  obtain ⟨_, hrun₂, _, hp'⟩ := hpart.extend hne ⟨values⟩ hvalues
  rw [hrun] at hrun₂
  cases hrun₂
  refine ⟨⟨v.categories, indices', [], []⟩, ?_, ?_, hk, ?_, ?_⟩
  · simp [CategoricalVariable.update, CategoricalVariable.queue_extend, hq, hr,
      CategoricalVariable.apply_updates, CategoricalVariable.apply_resize_updates,
      CategoricalVariable.resize_loop, ResizeUpdate.apply, hrun]
  · exact Partition.size_eq (v := ⟨v.categories, indices', [], []⟩) hp'
      (named_array_t.ne_nil_of_keys_eq hk hne)
  · intro i hi c b' hb'
    obtain ⟨b, hb, _, hc⟩ := hspec c b' hb'
    rw [hc]
    constructor
    · rintro (h | ⟨k, hk', hx⟩)
      · have := IndividualIndex.contains_lt h
        rw [hpart.2.1 c b hb] at this
        omega
      · have hki : k = i := by omega
        subst hki
        rw [List.getElem?_eq_getElem hi] at hk'
        exact (Option.some.inj hk').symm
    · intro h
      exact Or.inr ⟨i, by rw [List.getElem?_eq_getElem hi, h], rfl⟩
  · intro c b b' hb hb' j hj
    obtain ⟨b₀, hb₀, _, hc⟩ := hspec c b' hb'
    rw [hb] at hb₀
    cases hb₀
    rw [Bool.eq_iff_iff, hc]
    constructor
    · rintro (h | ⟨k, _, hx⟩)
      · exact h
      · omega
    · exact Or.inl

/-- Witness for C5: two individuals, two newcomers. -/
theorem extend_commit_witness :
    ∃ v', (CategoricalVariable.queue_extend
        ⟨["S", "I"], [("S", ⟨[true, false]⟩), ("I", ⟨[false, true]⟩)], [], []⟩
        ["I", "S"]).update = .ok v' ∧
      v'.size = some (2 + ["I", "S"].length) ∧
      v'.indices.keys = named_array_t.keys
        [("S", (⟨[true, false]⟩ : IndividualIndex)), ("I", ⟨[false, true]⟩)] ∧
      (∀ i (hi : i < ["I", "S"].length) c b', v'.indices.find c = some b' →
        (b'.contains (2 + i) = true ↔ c = ["I", "S"][i])) ∧
      (∀ c b b', named_array_t.find
          [("S", (⟨[true, false]⟩ : IndividualIndex)), ("I", ⟨[false, true]⟩)] c = some b →
        v'.indices.find c = some b' → ∀ j, j < 2 → b'.contains j = b.contains j) :=
  extend_commit ⟨["S", "I"], [("S", ⟨[true, false]⟩), ("I", ⟨[false, true]⟩)], [], []⟩ 2
    ["I", "S"] (is_partition_sound (by decide)) rfl rfl rfl (by decide)

/-- C6. For a partitioned variable with empty queues and a list `ids` of
identifiers below `size()`, repeats and any order allowed,
`queue_shrink(ids); update()` returns normally; `size()` has dropped by the
number of distinct values in `ids`; every category keeps its name; each
surviving identifier `s` is renumbered to `new_identifier ids s`, the number of
survivors below it, and is a member of exactly the categories it was a member
of; and the new identifiers are exactly `[0, size())`, each the renumbering of
one survivor, so no removed individual is a member of anything. -/
theorem shrink_commit (v : CategoricalVariable) (n : Nat) (ids : List Nat)
    (hpart : Partition v.indices n) (hsize : v.size = some n)
    (hq : v.updates = []) (hr : v.resize_updates = [])
    (hids : ∀ x ∈ ids, x < n) :
    ∃ v₁ v', v.queue_shrink ids = .ok v₁ ∧ v₁.update = .ok v' ∧
      v'.size = some (n - ids.dedup.length) ∧
      v'.indices.keys = v.indices.keys ∧
      (∀ c b b', v.indices.find c = some b → v'.indices.find c = some b' →
        b'.max_size = n - ids.dedup.length ∧
        ∀ s, s < n → s ∉ ids → b'.contains (new_identifier ids s) = b.contains s) ∧
      (∀ s, s < n → s ∉ ids → new_identifier ids s < n - ids.dedup.length) ∧
      (∀ k, k < n - ids.dedup.length → ∃ s, s < n ∧ s ∉ ids ∧ new_identifier ids s = k) := by
  have hne := CategoricalVariable.indices_ne_nil_of_size hsize
  have haccept : v.shrink_rejected ids = false := by
    simp only [CategoricalVariable.shrink_rejected, hsize, List.any_eq_false,
      decide_eq_true_eq, Nat.not_le]
    exact hids
  have hmem := ShrinkUpdate.mem_of_vector ids
  have hidx : ∀ x ∈ (ShrinkUpdate.of_vector ids).index, x < n :=
    fun x hx => hids x ((hmem x).1 hx)
  have hrem : IndividualIndex.remaining n (ShrinkUpdate.of_vector ids).index =
      IndividualIndex.remaining n ids := IndividualIndex.remaining_congr n hmem
  have hloop := ShrinkUpdate.update_loop_ok _ n hidx v.indices hpart.capacity_of_mem
  rw [hrem] at hloop
  have hlen := IndividualIndex.length_remaining n ids hids
  have hp' := hpart.shrink_map ids
  rw [hlen] at hp'
  have hfind := fun c => named_array_t.find_map_snd v.indices
    (fun e => IndividualIndex.mk ((IndividualIndex.remaining n ids).map e.2.contains)) c
  have hkeys := named_array_t.keys_map_snd v.indices
    (fun e => IndividualIndex.mk ((IndividualIndex.remaining n ids).map e.2.contains))
  refine ⟨{ v with resize_updates := v.resize_updates ++ [.shrink (.of_vector ids)] },
    ⟨v.categories, v.indices.map fun e =>
      (e.1, IndividualIndex.mk ((IndividualIndex.remaining n ids).map e.2.contains)), [], []⟩,
    ?_, ?_, ?_, hkeys, ?_, ?_, ?_⟩
  · simp [CategoricalVariable.queue_shrink, haccept]
  · simp [CategoricalVariable.update, hq, hr, CategoricalVariable.apply_updates,
      CategoricalVariable.apply_resize_updates, CategoricalVariable.resize_loop,
      ResizeUpdate.apply, ShrinkUpdate.update, hloop]
  · exact Partition.size_eq (v := ⟨v.categories, _, [], []⟩) hp'
      (named_array_t.ne_nil_of_keys_eq hkeys hne)
  · intro c b b' hb hb'
    refine ⟨hp'.2.1 c b' hb', fun s hs hsi => ?_⟩
    simp only [hfind, hb, Option.map_some', Option.some.injEq] at hb'
    subst hb'
    rw [Bool.eq_iff_iff, IndividualIndex.contains_mk_remaining,
      IndividualIndex.remaining_getElem?_new_identifier ids s hsi n hs]
    simp
  · intro s hs hsi
    have := IndividualIndex.remaining_getElem?_new_identifier ids s hsi n hs
    obtain ⟨hk, _⟩ := List.getElem?_eq_some.1 this
    omega
  · intro k hk
    have hget : (IndividualIndex.remaining n ids)[k]? = some _ :=
      List.getElem?_eq_getElem (hlen ▸ hk)
    exact ⟨_, IndividualIndex.new_identifier_of_getElem? hget⟩

/-- Witness for C6: identifiers 2 and 0 (2 twice) leave a population of four. -/
theorem shrink_commit_witness :
    ∃ v₁ v', CategoricalVariable.queue_shrink
        ⟨["S", "I"], [("S", ⟨[true, false, false, true]⟩),
          ("I", ⟨[false, true, true, false]⟩)], [], []⟩ [2, 0, 2] = .ok v₁ ∧
      v₁.update = .ok v' ∧
      v'.size = some (4 - [2, 0, 2].dedup.length) ∧
      v'.indices.keys = named_array_t.keys
        [("S", (⟨[true, false, false, true]⟩ : IndividualIndex)),
          ("I", ⟨[false, true, true, false]⟩)] ∧
      (∀ c b b', named_array_t.find
          [("S", (⟨[true, false, false, true]⟩ : IndividualIndex)),
            ("I", ⟨[false, true, true, false]⟩)] c = some b →
        v'.indices.find c = some b' →
        b'.max_size = 4 - [2, 0, 2].dedup.length ∧
        ∀ s, s < 4 → s ∉ [2, 0, 2] → b'.contains (new_identifier [2, 0, 2] s) = b.contains s) ∧
      (∀ s, s < 4 → s ∉ [2, 0, 2] → new_identifier [2, 0, 2] s < 4 - [2, 0, 2].dedup.length) ∧
      (∀ k, k < 4 - [2, 0, 2].dedup.length →
        ∃ s, s < 4 ∧ s ∉ [2, 0, 2] ∧ new_identifier [2, 0, 2] s = k) :=
  shrink_commit ⟨["S", "I"], [("S", ⟨[true, false, false, true]⟩),
      ("I", ⟨[false, true, true, false]⟩)], [], []⟩ 4 [2, 0, 2]
    (is_partition_sound (by decide)) rfl rfl rfl (by decide)

/-! ## Claims about `TargetedEvent` -/

namespace TargetedEvent

theorem empty_or_eq {size : Nat} {T : IndividualIndex} (hT : T.max_size = size) :
    (IndividualIndex.empty size).or T = T := by
  rw [IndividualIndex.ext_iff_contains]
  refine ⟨by simp [hT], fun i => ?_⟩
  rw [IndividualIndex.contains_or]
  cases hi : T.contains i
  · simp
  · have := IndividualIndex.contains_lt hi
    simp [hT ▸ this]

theorem run_of_empty (n : Nat) :
    ∀ e : TargetedEvent, e.targeted_schedule = [] → run n e = List.replicate n [] := by
  induction n with
  | zero => intro e _; rfl
  | succ n ih =>
    intro e he
    have htick : e.tick.targeted_schedule = [] := by simp [tick, he, schedule_map.erase]
    simp [run, process, he, ih e.tick htick, List.replicate_succ]

theorem after_t (n : Nat) : ∀ e : TargetedEvent, (after n e).t = (e.t + n) % SIZE_T ∨ n = 0 := by
  induction n with
  | zero => intro e; exact Or.inr rfl
  | succ n ih =>
    intro e
    left
    have hstep : (after (n + 1) e).t = (after n e.tick).t := rfl
    rcases ih e.tick with h | h
    · rw [hstep, h]
      show ((e.t + 1) % SIZE_T + n) % SIZE_T = _
      rw [Nat.mod_add_mod]
      congr 1
      omega
    · subst h
      rfl

/-- A schedule with the single entry `(key, T)` due in `j` ticks: the listeners
are called at step `j` and at no other step. -/
theorem run_of_single (key : Nat) (T : IndividualIndex) (j : Nat) :
    ∀ (n : Nat) (e : TargetedEvent), e.targeted_schedule = [(key, T)] → e.t < SIZE_T →
      j < SIZE_T → key = (e.t + j) % SIZE_T →
      run n e = (List.range n).map fun k => if k = j then fire e.listeners key T else [] := by
  induction j with
  | zero =>
    intro n e he ht _ hkey
    have hk : key = e.t := by
      rw [hkey, Nat.add_zero, Nat.mod_eq_of_lt ht]
    cases n with
    | zero => rfl
    | succ n =>
      have htick : e.tick.targeted_schedule = [] := by
        simp [tick, he, schedule_map.erase, hk]
      rw [run, run_of_empty n e.tick htick, List.range_succ_eq_map]
      simp only [List.map_cons, List.map_map, if_true]
      congr 1
      · simp [process, he, hk]
      · symm
        rw [List.eq_replicate_iff]
        refine ⟨by simp, fun b hb => ?_⟩
        obtain ⟨k, _, rfl⟩ := List.mem_map.1 hb
        simp
  | succ j ih =>
    intro n e he ht hj hkey
    have hne : ¬ key = e.t := by
      intro hc
      rw [hc] at hkey
      have h₁ : (e.t + (j + 1)) % SIZE_T = e.t := hkey.symm
      by_cases hlt : e.t + (j + 1) < SIZE_T
      · rw [Nat.mod_eq_of_lt hlt] at h₁
        omega
      · have h₂ : (e.t + (j + 1)) % SIZE_T = e.t + (j + 1) - SIZE_T := by
          rw [Nat.mod_eq_sub_mod (Nat.le_of_not_lt hlt)]
          exact Nat.mod_eq_of_lt (by omega)
        omega
    cases n with
    | zero => rfl
    | succ n =>
      have htick : e.tick.targeted_schedule = [(key, T)] := by
        simp [tick, he, schedule_map.erase, hne]
      have hkey' : key = (e.tick.t + j) % SIZE_T := by
        simp only [tick]
        rw [Nat.mod_add_mod, hkey]
        congr 1
        omega
      have htt : e.tick.t < SIZE_T := Nat.mod_lt _ (by unfold SIZE_T; positivity)
      rw [run, ih n e.tick htick htt (by omega) hkey', List.range_succ_eq_map]
      simp only [List.map_cons, List.map_map]
      congr 1
      · simp [process, he, hne]
      · apply List.map_congr_left
        intro k _
        simp [tick]

/-- C7. Round trip: on an event whose schedule is empty at tick `t0`, after
`schedule(T, d)` for a target set `T` of capacity `size`, running `process()`
then `tick()` at each of `n` steps calls the listeners at step `d` only, that
is after exactly `d` ticks, when `t` is `t0 + d` (in `size_t` arithmetic), once
each, in registration order, and with the arguments `(t0 + d, T)`: the `i`-th
call is the `i`-th listener receiving `t0 + d` and `T` itself when it is a C++
listener, and `t0 + d` and the members of `T` numbered from one when it is an R
function; at every other step, later ones included, no listener is called. -/
theorem schedule_round_trip (e : TargetedEvent) (T : IndividualIndex) (d n : Nat)
    (hempty : e.targeted_schedule = []) (hT : T.max_size = e.size)
    (ht : e.t < SIZE_T) (hd : d < SIZE_T) :
    run n (e.schedule T d) =
      (List.range n).map (fun k =>
        if k = d then fire e.listeners ((e.t + d) % SIZE_T) T else []) ∧
    (after d (e.schedule T d)).t = (e.t + d) % SIZE_T ∧
    (fire e.listeners ((e.t + d) % SIZE_T) T).length = e.listeners.length ∧
    ∀ i id : Nat,
      (e.listeners[i]? = some (SEXP.extptr id) →
        (fire e.listeners ((e.t + d) % SIZE_T) T)[i]? =
          some (TargetedCall.cpp id ((e.t + d) % SIZE_T) T)) ∧
      (e.listeners[i]? = some (SEXP.closure id) →
        (fire e.listeners ((e.t + d) % SIZE_T) T)[i]? =
          some (TargetedCall.r id ((e.t + d) % SIZE_T) (T.toList.map (· + 1)))) := by
  have hs : (e.schedule T d).targeted_schedule = [((e.t + d) % SIZE_T, T)] := by
    simp [schedule, hempty, schedule_map.find, schedule_map.insert, or_at,
      empty_or_eq hT]
  refine ⟨?_, ?_, by simp [fire], fun i id =>
    ⟨fun h => by simp [fire, List.getElem?_map, h],
      fun h => by simp [fire, List.getElem?_map, h]⟩⟩
  · exact run_of_single _ T d n (e.schedule T d) hs ht hd rfl
  · rcases after_t d (e.schedule T d) with h | h
    · exact h
    · subst h
      simp [after, Nat.mod_eq_of_lt ht]

/-- Witness for C7: delay 2 for the individuals 0 and 2 on a fresh event of
size 3 with a C++ listener and an R function. Nothing is called at the steps 0
and 1; at step 2, when `t = 2`, the C++ listener receives `(2, {0, 2})` and the
R function `(2, [1, 3])`; nothing is called at step 3. -/
theorem schedule_round_trip_witness :
    run 4 ((TargetedEvent.mk [.extptr 0, .closure 1] 0 [] 3).schedule
        ⟨[true, false, true]⟩ 2) =
      [[], [], [.cpp 0 2 ⟨[true, false, true]⟩, .r 1 2 [1, 3]], []] ∧
    (after 2 ((TargetedEvent.mk [.extptr 0, .closure 1] 0 [] 3).schedule
        ⟨[true, false, true]⟩ 2)).t = 2 :=
  ⟨(schedule_round_trip ⟨[.extptr 0, .closure 1], 0, [], 3⟩ ⟨[true, false, true]⟩ 2 4 rfl rfl
      (by decide) (by decide)).1.trans (by decide),
    (schedule_round_trip ⟨[.extptr 0, .closure 1], 0, [], 3⟩ ⟨[true, false, true]⟩ 2 4 rfl rfl
      (by decide) (by decide)).2.1.trans (by decide)⟩

theorem contains_foldl_or (entries : List (Nat × IndividualIndex)) :
    ∀ (b : IndividualIndex),
      (entries.foldl (fun scheduled entry => scheduled.or entry.2) b).max_size = b.max_size ∧
      ∀ i, (entries.foldl (fun scheduled entry => scheduled.or entry.2) b).contains i =
        (b.contains i || (decide (i < b.max_size) && entries.any fun entry => entry.2.contains i)) := by
  induction entries with
  | nil => intro b; simp
  | cons entry rest ih =>
    intro b
    obtain ⟨hsz, hc⟩ := ih (b.or entry.2)
    refine ⟨by simpa using hsz, fun i => ?_⟩
    rw [List.foldl_cons, hc i, IndividualIndex.contains_or, IndividualIndex.max_size_or,
      List.any_cons]
    cases b.contains i <;> cases decide (i < b.max_size) <;> simp

/-- C8. On an event whose entries all have capacity `size`, after
`clear_schedule(T)` with `T` of capacity `size`: `get_scheduled()` is the
previous `get_scheduled()` minus `T`; the pending timesteps are the same and
each one's target set is its previous set minus `T`, so no entry that
`process()` could later pass to a listener holds a member of `T`; and an
individual outside `T` is scheduled at exactly the timesteps it was. The tick,
the capacity and the listeners are untouched. -/
theorem clear_schedule_spec (e : TargetedEvent) (T : IndividualIndex)
    (hcap : e.Capacity) (hT : T.max_size = e.size) :
    (e.clear_schedule T).get_scheduled = e.get_scheduled.difference T ∧
    (e.clear_schedule T).targeted_schedule.keys = e.targeted_schedule.keys ∧
    (∀ ts, (e.clear_schedule T).targeted_schedule.find ts =
      (e.targeted_schedule.find ts).map fun b => b.difference T) ∧
    (∀ entry ∈ (e.clear_schedule T).targeted_schedule,
      ∀ i, T.contains i = true → entry.2.contains i = false) ∧
    (∀ ts b b', e.targeted_schedule.find ts = some b →
      (e.clear_schedule T).targeted_schedule.find ts = some b' →
      ∀ i, T.contains i = false → b'.contains i = b.contains i) ∧
    (e.clear_schedule T).t = e.t ∧ (e.clear_schedule T).size = e.size ∧
    (e.clear_schedule T).listeners = e.listeners := by
  have hmap : (e.clear_schedule T).targeted_schedule =
      e.targeted_schedule.map fun entry => (entry.1, entry.2.difference T) := by
    unfold clear_schedule
    apply List.map_congr_left
    intro entry he
    rw [IndividualIndex.and_not_eq_difference]
    rw [hcap entry he, hT]
  have hfind : ∀ ts, (e.clear_schedule T).targeted_schedule.find ts =
      (e.targeted_schedule.find ts).map fun b => b.difference T := by
    intro ts
    rw [hmap]
    exact schedule_map.lookup_map_snd e.targeted_schedule (fun p => p.2.difference T) ts
  refine ⟨?_, ?_, hfind, ?_, ?_, rfl, rfl, rfl⟩
  · rw [IndividualIndex.ext_iff_contains]
    obtain ⟨hsz₁, hc₁⟩ := contains_foldl_or (e.clear_schedule T).targeted_schedule
      (IndividualIndex.empty e.size)
    obtain ⟨hsz₂, hc₂⟩ := contains_foldl_or e.targeted_schedule (IndividualIndex.empty e.size)
    refine ⟨?_, fun i => ?_⟩
    · rw [IndividualIndex.max_size_difference]
      exact hsz₁.trans hsz₂.symm
    · rw [IndividualIndex.contains_difference]
      have h₁ : (e.clear_schedule T).get_scheduled.contains i = _ := hc₁ i
      have h₂ : e.get_scheduled.contains i = _ := hc₂ i
      rw [h₁, h₂, hmap, List.any_map]
      simp only [IndividualIndex.contains_empty, Bool.false_or, IndividualIndex.max_size_empty,
        Function.comp_def, IndividualIndex.contains_difference]
      cases hTi : T.contains i
      · simp
      · simp
  · rw [hmap]
    exact schedule_map.keys_of_map_snd _ _
  · intro entry he i hi
    rw [hmap] at he
    obtain ⟨e₀, _, rfl⟩ := List.mem_map.1 he
    simp [IndividualIndex.contains_difference, hi]
  · intro ts b b' hb hb' i hi
    rw [hfind, hb] at hb'
    simp only [Option.map_some', Option.some.injEq] at hb'
    subst hb'
    simp [IndividualIndex.contains_difference, hi]

/-- Witness for C8: individual 1 is cleared from both of its timesteps. -/
theorem clear_schedule_spec_witness :
    (clear_schedule ⟨[], 1, [(2, ⟨[true, true, false]⟩), (5, ⟨[false, true, true]⟩)], 3⟩
        ⟨[false, true, false]⟩).get_scheduled = ⟨[true, false, true]⟩ ∧
    (clear_schedule ⟨[], 1, [(2, ⟨[true, true, false]⟩), (5, ⟨[false, true, true]⟩)], 3⟩
        ⟨[false, true, false]⟩).get_scheduled =
      (get_scheduled ⟨[], 1, [(2, ⟨[true, true, false]⟩), (5, ⟨[false, true, true]⟩)], 3⟩
        ).difference ⟨[false, true, false]⟩ :=
  ⟨by decide,
    (clear_schedule_spec
      ⟨[], 1, [(2, ⟨[true, true, false]⟩), (5, ⟨[false, true, true]⟩)], 3⟩
      ⟨[false, true, false]⟩ (by decide) rfl).1⟩

/-- C10. Scalar scheduling is cumulative: on an event whose entries all have
capacity `size`, after `schedule(T, d)` with `T` of capacity `size`, `t` is
unchanged; the entry for timestep `t + d` (in `size_t` arithmetic) is the
previous entry, or the empty set when there was none, united with `T`; the
entry of every other timestep is unchanged; and whoever was scheduled at a
timestep before the call still is. -/
theorem schedule_cumulative (e : TargetedEvent) (T : IndividualIndex) (d : Nat)
    (hcap : e.Capacity) (hT : T.max_size = e.size) :
    (e.schedule T d).t = e.t ∧
    (∃ b', (e.schedule T d).targeted_schedule.find ((e.t + d) % SIZE_T) = some b' ∧
      b' = ((e.targeted_schedule.find ((e.t + d) % SIZE_T)).getD
        (IndividualIndex.empty e.size)).or T ∧
      b'.max_size = e.size ∧
      ∀ i, b'.contains i =
        (((e.targeted_schedule.find ((e.t + d) % SIZE_T)).getD
          (IndividualIndex.empty e.size)).contains i || T.contains i)) ∧
    (∀ ts, ts ≠ (e.t + d) % SIZE_T →
      (e.schedule T d).targeted_schedule.find ts = e.targeted_schedule.find ts) ∧
    (∀ ts b, e.targeted_schedule.find ts = some b →
      ∃ b', (e.schedule T d).targeted_schedule.find ts = some b' ∧
        ∀ i, b.contains i = true → b'.contains i = true) := by
  have hbase : ((e.targeted_schedule.find ((e.t + d) % SIZE_T)).getD
      (IndividualIndex.empty e.size)).max_size = e.size := by
    cases hf : e.targeted_schedule.find ((e.t + d) % SIZE_T) with
    | none => simp
    | some b => simpa using hcap _ (schedule_map.mem_of_lookup hf)
  refine ⟨rfl, ⟨((e.targeted_schedule.find ((e.t + d) % SIZE_T)).getD
      (IndividualIndex.empty e.size)).or T, by rw [find_schedule]; simp, rfl,
    by simpa using hbase, fun i => ?_⟩, ?_, ?_⟩
  · rw [IndividualIndex.contains_or, hbase]
    cases hi : T.contains i
    · simp
    · have := IndividualIndex.contains_lt hi
      simp [hT ▸ this]
  · intro ts hts
    rw [find_schedule]
    simp [hts]
  · intro ts b hb
    rw [find_schedule]
    by_cases hts : ts = (e.t + d) % SIZE_T
    · subst hts
      refine ⟨b.or T, by simp [hb], fun i hi => ?_⟩
      rw [IndividualIndex.contains_or, hi]
      rfl
    · exact ⟨b, by simp [hts, hb], fun i hi => hi⟩

/-- Witness for C10: rescheduling individual 0 for a later timestep keeps its
earlier firing. -/
theorem schedule_cumulative_witness :
    (schedule ⟨[], 1, [(2, ⟨[true, false]⟩)], 2⟩ ⟨[true, true]⟩ 3).targeted_schedule =
      [(2, ⟨[true, false]⟩), (4, ⟨[true, true]⟩)] ∧
    (schedule ⟨[], 1, [(2, ⟨[true, false]⟩)], 2⟩ ⟨[true, true]⟩ 3).t = 1 :=
  ⟨by decide,
    (schedule_cumulative ⟨[], 1, [(2, ⟨[true, false]⟩)], 2⟩ ⟨[true, true]⟩ 3
      (by decide) rfl).1⟩

end TargetedEvent

/-! ### The vectorised `schedule` -/

namespace TargetedEvent

theorem schedule_all_fields (calls : List (Nat × IndividualIndex)) :
    ∀ e : TargetedEvent, (e.schedule_all calls).t = e.t ∧ (e.schedule_all calls).size = e.size ∧
      (e.schedule_all calls).listeners = e.listeners ∧
      (e.targeted_schedule.Ordered → (e.schedule_all calls).targeted_schedule.Ordered) := by
  induction calls with
  | nil => intro e; exact ⟨rfl, rfl, rfl, id⟩
  | cons call rest ih =>
    intro e
    obtain ⟨h₁, h₂, h₃, h₄⟩ := ih (e.schedule call.2 call.1)
    exact ⟨h₁, h₂, h₃, fun ho => h₄ (schedule_ordered e _ _ ho)⟩

/-- The calls of a sequence that land on timestep `k`. -/
theorem find_schedule_all (calls : List (Nat × IndividualIndex)) (k : Nat) :
    ∀ e : TargetedEvent, (e.schedule_all calls).targeted_schedule.find k =
      if calls.filter (fun call => decide ((e.t + call.1) % SIZE_T = k)) = [] then
        e.targeted_schedule.find k
      else
        some ((calls.filter fun call => decide ((e.t + call.1) % SIZE_T = k)).foldl
          (fun b call => b.or call.2)
          ((e.targeted_schedule.find k).getD (IndividualIndex.empty e.size))) := by
  induction calls with
  | nil => intro e; simp [schedule_all]
  | cons call rest ih =>
    intro e
    have hstep : e.schedule_all (call :: rest) = (e.schedule call.2 call.1).schedule_all rest :=
      rfl
    rw [hstep, ih, schedule_t, schedule_size, find_schedule]
    by_cases hk : (e.t + call.1) % SIZE_T = k
    · subst hk
      simp only [List.filter_cons, decide_True, if_true, List.foldl_cons, Option.getD_some]
      by_cases hrest : rest.filter
          (fun c => decide ((e.t + c.1) % SIZE_T = (e.t + call.1) % SIZE_T)) = []
      · simp [hrest]
      · simp [hrest]
    · have hk' : ¬ k = (e.t + call.1) % SIZE_T := fun hc => hk hc.symm
      simp only [List.filter_cons, hk, decide_False, hk', if_false]
      rfl

/-- Two sequences of scalar calls leave the same event when, timestep by
timestep, they schedule the same individuals. -/
theorem schedule_all_congr (e : TargetedEvent) (ho : e.targeted_schedule.Ordered)
    (calls₁ calls₂ : List (Nat × IndividualIndex))
    (hkeys : ∀ k, (∃ c ∈ calls₁, (e.t + c.1) % SIZE_T = k) ↔
      (∃ c ∈ calls₂, (e.t + c.1) % SIZE_T = k))
    (hmem : ∀ k i, (∃ c ∈ calls₁, (e.t + c.1) % SIZE_T = k ∧ c.2.contains i = true) ↔
      (∃ c ∈ calls₂, (e.t + c.1) % SIZE_T = k ∧ c.2.contains i = true)) :
    e.schedule_all calls₁ = e.schedule_all calls₂ := by
  obtain ⟨ht₁, hs₁, hl₁, ho₁⟩ := schedule_all_fields calls₁ e
  obtain ⟨ht₂, hs₂, hl₂, ho₂⟩ := schedule_all_fields calls₂ e
  have hsched : (e.schedule_all calls₁).targeted_schedule =
      (e.schedule_all calls₂).targeted_schedule := by
    apply schedule_map.ext_of_find (ho₁ ho) (ho₂ ho)
    intro k
    rw [find_schedule_all, find_schedule_all]
    have hnil : ∀ calls : List (Nat × IndividualIndex),
        calls.filter (fun call => decide ((e.t + call.1) % SIZE_T = k)) = [] ↔
          ¬ ∃ c ∈ calls, (e.t + c.1) % SIZE_T = k := by
      intro calls
      rw [List.filter_eq_nil_iff]
      simp
    have hany : ∀ (calls : List (Nat × IndividualIndex)) (i : Nat),
        ((calls.filter fun call => decide ((e.t + call.1) % SIZE_T = k)).any
          fun call => call.2.contains i) = true ↔
          ∃ c ∈ calls, (e.t + c.1) % SIZE_T = k ∧ c.2.contains i = true := by
      intro calls i
      simp only [List.any_eq_true, List.mem_filter, decide_eq_true_eq]
      constructor
      · rintro ⟨c, ⟨hc, hk⟩, hi⟩
        exact ⟨c, hc, hk, hi⟩
      · rintro ⟨c, hc, hk, hi⟩
        exact ⟨c, ⟨hc, hk⟩, hi⟩
    by_cases h₁ : calls₁.filter (fun call => decide ((e.t + call.1) % SIZE_T = k)) = []
    · have h₂ : calls₂.filter (fun call => decide ((e.t + call.1) % SIZE_T = k)) = [] := by
        rw [hnil] at h₁ ⊢
        rwa [← hkeys k]
      rw [if_pos h₁, if_pos h₂]
    · have h₂ : ¬ calls₂.filter (fun call => decide ((e.t + call.1) % SIZE_T = k)) = [] := by
        rw [hnil] at h₁ ⊢
        rwa [← hkeys k]
      rw [if_neg h₁, if_neg h₂]
      congr 1
      rw [IndividualIndex.ext_iff_contains]
      obtain ⟨hsz₁, hc₁⟩ := contains_foldl_or
        (calls₁.filter fun call => decide ((e.t + call.1) % SIZE_T = k))
        ((e.targeted_schedule.find k).getD (IndividualIndex.empty e.size))
      obtain ⟨hsz₂, hc₂⟩ := contains_foldl_or
        (calls₂.filter fun call => decide ((e.t + call.1) % SIZE_T = k))
        ((e.targeted_schedule.find k).getD (IndividualIndex.empty e.size))
      refine ⟨hsz₁.trans hsz₂.symm, fun i => ?_⟩
      rw [hc₁, hc₂]
      have : ((calls₁.filter fun call => decide ((e.t + call.1) % SIZE_T = k)).any
          fun call => call.2.contains i) =
          ((calls₂.filter fun call => decide ((e.t + call.1) % SIZE_T = k)).any
            fun call => call.2.contains i) := by
        rw [Bool.eq_iff_iff, hany, hany]
        exact hmem k i
      rw [this]
  cases h₁ : e.schedule_all calls₁ with
  | mk l₁ t₁ m₁ s₁ =>
    cases h₂ : e.schedule_all calls₂ with
    | mk l₂ t₂ m₂ s₂ =>
      rw [h₁] at ht₁ hs₁ hl₁ hsched
      rw [h₂] at ht₂ hs₂ hl₂ hsched
      simp only at ht₁ hs₁ hl₁ ht₂ hs₂ hl₂ hsched
      rw [ht₁, hs₁, hl₁, ht₂, hs₂, hl₂, hsched]

theorem foldl_schedule_eq_schedule_all {α : Type} (g : Nat → α → IndividualIndex)
    (h : α → Nat) (xs : List α) :
    ∀ e : TargetedEvent, xs.foldl (fun e x => e.schedule (g e.size x) (h x)) e =
      e.schedule_all (xs.map fun x => (h x, g e.size x)) := by
  induction xs with
  | nil => intro e; rfl
  | cons x rest ih =>
    intro e
    rw [List.foldl_cons, ih]
    rfl

theorem round_delay_eq_map (delays : List ℚ) (h : ∀ d ∈ delays, 0 ≤ d)
    (hrange : ∀ d ∈ delays, round_half_away d < (SIZE_T : Int)) :
    round_delay delays = .ok (delays.map fun d => (round_half_away d).toNat) := by
  induction delays with
  | nil => rfl
  | cons d rest ih =>
    have hd : ¬ d < 0 := not_lt.2 (h d (List.mem_cons_self _ _))
    have hr : ¬ (SIZE_T : Int) ≤ round_half_away d :=
      not_le.2 (hrange d (List.mem_cons_self _ _))
    simp [round_delay, hd, hr, ih (fun x hx => h x (List.mem_cons_of_mem _ hx))
      fun x hx => hrange x (List.mem_cons_of_mem _ hx)]

/-- What a normal return of `round_delay` says about its argument. -/
theorem round_delay_ok : ∀ {delays : List ℚ} {rounded : List Nat},
    round_delay delays = .ok rounded →
      (∀ d ∈ delays, 0 ≤ d ∧ round_half_away d < (SIZE_T : Int)) ∧
        rounded = delays.map fun d => (round_half_away d).toNat := by
  intro delays
  induction delays with
  | nil =>
    intro rounded h
    simp only [round_delay, Except.ok.injEq] at h
    simp [← h]
  | cons d rest ih =>
    intro rounded h
    unfold round_delay at h
    by_cases hd : d < 0
    · simp [hd] at h
    · by_cases hr : (SIZE_T : Int) ≤ round_half_away d
      · simp [hd, hr] at h
      · simp only [hd, hr, if_false] at h
        cases hrest : round_delay rest with
        | error failure => simp [hrest] at h
        | ok rounded' =>
          simp only [hrest, Except.ok.injEq] at h
          obtain ⟨h₁, h₂⟩ := ih hrest
          refine ⟨?_, by simp [← h, h₂]⟩
          intro x hx
          rcases List.mem_cons.1 hx with rfl | hx'
          · exact ⟨not_lt.1 hd, not_le.1 hr⟩
          · exact h₁ x hx'

theorem zip_contains_iff (l : List (Nat × Nat)) (a : Nat × Nat) :
    l.contains a = true ↔ a ∈ l := by
  simp

/-- The inner loop collects the identifiers paired with the delay `v`. -/
theorem bucket_spec (v : Nat) :
    ∀ (rounded target_vector : List Nat) (target : IndividualIndex),
      rounded.length ≤ target_vector.length →
      (∀ id ∈ target_vector, id < target.max_size) →
      ∃ target', bucket v rounded target_vector target = some target' ∧
        target'.max_size = target.max_size ∧
        ∀ i, target'.contains i = true ↔
          (target.contains i = true ∨ (i, v) ∈ target_vector.zip rounded) := by
  intro rounded
  induction rounded with
  | nil =>
    intro target_vector target _ _
    exact ⟨target, rfl, rfl, fun i => by simp⟩
  | cons r rest ih =>
    intro target_vector target hlen hids
    cases target_vector with
    | nil => simp at hlen
    | cons id ids =>
      have hlen' : rest.length ≤ ids.length := by simpa using hlen
      by_cases hr : r = v
      · subst hr
        obtain ⟨t₁, ht₁⟩ := IndividualIndex.insert_isSome (hids id (List.mem_cons_self _ _))
        obtain ⟨_, hsz₁, hc₁⟩ := IndividualIndex.insert_eq_some ht₁
        obtain ⟨target', hrun, hsz, hc⟩ := ih ids t₁ hlen'
          (fun x hx => hsz₁ ▸ hids x (List.mem_cons_of_mem _ hx))
        refine ⟨target', ?_, hsz.trans hsz₁, fun i => ?_⟩
        · simp [bucket, ht₁, hrun]
        · rw [hc, hc₁]
          simp only [Bool.or_eq_true, decide_eq_true_eq, List.zip_cons_cons, List.mem_cons,
            Prod.mk.injEq, and_true]
          tauto
      · obtain ⟨target', hrun, hsz, hc⟩ := ih ids target hlen'
          (fun x hx => hids x (List.mem_cons_of_mem _ hx))
        refine ⟨target', ?_, hsz, fun i => ?_⟩
        · simp [bucket, hr, hrun]
        · rw [hc]
          have hr' : ¬ v = r := fun hc => hr hc.symm
          simp [hr']

theorem bucket_eq_spec_bucket (size v : Nat) (rounded target_vector : List Nat)
    (hlen : rounded.length ≤ target_vector.length)
    (hids : ∀ id ∈ target_vector, id < size) :
    bucket v rounded target_vector (IndividualIndex.empty size) =
      some (spec_bucket size target_vector rounded v) := by
  obtain ⟨target', hrun, hsz, hc⟩ := bucket_spec v rounded target_vector
    (IndividualIndex.empty size) hlen (by simpa using hids)
  rw [hrun]
  congr 1
  rw [IndividualIndex.ext_iff_contains]
  refine ⟨by rw [hsz, IndividualIndex.max_size_empty]; simp [spec_bucket, IndividualIndex.max_size], fun i => ?_⟩
  rw [Bool.eq_iff_iff, hc, spec_bucket, IndividualIndex.contains_range_map]
  simp only [IndividualIndex.contains_empty, Bool.false_eq_true, false_or, Bool.and_eq_true,
    decide_eq_true_eq, zip_contains_iff]
  constructor
  · intro h
    exact ⟨hids i (List.of_mem_zip h).1, h⟩
  · exact fun h => h.2

theorem schedule_loop_eq (target_vector rounded : List Nat)
    (hlen : rounded.length ≤ target_vector.length) (delay_values : List Nat) :
    ∀ e : TargetedEvent, (∀ id ∈ target_vector, id < e.size) →
      schedule_loop target_vector rounded delay_values e =
        .ok (schedule_per_bucket e target_vector rounded delay_values) := by
  induction delay_values with
  | nil => intro e _; rfl
  | cons v rest ih =>
    intro e hids
    simp only [schedule_loop, bucket_eq_spec_bucket e.size v rounded target_vector hlen hids]
    rw [ih (e.schedule _ v) hids]
    rfl

/-- C9, amended. On an event whose schedule map is in key order, for
equal-length lists `target_ids` (each below `size`) and `delays` (each
non-negative and rounding to a value below `2 ^ 64`, so that its conversion to
`size_t` is defined), and whatever order the set of distinct rounded delays is
visited in, the vectorised
`schedule(target_ids, delays)` returns normally and leaves exactly the event
that one scalar `schedule(bucket_v, v)` per distinct rounded delay `v` leaves,
which is exactly the event that one scalar `schedule({target_ids[i]},
round(delays[i]))` per individual leaves. The latter does not mention the
visiting order, so the result does not depend on it. -/
theorem schedule_vector_eq_scalar (e : TargetedEvent) (target_ids : List Nat)
    (delays : List ℚ) (order : List Nat → List Nat)
    (hordered : e.targeted_schedule.Ordered)
    (hlen : target_ids.length = delays.length)
    (hids : ∀ id ∈ target_ids, id < e.size)
    (hdelays : ∀ d ∈ delays, 0 ≤ d)
    (hrange : ∀ d ∈ delays, round_half_away d < (SIZE_T : Int))
    (horder : ∀ rounded, IsOrderOf (order rounded) rounded) :
    ∃ rounded, round_delay delays = .ok rounded ∧
      rounded = delays.map (fun d => (round_half_away d).toNat) ∧
      schedule_vector_in order e target_ids delays =
        .ok (schedule_per_bucket e target_ids rounded (order rounded)) ∧
      schedule_per_bucket e target_ids rounded (order rounded) =
        schedule_per_individual e target_ids rounded := by
  have hround := round_delay_eq_map delays hdelays hrange
  have hlen' : (delays.map fun d => (round_half_away d).toNat).length ≤ target_ids.length := by
    simp [hlen]
  refine ⟨_, hround, rfl, ?_, ?_⟩
  · simp only [schedule_vector_in, hround, schedule_loop_eq target_ids _ hlen' _ e hids]
  · generalize (delays.map fun d => (round_half_away d).toNat) = rounded at hlen' ⊢
    obtain ⟨_, hmem⟩ := horder rounded
    unfold schedule_per_bucket schedule_per_individual
    rw [foldl_schedule_eq_schedule_all (fun size v => spec_bucket size target_ids rounded v)
        (fun v => v) (order rounded) e,
      foldl_schedule_eq_schedule_all (fun size (p : Nat × Nat) => IndividualIndex.singleton size p.1)
        (fun p => p.2) (target_ids.zip rounded) e]
    apply schedule_all_congr e hordered
    · intro k
      simp only [List.mem_map, exists_exists_and_eq_and]
      constructor
      · rintro ⟨v, hv, hk⟩
        obtain ⟨j, hj, rfl⟩ := List.getElem_of_mem ((hmem v).1 hv)
        have hj' : j < target_ids.length := by omega
        refine ⟨(target_ids[j], rounded[j]), ?_, hk⟩
        rw [List.mem_iff_getElem]
        exact ⟨j, by simp [hj, hj'], by simp⟩
      · rintro ⟨p, hp, hk⟩
        exact ⟨p.2, (hmem p.2).2 (List.of_mem_zip hp).2, hk⟩
    · intro k i
      simp only [List.mem_map, exists_exists_and_eq_and, spec_bucket, IndividualIndex.singleton,
        IndividualIndex.contains_range_map, Bool.and_eq_true, decide_eq_true_eq,
        zip_contains_iff]
      constructor
      · rintro ⟨v, _, hk, hi, hz⟩
        exact ⟨(i, v), hz, hk, hi, rfl⟩
      · rintro ⟨p, hp, hk, hi, rfl⟩
        exact ⟨p.2, (hmem p.2).2 (List.of_mem_zip hp).2, hk, hi, hp⟩

/-- Witness for C9: at `t = 1` three individuals, two of them with the same
rounded delay, on an event that already has individual 3 pending at timestep 3;
the distinct delays are visited in first-occurrence order. The vectorised call
and the per-individual calls both leave `{0, 2, 3}` at timestep 3 and `{1}` at
timestep 4. -/
theorem schedule_vector_eq_scalar_witness :
    schedule_vector_in List.dedup ⟨[], 1, [(3, ⟨[false, false, false, true]⟩)], 4⟩
        [0, 1, 2] [2, 3, 2] =
      .ok ⟨[], 1, [(3, ⟨[true, false, true, true]⟩), (4, ⟨[false, true, false, false]⟩)], 4⟩ ∧
    schedule_per_individual ⟨[], 1, [(3, ⟨[false, false, false, true]⟩)], 4⟩
        [0, 1, 2] [2, 3, 2] =
      ⟨[], 1, [(3, ⟨[true, false, true, true]⟩), (4, ⟨[false, true, false, false]⟩)], 4⟩ := by
  have h₂ : round_half_away 2 = 2 := by norm_num [round_half_away]
  have h₃ : round_half_away 3 = 3 := by norm_num [round_half_away]
  obtain ⟨rounded, _, hmap, hvec, heq⟩ :=
    schedule_vector_eq_scalar ⟨[], 1, [(3, ⟨[false, false, false, true]⟩)], 4⟩ [0, 1, 2]
      [2, 3, 2] List.dedup (by decide) rfl (by decide) (by simp)
      (by
        intro d hd
        simp only [List.mem_cons, List.mem_singleton, List.not_mem_nil, or_false] at hd
        rcases hd with rfl | rfl | rfl <;> norm_num [round_half_away, SIZE_T])
      (fun rounded => ⟨List.nodup_dedup rounded, fun _ => List.mem_dedup⟩)
  have hrounded : rounded = [2, 3, 2] := by
    rw [hmap]
    simp only [List.map, h₂, h₃]
    rfl
  subst hrounded
  have hbucket : schedule_per_bucket ⟨[], 1, [(3, ⟨[false, false, false, true]⟩)], 4⟩
      [0, 1, 2] [2, 3, 2] (List.dedup [2, 3, 2]) =
      ⟨[], 1, [(3, ⟨[true, false, true, true]⟩), (4, ⟨[false, true, false, false]⟩)], 4⟩ := by
    decide
  exact ⟨by rw [hvec, hbucket], by rw [← heq, hbucket]⟩

/-- C9 as stated fails for a delay that does not round to a value below
`2 ^ 64`: on a fresh event of size 1, with the identifier 0 and the delay
`2 ^ 64` (a `double`, non-negative), `round_delay` converts the rounded value to
`size_t`, which is undefined; the vectorised `schedule` leaves no schedule map
to compare. -/
theorem schedule_vector_unrepresentable_counterexample :
    (∀ id ∈ [0], id < (TargetedEvent.create 1).size) ∧
    (∀ d ∈ ([18446744073709551616] : List ℚ), 0 ≤ d) ∧
    round_half_away 18446744073709551616 = 18446744073709551616 ∧
    round_delay [18446744073709551616] = .error .undefined ∧
    schedule_vector_in List.dedup (TargetedEvent.create 1) [0] [18446744073709551616] =
      .error .undefined := by
  have hr : round_half_away 18446744073709551616 = 18446744073709551616 := by
    norm_num [round_half_away]
  have hround : round_delay [18446744073709551616] = .error .undefined := by
    norm_num [round_delay, hr, SIZE_T]
  refine ⟨by decide, by norm_num, hr, hround, ?_⟩
  simp only [schedule_vector_in, hround]

end TargetedEvent

/-! ## Claims about the queries of `CategoricalVariable` -/

namespace CategoricalVariable

theorem get_index_of_loop_ok (indices : named_array_t IndividualIndex) :
    ∀ (names : List String) (result : IndividualIndex),
      (∀ c ∈ names, c ∈ indices.keys) →
      ∃ r, get_index_of_loop indices names result = .ok r ∧
        r.max_size = result.max_size ∧
        ∀ i, r.contains i = true ↔
          (result.contains i = true ∨
            (i < result.max_size ∧
              ∃ c ∈ names, ∃ b, indices.find c = some b ∧ b.contains i = true)) := by
  intro names
  induction names with
  | nil => intro result _; exact ⟨result, rfl, rfl, fun i => by simp⟩
  | cons name rest ih =>
    intro result hknown
    obtain ⟨b, hb⟩ := named_array_t.find_isSome_of_mem_keys
      (hknown name (List.mem_cons_self _ _))
    obtain ⟨r, hrun, hsz, hc⟩ := ih (result.or b)
      fun c hc => hknown c (List.mem_cons_of_mem _ hc)
    refine ⟨r, by simp [get_index_of_loop, hb, hrun], by simpa using hsz, fun i => ?_⟩
    rw [hc, IndividualIndex.contains_or, IndividualIndex.max_size_or]
    simp only [Bool.or_eq_true, Bool.and_eq_true, decide_eq_true_eq, List.mem_cons,
      exists_eq_or_imp, hb, Option.some.injEq, exists_eq_left']
    tauto

theorem get_index_of_loop_error (indices : named_array_t IndividualIndex) :
    ∀ (names : List String) (result : IndividualIndex) (f : Failure),
      get_index_of_loop indices names result = .error f →
      ∃ c ∈ names, c ∉ indices.keys ∧ f = .stop ("unknown category: " ++ c) := by
  intro names
  induction names with
  | nil => intro result f h; simp [get_index_of_loop] at h
  | cons name rest ih =>
    intro result f h
    cases hf : indices.find name with
    | none =>
      simp only [get_index_of_loop, hf, Except.error.injEq] at h
      exact ⟨name, List.mem_cons_self _ _, (named_array_t.find_eq_none_iff _ _).1 hf, h.symm⟩
    | some b =>
      simp only [get_index_of_loop, hf] at h
      obtain ⟨c, hc, hk, hmsg⟩ := ih _ f h
      exact ⟨c, List.mem_cons_of_mem _ hc, hk, hmsg⟩

theorem get_index_of_loop_known (indices : named_array_t IndividualIndex) :
    ∀ (names : List String) (result r : IndividualIndex),
      get_index_of_loop indices names result = .ok r → ∀ c ∈ names, c ∈ indices.keys := by
  intro names
  induction names with
  | nil => intro _ _ _ c hc; simp at hc
  | cons name rest ih =>
    intro result r hr c hc
    cases hf : indices.find name with
    | none => simp [get_index_of_loop, hf] at hr
    | some b =>
      simp only [get_index_of_loop, hf] at hr
      rcases List.mem_cons.1 hc with rfl | hc'
      · exact named_array_t.mem_keys_of_find hf
      · exact ih _ r hr c hc'

/-- C11. On a variable with at least one category (so that `size()` is
defined) whose indices all have capacity `size()`: `get_index_of(names)` fails
if and only if some name of the list has no entry among the variable's
categories, and the failure is `Rcpp::stop("unknown category: ...")` for such
a name; otherwise it returns an index of capacity `size()` that holds an
individual exactly when some named category holds it, the empty list giving
the empty index. The single-name form fails on exactly the unknown names and
otherwise returns that category's index. -/
theorem get_index_of_spec (v : CategoricalVariable) (n : Nat) (names : List String)
    (hsize : v.size = some n)
    (hcap : ∀ c b, v.indices.find c = some b → b.max_size = n) :
    ((∃ f, v.get_index_of names = .error f) ↔ ∃ c ∈ names, c ∉ v.indices.keys) ∧
    (∀ f, v.get_index_of names = .error f →
      ∃ c ∈ names, c ∉ v.indices.keys ∧ f = .stop ("unknown category: " ++ c)) ∧
    ((∀ c ∈ names, c ∈ v.indices.keys) →
      ∃ r, v.get_index_of names = .ok r ∧ r.max_size = n ∧
        ∀ i, r.contains i = true ↔
          ∃ c ∈ names, ∃ b, v.indices.find c = some b ∧ b.contains i = true) ∧
    v.get_index_of [] = .ok (IndividualIndex.empty n) ∧
    (∀ c, (c ∉ v.indices.keys ↔
        v.get_index_of_category c = .error (.stop ("unknown category: " ++ c))) ∧
      ∀ b, v.indices.find c = some b → v.get_index_of_category c = .ok b) := by
  have hget : v.get_index_of names =
      get_index_of_loop v.indices names (IndividualIndex.empty n) := by
    simp [get_index_of, hsize]
  have hok : (∀ c ∈ names, c ∈ v.indices.keys) →
      ∃ r, v.get_index_of names = .ok r ∧ r.max_size = n ∧
        ∀ i, r.contains i = true ↔
          ∃ c ∈ names, ∃ b, v.indices.find c = some b ∧ b.contains i = true := by
    intro hknown
    obtain ⟨r, hrun, hsz, hc⟩ := get_index_of_loop_ok v.indices names
      (IndividualIndex.empty n) hknown
    refine ⟨r, hget.trans hrun, by simpa using hsz, fun i => ?_⟩
    rw [hc]
    simp only [IndividualIndex.contains_empty, Bool.false_eq_true, false_or,
      IndividualIndex.max_size_empty]
    constructor
    · exact fun h => h.2
    · rintro ⟨c, hc', b, hb, hi⟩
      exact ⟨hcap c b hb ▸ IndividualIndex.contains_lt hi, c, hc', b, hb, hi⟩
  have herr : ∀ f, v.get_index_of names = .error f →
      ∃ c ∈ names, c ∉ v.indices.keys ∧ f = .stop ("unknown category: " ++ c) :=
    fun f h => get_index_of_loop_error v.indices names _ f (hget ▸ h)
  refine ⟨⟨?_, ?_⟩, herr, hok, by simp [get_index_of, hsize, get_index_of_loop], fun c => ?_⟩
  · rintro ⟨f, hf⟩
    obtain ⟨c, hc, hk, _⟩ := herr f hf
    exact ⟨c, hc, hk⟩
  · rintro ⟨c, hc, hk⟩
    cases hres : v.get_index_of names with
    | error f => exact ⟨f, rfl⟩
    | ok r => exact absurd (get_index_of_loop_known v.indices names _ r (hget ▸ hres) c hc) hk
  · constructor
    · constructor
      · intro hk
        simp [get_index_of_category, (named_array_t.find_eq_none_iff _ _).2 hk]
      · intro h hk
        obtain ⟨b, hb⟩ := named_array_t.find_isSome_of_mem_keys hk
        simp [get_index_of_category, hb] at h
    · intro b hb
      simp [get_index_of_category, hb]

/-- Witness for C11: the union of two categories, and an unknown name. -/
theorem get_index_of_spec_witness :
    get_index_of ⟨["S", "I", "R"], [("S", ⟨[true, false, false]⟩),
        ("I", ⟨[false, true, false]⟩), ("R", ⟨[false, false, true]⟩)], [], []⟩ ["S", "R"] =
      .ok ⟨[true, false, true]⟩ ∧
    get_index_of ⟨["S", "I", "R"], [("S", ⟨[true, false, false]⟩),
        ("I", ⟨[false, true, false]⟩), ("R", ⟨[false, false, true]⟩)], [], []⟩ ["S", "Z"] =
      .error (.stop "unknown category: Z") ∧
    get_index_of ⟨["S", "I", "R"], [("S", ⟨[true, false, false]⟩),
        ("I", ⟨[false, true, false]⟩), ("R", ⟨[false, false, true]⟩)], [], []⟩ [] =
      .ok (IndividualIndex.empty 3) :=
  ⟨by decide, by decide,
    (get_index_of_spec ⟨["S", "I", "R"], [("S", ⟨[true, false, false]⟩),
        ("I", ⟨[false, true, false]⟩), ("R", ⟨[false, false, true]⟩)], [], []⟩ 3 ["S", "R"]
      rfl (is_partition_sound (by decide)).2.1).2.2.2.1⟩

/-- C12 fails on the code: with the one category `"S"` holding the single
individual, `get_size_of({"S", "S"})` adds the size of `"S"` twice and returns
2, while `get_index_of({"S", "S"})` holds one individual. -/
theorem get_size_of_repeated_name :
    get_size_of ⟨["S"], [("S", ⟨[true]⟩)], [], []⟩ ["S", "S"] = .ok 2 ∧
    get_index_of ⟨["S"], [("S", ⟨[true]⟩)], [], []⟩ ["S", "S"] = .ok ⟨[true]⟩ ∧
    (IndividualIndex.mk [true]).size = 1 := by
  decide

theorem get_size_of_loop_error_iff (indices : named_array_t IndividualIndex) :
    ∀ (names : List String) (result : Nat),
      (∃ f, get_size_of_loop indices names result = .error f) ↔
        ∃ c ∈ names, c ∉ indices.keys := by
  intro names
  induction names with
  | nil => intro result; simp [get_size_of_loop]
  | cons name rest ih =>
    intro result
    cases hf : indices.find name with
    | none =>
      have hk := (named_array_t.find_eq_none_iff _ _).1 hf
      simp only [get_size_of_loop, hf]
      exact ⟨fun _ => ⟨name, List.mem_cons_self _ _, hk⟩, fun _ => ⟨_, rfl⟩⟩
    | some b =>
      have hk := named_array_t.mem_keys_of_find hf
      simp only [get_size_of_loop, hf, ih, List.mem_cons, exists_eq_or_imp]
      constructor
      · exact fun h => Or.inr h
      · rintro (h | h)
        · exact absurd hk h
        · exact h

/-- The part of C12 that holds: `get_size_of` fails on exactly the lists on
which `get_index_of` fails. -/
theorem get_size_of_fails_iff (v : CategoricalVariable) (n : Nat) (names : List String)
    (hsize : v.size = some n) :
    (∃ f, v.get_size_of names = .error f) ↔ ∃ f, v.get_index_of names = .error f := by
  rw [get_size_of, get_size_of_loop_error_iff]
  have hget : v.get_index_of names =
      get_index_of_loop v.indices names (IndividualIndex.empty n) := by
    simp [get_index_of, hsize]
  constructor
  · rintro ⟨c, hc, hk⟩
    cases hres : v.get_index_of names with
    | error f => exact ⟨f, rfl⟩
    | ok r => exact absurd (get_index_of_loop_known v.indices names _ r (hget ▸ hres) c hc) hk
  · rintro ⟨f, hf⟩
    obtain ⟨c, hc, hk, _⟩ := get_index_of_loop_error v.indices names _ f (hget ▸ hf)
    exact ⟨c, hc, hk⟩

/-- C13. On a variable with at least one category: `queue_shrink(ids)` throws
if and only if some id of the list is at or above `size()`, and
`queue_shrink(index)` throws if and only if the capacity of `index` differs
from `size()`; a call that throws leaves the variable, its queues included, as
it was; a call that returns has appended exactly one shrink update to the end
of the resize queue and changed nothing else. -/
theorem queue_shrink_spec (v : CategoricalVariable) (n : Nat) (ids : List Nat)
    (index : IndividualIndex) (hsize : v.size = some n) :
    ((∃ x ∈ ids, n ≤ x) → v.queue_shrink ids = .error v) ∧
    ((∀ x ∈ ids, x < n) → v.queue_shrink ids =
      .ok ⟨v.categories, v.indices, v.updates,
        v.resize_updates ++ [.shrink (.of_vector ids)]⟩) ∧
    (index.max_size ≠ n → v.queue_shrink_index index = .error v) ∧
    (index.max_size = n → v.queue_shrink_index index =
      .ok ⟨v.categories, v.indices, v.updates,
        v.resize_updates ++ [.shrink (.of_index index)]⟩) := by
  refine ⟨?_, ?_, ?_, ?_⟩
  · rintro ⟨x, hx, hn⟩
    have : v.shrink_rejected ids = true := by
      simp only [shrink_rejected, hsize, List.any_eq_true, decide_eq_true_eq]
      exact ⟨x, hx, hn⟩
    simp [queue_shrink, this]
  · intro hall
    have : v.shrink_rejected ids = false := by
      simp only [shrink_rejected, hsize, List.any_eq_false, decide_eq_true_eq, Nat.not_le]
      exact hall
    simp [queue_shrink, this]
  · intro hne
    simp [queue_shrink_index, hsize, hne]
  · intro heq
    simp [queue_shrink_index, hsize, heq]

/-- Witness for C13: identifier 3 is out of range for three individuals. -/
theorem queue_shrink_spec_witness :
    queue_shrink ⟨["S"], [("S", ⟨[true, true, true]⟩)], [], [.extend ⟨["S"]⟩]⟩ [1, 3] =
      .error ⟨["S"], [("S", ⟨[true, true, true]⟩)], [], [.extend ⟨["S"]⟩]⟩ ∧
    queue_shrink ⟨["S"], [("S", ⟨[true, true, true]⟩)], [], [.extend ⟨["S"]⟩]⟩ [2, 0, 2] =
      .ok ⟨["S"], [("S", ⟨[true, true, true]⟩)], [],
        [.extend ⟨["S"]⟩, .shrink ⟨[0, 2]⟩]⟩ :=
  ⟨(queue_shrink_spec ⟨["S"], [("S", ⟨[true, true, true]⟩)], [], [.extend ⟨["S"]⟩]⟩ 3
      [1, 3] ⟨[]⟩ rfl).1 (by decide),
    by decide⟩

end CategoricalVariable

namespace IndividualIndex

theorem count_eq_countP_range (bits : List Bool) :
    bits.count true = (List.range bits.length).countP fun i => bits.getD i false := by
  induction bits with
  | nil => rfl
  | cons x rest ih =>
    rw [List.length_cons, List.range_succ_eq_map, List.countP_cons, List.countP_map,
      List.count_cons, ih]
    congr 1
    cases x <;> simp

theorem size_eq_countP (b : IndividualIndex) :
    b.size = (List.range b.max_size).countP b.contains :=
  count_eq_countP_range b.bits

theorem countP_or_of_disjoint (p q : Nat → Bool) (l : List Nat)
    (h : ∀ i ∈ l, ¬ (p i = true ∧ q i = true)) :
    l.countP (fun i => p i || q i) = l.countP p + l.countP q := by
  induction l with
  | nil => rfl
  | cons a rest ih =>
    have ha := h a (List.mem_cons_self _ _)
    rw [List.countP_cons, List.countP_cons, List.countP_cons,
      ih fun i hi => h i (List.mem_cons_of_mem _ hi)]
    cases hp : p a <;> cases hq : q a <;> simp [hp, hq] at ha ⊢ <;> omega

theorem countP_diff_of_subset (p q : Nat → Bool) (l : List Nat)
    (h : ∀ i ∈ l, q i = true → p i = true) :
    l.countP (fun i => p i && !q i) = l.countP p - l.countP q ∧ l.countP q ≤ l.countP p := by
  induction l with
  | nil => exact ⟨rfl, Nat.le_refl _⟩
  | cons a rest ih =>
    have ha := h a (List.mem_cons_self _ _)
    obtain ⟨ih₁, ih₂⟩ := ih fun i hi => h i (List.mem_cons_of_mem _ hi)
    rw [List.countP_cons, List.countP_cons, List.countP_cons, ih₁]
    cases hp : p a <;> cases hq : q a <;> simp [hp, hq] at ha ⊢ <;> omega

theorem size_or_of_disjoint (a b : IndividualIndex) (hcap : b.max_size = a.max_size)
    (h : ∀ i, ¬ (a.contains i = true ∧ b.contains i = true)) :
    (a.or b).size = a.size + b.size := by
  rw [size_eq_countP, size_eq_countP a, size_eq_countP b, max_size_or, hcap,
    ← countP_or_of_disjoint _ _ _ fun i _ => h i]
  apply List.countP_congr
  intro i hi
  have hlt : i < a.max_size := List.mem_range.1 hi
  simp [contains_or, hlt]

theorem size_difference_of_subset (a b : IndividualIndex) (hcap : b.max_size = a.max_size)
    (h : ∀ i, b.contains i = true → a.contains i = true) :
    (a.difference b).size = a.size - b.size ∧ b.size ≤ a.size := by
  have hc := countP_diff_of_subset a.contains b.contains (List.range a.max_size)
    fun i _ => h i
  rw [size_eq_countP, size_eq_countP a, size_eq_countP b, max_size_difference, hcap]
  refine ⟨?_, hc.2⟩
  rw [← hc.1]
  apply List.countP_congr
  intro i _
  simp [contains_difference]

end IndividualIndex

theorem CategoricalVariable.loops_agree (indices : named_array_t IndividualIndex) (n : Nat)
    (hpart : Partition indices n) :
    ∀ (names : List String) (result : IndividualIndex),
      names.Nodup → (∀ c ∈ names, c ∈ indices.keys) → result.max_size = n →
      (∀ c ∈ names, ∀ b, indices.find c = some b →
        ∀ i, ¬ (result.contains i = true ∧ b.contains i = true)) →
      ∃ r, CategoricalVariable.get_index_of_loop indices names result = .ok r ∧
        CategoricalVariable.get_size_of_loop indices names result.size = .ok r.size := by
  intro names
  induction names with
  | nil => intro result _ _ _ _; exact ⟨result, rfl, rfl⟩
  | cons name rest ih =>
    intro result hnd hknown hcap hdis
    obtain ⟨b, hb⟩ := named_array_t.find_isSome_of_mem_keys
      (hknown name (List.mem_cons_self _ _))
    have hnd' := List.nodup_cons.1 hnd
    have hbn := hpart.2.1 name b hb
    have hsum := IndividualIndex.size_or_of_disjoint result b (hbn.trans hcap.symm)
      (hdis name (List.mem_cons_self _ _) b hb)
    obtain ⟨r, h₁, h₂⟩ := ih (result.or b) hnd'.2
      (fun c hc => hknown c (List.mem_cons_of_mem _ hc)) (by simpa using hcap)
      (fun c hc b' hb' i hi => by
        rw [IndividualIndex.contains_or] at hi
        have hne : name ≠ c := fun h => hnd'.1 (h ▸ hc)
        rcases Bool.or_eq_true _ _ ▸ hi.1 with h | h
        · exact hdis c (List.mem_cons_of_mem _ hc) b' hb' i ⟨h, hi.2⟩
        · simp only [Bool.and_eq_true, decide_eq_true_eq] at h
          exact hpart.2.2.1 name c b b' hb hb' hne i ⟨h.2, hi.2⟩)
    refine ⟨r, by simp [CategoricalVariable.get_index_of_loop, hb, h₁], ?_⟩
    simp only [CategoricalVariable.get_size_of_loop, hb, ← hsum]
    exact h₂

/-- What C12 says does hold when no name is repeated: on a partitioned variable
and a list of distinct known names, `get_size_of(names)` is the cardinality of
`get_index_of(names)`. -/
theorem get_size_of_of_nodup (v : CategoricalVariable) (n : Nat) (names : List String)
    (hpart : Partition v.indices n) (hsize : v.size = some n)
    (hnd : names.Nodup) (hknown : ∀ c ∈ names, c ∈ v.indices.keys) :
    ∃ r, v.get_index_of names = .ok r ∧ v.get_size_of names = .ok r.size := by
  obtain ⟨r, h₁, h₂⟩ := CategoricalVariable.loops_agree v.indices n hpart names
    (IndividualIndex.empty n) hnd hknown (by simp) (fun c _ b _ i hi => by simp at hi)
  refine ⟨r, by simp [CategoricalVariable.get_index_of, hsize, h₁], ?_⟩
  have hzero : (IndividualIndex.empty n).size = 0 := by
    unfold IndividualIndex.size IndividualIndex.empty
    rw [List.count_eq_zero]
    intro h
    simpa using List.eq_of_mem_replicate h
  rw [hzero] at h₂
  exact h₂

/-- C20. On a partitioned variable with no update pending and three distinct
categories `S`, `I`, `R`, for an index `X` of current members of `S` and `Y`
the whole current membership of `I`: after `queue_update(I, X);
queue_update(R, Y); update()` the index of `I` is exactly `X`, the index of `R`
is its old index united with `Y`, and the index of `S` is its old index minus
`X`; so `get_size_of(I) = |X|`, `get_size_of(R) = old |R| + |Y|` and
`get_size_of(S) = old |S| - |X|`, with `|X| ≤ old |S|`. -/
theorem sir_commit (v : CategoricalVariable) (n : Nat) (S I R : String)
    (s y r X : IndividualIndex) (hpart : Partition v.indices n)
    (hq : v.updates = []) (hr : v.resize_updates = [])
    (hS : v.indices.find S = some s) (hI : v.indices.find I = some y)
    (hR : v.indices.find R = some r)
    (hSI : S ≠ I) (hSR : S ≠ R) (hIR : I ≠ R)
    (hX : X.max_size = n) (hXS : ∀ j, X.contains j = true → s.contains j = true) :
    ∃ v', ((v.queue_update I X).queue_update R y).update = .ok v' ∧
      v'.indices.find I = some X ∧
      v'.indices.find R = some (r.or y) ∧
      v'.indices.find S = some (s.difference X) ∧
      v'.get_size_of_category I = .ok X.size ∧
      v'.get_size_of_category R = .ok (r.size + y.size) ∧
      v'.get_size_of_category S = .ok (s.size - X.size) ∧
      X.size ≤ s.size := by
  obtain ⟨_, hcap, hdis, _⟩ := hpart
  have hs := hcap S s hS
  have hy := hcap I y hI
  have hrn := hcap R r hR
  have hidx : (CategoricalVariable.apply_updates
      ((v.queue_update I X).queue_update R y).updates
      ((v.queue_update I X).queue_update R y).indices) =
      CategoricalVariable.apply_update (R, y)
        (CategoricalVariable.apply_update (I, X) v.indices) := by
    simp [CategoricalVariable.queue_update, hq, CategoricalVariable.apply_updates]
  have hfind : ∀ c, (CategoricalVariable.apply_update (R, y)
      (CategoricalVariable.apply_update (I, X) v.indices)).find c =
      (v.indices.find c).map fun b =>
        if c = R then (if c = I then b.or X else b.and X.not).or y
        else (if c = I then b.or X else b.and X.not).and y.not := by
    intro c
    rw [CategoricalVariable.find_apply_update, CategoricalVariable.find_apply_update]
    cases v.indices.find c <;> rfl
  have hXy : ∀ j, X.contains j = true → y.contains j = false := by
    intro j hj
    cases hyj : y.contains j
    · rfl
    · exact absurd ⟨hXS j hj, hyj⟩ (hdis S I s y hS hI hSI j)
  have hXr : ∀ j, X.contains j = true → r.contains j = false := by
    intro j hj
    cases hrj : r.contains j
    · rfl
    · exact absurd ⟨hXS j hj, hrj⟩ (hdis S R s r hS hR hSR j)
  have hfI : (y.or X).and y.not = X := by
    rw [IndividualIndex.ext_iff_contains]
    refine ⟨by simp [hy, hX], fun j => ?_⟩
    rw [IndividualIndex.contains_and, IndividualIndex.contains_or, IndividualIndex.contains_not]
    cases hj : X.contains j
    · cases y.contains j <;> simp
    · have hlt : j < y.max_size := by rw [hy, ← hX]; exact IndividualIndex.contains_lt hj
      simp [hXy j hj, hlt]
  have hfR : (r.and X.not).or y = r.or y := by
    rw [IndividualIndex.ext_iff_contains]
    refine ⟨by simp, fun j => ?_⟩
    rw [IndividualIndex.contains_or, IndividualIndex.contains_or, IndividualIndex.contains_and,
      IndividualIndex.contains_not, IndividualIndex.max_size_and]
    cases hj : X.contains j
    · cases hrj : r.contains j
      · simp
      · have hlt : j < X.max_size := by rw [hX, ← hrn]; exact IndividualIndex.contains_lt hrj
        simp [hlt]
    · simp [hXr j hj]
  have hfS : (s.and X.not).and y.not = s.difference X := by
    rw [IndividualIndex.ext_iff_contains]
    refine ⟨by simp, fun j => ?_⟩
    rw [IndividualIndex.contains_and, IndividualIndex.contains_and,
      IndividualIndex.contains_not, IndividualIndex.contains_not,
      IndividualIndex.contains_difference]
    cases hsj : s.contains j
    · simp
    · have hlt : j < n := hs ▸ IndividualIndex.contains_lt hsj
      have hyj : y.contains j = false := by
        cases hyj : y.contains j
        · rfl
        · exact absurd ⟨hsj, hyj⟩ (hdis S I s y hS hI hSI j)
      simp [hX, hy, hlt, hyj]
  have hI' : (CategoricalVariable.apply_update (R, y)
      (CategoricalVariable.apply_update (I, X) v.indices)).find I = some X := by
    rw [hfind, hI]
    simp [hIR, hfI]
  have hR' : (CategoricalVariable.apply_update (R, y)
      (CategoricalVariable.apply_update (I, X) v.indices)).find R = some (r.or y) := by
    rw [hfind, hR]
    have hRI : ¬ R = I := fun h => hIR h.symm
    simp [hRI, hfR]
  have hS' : (CategoricalVariable.apply_update (R, y)
      (CategoricalVariable.apply_update (I, X) v.indices)).find S =
      some (s.difference X) := by
    rw [hfind, hS]
    simp [hSI, hSR, hfS]
  have hsub := IndividualIndex.size_difference_of_subset s X (hX.trans hs.symm) hXS
  have hsum := IndividualIndex.size_or_of_disjoint r y (hy.trans hrn.symm)
    fun j hj => hdis I R y r hI hR hIR j ⟨hj.2, hj.1⟩
  refine ⟨_, CategoricalVariable.update_of_no_resize _ hr, ?_⟩
  simp only [hidx, CategoricalVariable.get_size_of_category, hI', hR', hS', Nat.zero_add,
    hsub.1, hsum, true_and]
  exact hsub.2

/-- Witness for C20: ten individuals, two of them infected; two of the eight
susceptible ones are infected while the two infected ones recover. -/
theorem sir_commit_witness :
    ∃ v', ((CategoricalVariable.queue_update
        ⟨["S", "I", "R"],
          [("S", ⟨[true, true, true, true, true, true, true, true, false, false]⟩),
            ("I", ⟨[false, false, false, false, false, false, false, false, true, true]⟩),
            ("R", ⟨[false, false, false, false, false, false, false, false, false, false]⟩)],
          [], []⟩ "I"
        ⟨[true, false, false, true, false, false, false, false, false, false]⟩).queue_update
        "R" ⟨[false, false, false, false, false, false, false, false, true, true]⟩).update =
        .ok v' ∧
      v'.get_size_of_category "I" = .ok 2 ∧
      v'.get_size_of_category "R" = .ok 2 ∧
      v'.get_size_of_category "S" = .ok 6 := by
  obtain ⟨v', h, _, _, _, hI, hR, hS, _⟩ := sir_commit
    ⟨["S", "I", "R"],
      [("S", ⟨[true, true, true, true, true, true, true, true, false, false]⟩),
        ("I", ⟨[false, false, false, false, false, false, false, false, true, true]⟩),
        ("R", ⟨[false, false, false, false, false, false, false, false, false, false]⟩)],
      [], []⟩ 10 "S" "I" "R"
    ⟨[true, true, true, true, true, true, true, true, false, false]⟩
    ⟨[false, false, false, false, false, false, false, false, true, true]⟩
    ⟨[false, false, false, false, false, false, false, false, false, false]⟩
    ⟨[true, false, false, true, false, false, false, false, false, false]⟩
    (is_partition_sound (by decide)) rfl rfl rfl rfl rfl (by decide) (by decide) (by decide)
    rfl (by
      intro j hj
      have hlt := IndividualIndex.contains_lt hj
      simp only [IndividualIndex.max_size, List.length_cons, List.length_nil] at hlt
      interval_cases j <;> simp_all [IndividualIndex.contains])
  exact ⟨v', h, hI, hR, hS⟩

/-! ## Claims about `Event`, rounding and `tick` -/

namespace schedule_set

theorem mem_set_insert (s : schedule_set) (x y : Nat) : y ∈ s.insert x ↔ y ∈ s ∨ y = x := by
  induction s with
  | nil => simp [insert]
  | cons a rest ih =>
    by_cases hlt : x < a
    · simp only [insert, hlt, if_true, List.mem_cons]
      tauto
    · by_cases heq : x = a
      · subst heq
        simp only [insert, hlt, if_false, if_true, List.mem_cons]
        tauto
      · simp only [insert, hlt, heq, if_false, List.mem_cons, ih]
        tauto

theorem set_insert_ordered {s : schedule_set} (ho : s.Ordered) (x : Nat) : (s.insert x).Ordered := by
  induction s with
  | nil => simp [insert, Ordered]
  | cons a rest ih =>
    have ho' := List.pairwise_cons.1 ho
    by_cases hlt : x < a
    · simp only [insert, hlt, if_true]
      refine List.pairwise_cons.2 ⟨?_, ho⟩
      intro b hb
      rcases List.mem_cons.1 hb with rfl | hmem
      · exact hlt
      · exact Nat.lt_trans hlt (ho'.1 b hmem)
    · by_cases heq : x = a
      · simpa [insert, hlt, heq] using ho
      · simp only [insert, hlt, heq, if_false]
        refine List.pairwise_cons.2 ⟨?_, ih ho'.2⟩
        intro b hb
        rcases (mem_set_insert rest x b).1 hb with hmem | rfl
        · exact ho'.1 b hmem
        · omega

theorem erase_sublist_set (s : schedule_set) (x : Nat) : (s.erase x).Sublist s := by
  induction s with
  | nil => exact List.Sublist.slnil
  | cons a rest ih =>
    by_cases h : a = x
    · simp only [erase, h, if_true]
      exact List.sublist_cons_self _ _
    · simp only [erase, h, if_false]
      exact ih.cons₂ _

theorem mem_erase {s : schedule_set} (ho : s.Ordered) (x y : Nat) :
    y ∈ s.erase x ↔ y ∈ s ∧ y ≠ x := by
  induction s with
  | nil => simp [erase]
  | cons a rest ih =>
    have ho' := List.pairwise_cons.1 ho
    by_cases h : a = x
    · subst h
      simp only [erase, if_true, List.mem_cons]
      constructor
      · intro hy
        exact ⟨Or.inr hy, Nat.ne_of_gt (ho'.1 y hy)⟩
      · rintro ⟨hy | hy, hne⟩
        · exact absurd hy hne
        · exact hy
    · simp only [erase, h, if_false, List.mem_cons, ih ho'.2]
      constructor
      · rintro (hy | ⟨hy, hne⟩)
        · exact ⟨Or.inl hy, hy ▸ h⟩
        · exact ⟨Or.inr hy, hne⟩
      · rintro ⟨hy | hy, hne⟩
        · exact Or.inl hy
        · exact Or.inr ⟨hy, hne⟩

theorem mem_foldl_insert (f : Nat → Nat) (ds : List Nat) :
    ∀ (s : schedule_set) (y : Nat),
      y ∈ ds.foldl (fun s d => s.insert (f d)) s ↔ y ∈ s ∨ ∃ d ∈ ds, y = f d := by
  induction ds with
  | nil => intro s y; simp
  | cons d rest ih =>
    intro s y
    rw [List.foldl_cons, ih, mem_set_insert]
    simp only [List.mem_cons, exists_eq_or_imp]
    tauto

theorem foldl_insert_ordered (f : Nat → Nat) (ds : List Nat) :
    ∀ s : schedule_set, s.Ordered → (ds.foldl (fun s d => s.insert (f d)) s).Ordered := by
  induction ds with
  | nil => intro s h; exact h
  | cons d rest ih => intro s h; exact ih _ (set_insert_ordered h _)

end schedule_set

theorem round_delay_of_negative (delays : List ℚ) (h : ∃ d ∈ delays, d < 0)
    (hrange : ∀ d ∈ delays, round_half_away d < (SIZE_T : Int)) :
    round_delay delays = .error (.stop "delay must be >= 0") := by
  induction delays with
  | nil => simp at h
  | cons d rest ih =>
    by_cases hd : d < 0
    · simp [round_delay, hd]
    · have hrest : ∃ x ∈ rest, x < 0 := by
        obtain ⟨x, hx, hneg⟩ := h
        rcases List.mem_cons.1 hx with rfl | hx'
        · exact absurd hneg hd
        · exact ⟨x, hx', hneg⟩
      have hr : ¬ (SIZE_T : Int) ≤ round_half_away d :=
        not_le.2 (hrange d (List.mem_cons_self _ _))
      simp [round_delay, hd, hr, ih hrest fun x hx => hrange x (List.mem_cons_of_mem _ hx)]

/-- The outcome of `round_delay` when the first delay that is negative or too
large is too large: the conversion is reached before any later test. -/
theorem round_delay_of_large (d : ℚ) (rest : List ℚ) (hd : 0 ≤ d)
    (hr : (SIZE_T : Int) ≤ round_half_away d) :
    round_delay (d :: rest) = .error .undefined := by
  simp [round_delay, not_lt.2 hd, hr]

theorem round_half_away_nearest (d : ℚ) (hd : 0 ≤ d) :
    0 ≤ round_half_away d ∧ (round_half_away d : ℚ) ≤ d + 1 / 2 ∧
      d + 1 / 2 < (round_half_away d : ℚ) + 1 := by
  have hr : round_half_away d = ⌊d + 1 / 2⌋ := by simp [round_half_away, hd]
  rw [hr]
  refine ⟨Int.floor_nonneg.2 (by linarith), Int.floor_le _, Int.lt_floor_add_one _⟩

/-- C14, amended. For a list of delays each of which rounds to a value below
`2 ^ 64`, so that its conversion to `size_t` is defined: `Event::schedule(delays)`
throws if and only if some delay is negative, and then the event is as it was,
no delay of the list inserted; otherwise it returns, `t` and the listeners are
unchanged, and the new schedule holds exactly the old timesteps and
`t + round(d)` (in `size_t` arithmetic) for each `d` of the list, still in
ascending order. For `d ≥ 0`, `round(d)` is the integer `r` with
`r ≤ d + 1/2 < r + 1`: the nearest integer, a delay halfway between two integers
going up. -/
theorem event_schedule_spec (e : Event) (delays : List ℚ)
    (hrange : ∀ d ∈ delays, round_half_away d < (SIZE_T : Int)) :
    ((∃ d ∈ delays, d < 0) → e.schedule delays = .error (.threw e)) ∧
    ((∀ e', e.schedule delays = .error (.threw e') → ∃ d ∈ delays, d < 0) ∧
      e.schedule delays ≠ .error .undefined) ∧
    ((∀ d ∈ delays, 0 ≤ d) →
      ∃ e', e.schedule delays = .ok e' ∧ e'.t = e.t ∧ e'.listeners = e.listeners ∧
        (∀ x, x ∈ e'.simple_schedule ↔
          x ∈ e.simple_schedule ∨
            ∃ d ∈ delays, x = (e.t + (round_half_away d).toNat) % SIZE_T) ∧
        (e.simple_schedule.Ordered → e'.simple_schedule.Ordered)) ∧
    (∀ d : ℚ, 0 ≤ d → 0 ≤ round_half_away d ∧ (round_half_away d : ℚ) ≤ d + 1 / 2 ∧
      d + 1 / 2 < (round_half_away d : ℚ) + 1) := by
  refine ⟨?_, ?_, ?_, round_half_away_nearest⟩
  · intro h
    simp [Event.schedule, round_delay_of_negative delays h hrange]
  · by_cases hneg : ∃ d ∈ delays, d < 0
    · simp [Event.schedule, round_delay_of_negative delays hneg hrange, hneg]
    · have hpos : ∀ d ∈ delays, 0 ≤ d := fun d hd => not_lt.1 fun hlt => hneg ⟨d, hd, hlt⟩
      simp [Event.schedule, TargetedEvent.round_delay_eq_map delays hpos hrange]
  · intro h
    have hround := TargetedEvent.round_delay_eq_map delays h hrange
    refine ⟨⟨e.listeners, e.t,
        (delays.map fun d => (round_half_away d).toNat).foldl
          (fun s delay => s.insert ((e.t + delay) % SIZE_T)) e.simple_schedule⟩,
      by simp only [Event.schedule, hround], rfl, rfl, fun x => ?_, fun ho => ?_⟩
    · show x ∈ List.foldl _ _ _ ↔ _
      rw [schedule_set.mem_foldl_insert (fun delay => (e.t + delay) % SIZE_T)]
      simp only [List.mem_map, exists_exists_and_eq_and]
    · exact schedule_set.foldl_insert_ordered (fun delay => (e.t + delay) % SIZE_T) _ _ ho

/-- Witness for C14: at `t = 1` the delays 1.5 and 4 round to 2 and 4 and give
the timesteps 3, which was scheduled already, and 5; with a negative delay in
the list the call throws and the event is as it was. -/
theorem event_schedule_spec_witness :
    Event.schedule ⟨[.extptr 0], 1, [3]⟩ [1.5, 4] = .ok ⟨[.extptr 0], 1, [3, 5]⟩ ∧
    Event.schedule ⟨[.extptr 0], 1, [3]⟩ [1.5, -1] = .error (.threw ⟨[.extptr 0], 1, [3]⟩) := by
  have h₁ : round_half_away 1.5 = 2 := by norm_num [round_half_away]
  have h₂ : round_half_away 4 = 4 := by norm_num [round_half_away]
  have h₃ : round_half_away (-1) = -1 := by norm_num [round_half_away]
  refine ⟨?_, (event_schedule_spec ⟨[.extptr 0], 1, [3]⟩ [1.5, -1] ?_).1
    ⟨-1, by simp, by norm_num⟩⟩
  · have hround : round_delay [1.5, 4] = .ok [2, 4] := by
      rw [TargetedEvent.round_delay_eq_map]
      · simp only [List.map, h₁, h₂]
        rfl
      · intro d hd
        simp only [List.mem_cons, List.mem_singleton, List.not_mem_nil, or_false] at hd
        rcases hd with rfl | rfl <;> norm_num
      · intro d hd
        simp only [List.mem_cons, List.mem_singleton, List.not_mem_nil, or_false] at hd
        rcases hd with rfl | rfl
        · rw [h₁]; simp [SIZE_T]
        · rw [h₂]; simp [SIZE_T]
    simp only [Event.schedule, hround]
    decide
  · intro d hd
    simp only [List.mem_cons, List.mem_singleton, List.not_mem_nil, or_false] at hd
    rcases hd with rfl | rfl
    · rw [h₁]; simp [SIZE_T]
    · rw [h₃]; simp [SIZE_T]

/-- C14 as stated fails for a delay that does not round to a value below
`2 ^ 64`: on a fresh event the delay `2 ^ 64` (a `double`, non-negative) reaches
`static_cast<size_t>`, which is undefined for it, where the claim has the call
return with `t + round(d)` inserted; and with a negative delay after it in the
list the conversion is reached before the test of that delay, so the call does
not throw for it either. -/
theorem event_schedule_unrepresentable_counterexample :
    (∀ d ∈ ([18446744073709551616] : List ℚ), 0 ≤ d) ∧
    round_half_away 18446744073709551616 = 18446744073709551616 ∧
    Event.schedule Event.create [18446744073709551616] = .error .undefined ∧
    Event.schedule Event.create [18446744073709551616, -1] = .error .undefined := by
  have hr : round_half_away 18446744073709551616 = 18446744073709551616 := by
    norm_num [round_half_away]
  have hle : (SIZE_T : Int) ≤ round_half_away 18446744073709551616 := by
    rw [hr]; simp [SIZE_T]
  refine ⟨by norm_num, hr, ?_, ?_⟩
  · simp only [Event.schedule, round_delay_of_large _ _ (by norm_num) hle]
  · simp only [Event.schedule, round_delay_of_large _ _ (by norm_num) hle]

/-- C16 fails on the code: with an empty schedule `Event::process` reads
`*simple_schedule.begin()`, the past-the-end iterator of an empty set, which is
undefined; no test for emptiness comes first. -/
theorem event_process_empty :
    Event.process ⟨[.extptr 0], 0, []⟩ = .error .undefined := by
  decide

/-- The part of C16 that holds: with a non-empty schedule in ascending order
whose timesteps are all at or after `t`, `process()` calls every listener once,
in registration order, with `t` when `t` is scheduled, and calls none when it
is not. -/
theorem event_process_of_nonempty (e : Event) (hne : e.simple_schedule ≠ [])
    (ho : e.simple_schedule.Ordered) (hge : ∀ x ∈ e.simple_schedule, e.t ≤ x) :
    e.process = .ok (if e.t ∈ e.simple_schedule then Event.fire e.listeners e.t else []) ∧
    (Event.fire e.listeners e.t).length = e.listeners.length := by
  refine ⟨?_, by simp [Event.fire]⟩
  cases hs : e.simple_schedule with
  | nil => exact absurd hs hne
  | cons first rest =>
    rw [hs] at ho hge
    have ho' := List.pairwise_cons.1 ho
    by_cases hf : first = e.t
    · simp [Event.process, hs, hf]
    · have hnot : e.t ∉ first :: rest := by
        intro hmem
        rcases List.mem_cons.1 hmem with h | h
        · exact hf h.symm
        · have h₁ := ho'.1 _ h
          have h₂ := hge first (List.mem_cons_self _ _)
          omega
      simp [Event.process, hs, hf, hnot]

/-- C15 fails on the code: the overload of `schedule` that takes a `double`
never tests the sign of the delay. On a fresh event of size 2 the call
`schedule({0}, -0.3)` rounds the delay to zero and returns with an entry for
the current timestep created. -/
theorem schedule_double_negative :
    TargetedEvent.schedule_double ⟨[], 0, [], 2⟩ ⟨[true, false]⟩ (-3 / 10) =
      .ok ⟨[], 0, [(0, ⟨[true, false]⟩)], 2⟩ := by
  have h : round_half_away (-3 / 10) = 0 := by norm_num [round_half_away]
  have hc : ¬ ((0 : Int) < 0 ∨ (SIZE_T : Int) ≤ 0) := by simp [SIZE_T]
  simp only [TargetedEvent.schedule_double, h, hc, if_false]
  decide

/-- The part of C15 that holds: the vectorised `schedule` throws when a delay
is negative, before any entry of the schedule is created or modified, provided
every delay rounds to a value below `2 ^ 64`. -/
theorem schedule_vector_of_negative (order : List Nat → List Nat) (e : TargetedEvent)
    (target_ids : List Nat) (delays : List ℚ) (h : ∃ d ∈ delays, d < 0)
    (hrange : ∀ d ∈ delays, round_half_away d < (SIZE_T : Int)) :
    TargetedEvent.schedule_vector_in order e target_ids delays = .error (.threw e) := by
  simp [TargetedEvent.schedule_vector_in, round_delay_of_negative delays h hrange]

/-- C17. `TargetedEvent::process` calls no listener when the schedule is
empty or its earliest pending timestep differs from `t`; when the earliest
pending timestep equals `t` it calls every registered listener exactly once, in
registration order, with `t` and the target set `S` stored for that timestep (an
R function receives the members of `S` numbered from one). The first entry of
the map in key order is the earliest one. `process()` returns nothing but these
calls: the schedule and `t` are not assigned. -/
theorem targeted_process_spec (e : TargetedEvent) (ho : e.targeted_schedule.Ordered) :
    (e.targeted_schedule = [] → e.process = []) ∧
    (∀ k S rest, e.targeted_schedule = (k, S) :: rest →
      (∀ entry ∈ e.targeted_schedule, k ≤ entry.1) ∧
      (k = e.t → e.process = TargetedEvent.fire e.listeners e.t S) ∧
      (k ≠ e.t → e.process = [])) ∧
    (∀ t S, (TargetedEvent.fire e.listeners t S).length = e.listeners.length ∧
      ∀ i id : Nat, (e.listeners[i]? = some (SEXP.extptr id) →
          (TargetedEvent.fire e.listeners t S)[i]? = some (TargetedCall.cpp id t S)) ∧
        (e.listeners[i]? = some (SEXP.closure id) →
          (TargetedEvent.fire e.listeners t S)[i]? =
            some (TargetedCall.r id t (S.toList.map (· + 1))))) := by
  refine ⟨fun h => by simp [TargetedEvent.process, h], ?_, ?_⟩
  · intro k S rest h
    refine ⟨?_, fun hk => by simp [TargetedEvent.process, h, hk],
      fun hk => by simp [TargetedEvent.process, h, hk]⟩
    rw [h] at ho ⊢
    have ho' := List.pairwise_cons.1 ho
    intro entry he
    rcases List.mem_cons.1 he with rfl | hmem
    · exact Nat.le_refl _
    · exact Nat.le_of_lt (ho'.1 entry hmem)
  · intro t S
    refine ⟨by simp [TargetedEvent.fire], fun i id => ⟨fun h => ?_, fun h => ?_⟩⟩
    · simp [TargetedEvent.fire, List.getElem?_map, h]
    · simp [TargetedEvent.fire, List.getElem?_map, h]

/-- Witness for C17: the earliest entry is due, the later one is not passed. -/
theorem targeted_process_spec_witness :
    TargetedEvent.process ⟨[.extptr 7, .closure 8], 2,
        [(2, ⟨[true, false, true]⟩), (5, ⟨[false, true, false]⟩)], 3⟩ =
      [.cpp 7 2 ⟨[true, false, true]⟩, .r 8 2 [1, 3]] ∧
    (TargetedEvent.mk [.extptr 7, .closure 8] 2 [] 3).process = [] :=
  ⟨by decide,
    (targeted_process_spec ⟨[.extptr 7, .closure 8], 2, [], 3⟩ (by decide)).1 rfl⟩

theorem schedule_map.find_erase {m : schedule_map} (ho : m.Ordered) (key k : Nat) :
    (m.erase key).find k = if k = key then none else m.find k := by
  induction m with
  | nil => simp [schedule_map.erase, schedule_map.find]
  | cons entry rest ih =>
    obtain ⟨k₀, v₀⟩ := entry
    have ho' := List.pairwise_cons.1 ho
    by_cases h₀ : k₀ = key
    · subst h₀
      simp only [schedule_map.erase, if_true]
      by_cases hk : k = k₀
      · subst hk
        simp only [if_true]
        rw [schedule_map.lookup_eq_none_iff]
        intro hmem
        obtain ⟨a, ha, hka⟩ := List.mem_map.1 hmem
        have := ho'.1 a ha
        simp only at this
        omega
      · have hk' : ¬ k₀ = k := fun h => hk h.symm
        simp [schedule_map.find, hk, hk']
    · simp only [schedule_map.erase, h₀, if_false, schedule_map.find]
      by_cases hk₀ : k₀ = k
      · have hk : ¬ k = key := fun h => h₀ (hk₀.trans h)
        simp [hk₀, hk]
      · simp only [hk₀, if_false]
        exact ih ho'.2

/-- C18. For an `Event` and for a `TargetedEvent` whose schedule is in
ascending order: `tick()` removes the entry for the current `t` if there is
one, leaves every other entry (with its target set), the listeners and the
capacity unchanged, and then steps `t` to `t + 1` in `size_t` arithmetic, which
is `t + 1` whenever `t` is not the largest `size_t`. -/
theorem tick_spec (e : Event) (te : TargetedEvent) (ho : e.simple_schedule.Ordered)
    (hto : te.targeted_schedule.Ordered) :
    ((∀ x, x ∈ e.tick.simple_schedule ↔ x ∈ e.simple_schedule ∧ x ≠ e.t) ∧
      e.tick.simple_schedule.Ordered ∧ e.tick.listeners = e.listeners ∧
      e.tick.t = (e.t + 1) % SIZE_T ∧ (e.t + 1 < SIZE_T → e.tick.t = e.t + 1)) ∧
    ((∀ k, te.tick.targeted_schedule.find k =
        if k = te.t then none else te.targeted_schedule.find k) ∧
      te.tick.targeted_schedule.Ordered ∧ te.tick.listeners = te.listeners ∧
      te.tick.size = te.size ∧
      te.tick.t = (te.t + 1) % SIZE_T ∧ (te.t + 1 < SIZE_T → te.tick.t = te.t + 1)) := by
  refine ⟨⟨fun x => schedule_set.mem_erase ho e.t x,
      List.Pairwise.sublist (schedule_set.erase_sublist_set _ _) ho, rfl, rfl, fun h => ?_⟩,
    ⟨fun k => schedule_map.find_erase hto te.t k,
      List.Pairwise.sublist (TargetedEvent.erase_sublist _ _) hto, rfl, rfl, rfl, fun h => ?_⟩⟩
  · exact Nat.mod_eq_of_lt h
  · exact Nat.mod_eq_of_lt h

/-- Witness for C18: the entry for `t = 2` goes, the later one stays. -/
theorem tick_spec_witness :
    Event.tick ⟨[.extptr 0], 2, [2, 4]⟩ = ⟨[.extptr 0], 3, [4]⟩ ∧
    TargetedEvent.tick ⟨[], 2, [(2, ⟨[true]⟩), (4, ⟨[false]⟩)], 1⟩ =
      ⟨[], 3, [(4, ⟨[false]⟩)], 1⟩ ∧
    (Event.tick ⟨[.extptr 0], 2, [2, 4]⟩).t = 2 + 1 :=
  ⟨by decide, by decide,
    (tick_spec ⟨[.extptr 0], 2, [2, 4]⟩ ⟨[], 2, [(2, ⟨[true]⟩), (4, ⟨[false]⟩)], 1⟩
      (by decide) (by decide)).1.2.2.2.2 (by decide)⟩

/-! ## Claims about the commit: failure, order of disjoint updates, queued shrinks -/

/-- C22 fails on the code: with `"S"` holding the one individual and `"I"`
empty, `queue_update("I", {0}); queue_extend({"Z"}); update()` throws at
`indices.at("Z")` after the value update has been applied and every index has
been extended: the individual has moved to `"I"` and `size()` has gone from 1
to 2. -/
theorem update_not_atomic :
    CategoricalVariable.size ⟨["S", "I"], [("S", ⟨[true]⟩), ("I", ⟨[false]⟩)], [], []⟩ =
      some 1 ∧
    (run_calls ⟨["S", "I"], [("S", ⟨[true]⟩), ("I", ⟨[false]⟩)], [], []⟩
        [.queue_update "I" ⟨[true]⟩, .queue_extend ["Z"]]).update =
      .error ⟨["S", "I"], [("S", ⟨[false, false]⟩), ("I", ⟨[true, false]⟩)], [],
        [.extend ⟨["Z"]⟩]⟩ ∧
    CategoricalVariable.size
        ⟨["S", "I"], [("S", ⟨[false, false]⟩), ("I", ⟨[true, false]⟩)], [],
          [.extend ⟨["Z"]⟩]⟩ = some 2 := by
  decide

/-- C25 fails on the code: on three individuals `queue_shrink({2})` is accepted
twice, each time against `size() = 3`; at the commit the first shrink leaves a
capacity of 2, and the second is applied with the identifier 2, which is not
below it. The bitset's `shrink` rejects it, so `update()` throws with that shrink
still queued. -/
theorem second_shrink_out_of_range :
    run_calls ⟨["S"], [("S", ⟨[true, true, true]⟩)], [], []⟩
        [.queue_shrink [2], .queue_shrink [2]] =
      ⟨["S"], [("S", ⟨[true, true, true]⟩)], [], [.shrink ⟨[2]⟩, .shrink ⟨[2]⟩]⟩ ∧
    (run_calls ⟨["S"], [("S", ⟨[true, true, true]⟩)], [], []⟩
        [.queue_shrink [2], .queue_shrink [2]]).update =
      .error ⟨["S"], [("S", ⟨[true, true]⟩)], [], [.shrink ⟨[2]⟩]⟩ ∧
    CategoricalVariable.size ⟨["S"], [("S", ⟨[true, true]⟩)], [], [.shrink ⟨[2]⟩]⟩ =
      some 2 := by
  decide

theorem CategoricalVariable.apply_update_eq_spec_step (next : update_t)
    (indices : named_array_t IndividualIndex) :
    CategoricalVariable.apply_update next indices = spec_step indices next := by
  unfold CategoricalVariable.apply_update spec_step
  apply List.map_congr_left
  intro entry _
  by_cases hk : entry.1 = next.1 <;> simp [hk]

theorem foldl_spec_step_capacity (queue : List update_t) (n : Nat) :
    ∀ indices : named_array_t IndividualIndex,
      (∀ entry ∈ indices, entry.2.max_size = n) →
      ∀ entry ∈ queue.foldl spec_step indices, entry.2.max_size = n := by
  induction queue with
  | nil => intro indices h; exact h
  | cons next rest ih => intro indices h; exact ih _ (spec_step_capacity h next)

/-- The two bitset operations of two passes, on disjoint `X` and `Y`, in either
order; `p` and `q` say whether the entry is the target of the first and of the
second update. -/
theorem IndividualIndex.pass_comm (e X Y : IndividualIndex) (n : Nat) (p q : Prop)
    [Decidable p] [Decidable q] (he : e.max_size = n) (hX : X.max_size = n)
    (hY : Y.max_size = n) (hdis : ∀ i, ¬ (X.contains i = true ∧ Y.contains i = true)) :
    (if q then (if p then e.or X else e.and X.not).or Y
      else (if p then e.or X else e.and X.not).and Y.not) =
    (if p then (if q then e.or Y else e.and Y.not).or X
      else (if q then e.or Y else e.and Y.not).and X.not) := by
  rw [IndividualIndex.ext_iff_contains]
  constructor
  · by_cases hp : p <;> by_cases hq : q <;> simp [hp, hq]
  · intro i
    have hXY := hdis i
    by_cases hlt : i < n
    · by_cases hp : p <;> by_cases hq : q <;>
        simp only [hp, hq, if_true, if_false, IndividualIndex.contains_or,
          IndividualIndex.contains_and, IndividualIndex.contains_not,
          IndividualIndex.max_size_or, IndividualIndex.max_size_and, he, hX, hY, hlt,
          decide_True, Bool.true_and] <;>
        cases e.contains i <;> cases hx : X.contains i <;> cases hy : Y.contains i <;>
        simp_all
    · have h₁ : e.contains i = false := IndividualIndex.contains_of_le (by omega)
      have h₂ : X.contains i = false := IndividualIndex.contains_of_le (by omega)
      have h₃ : Y.contains i = false := IndividualIndex.contains_of_le (by omega)
      by_cases hp : p <;> by_cases hq : q <;>
        simp [hp, hq, IndividualIndex.contains_or, IndividualIndex.contains_and,
          IndividualIndex.contains_not, h₁, h₂, h₃]

/-- Two passes for updates on disjoint individuals can be swapped. -/
theorem spec_step_comm (indices : named_array_t IndividualIndex) (n : Nat)
    (hcap : ∀ entry ∈ indices, entry.2.max_size = n) (A B : String) (X Y : IndividualIndex)
    (hX : X.max_size = n) (hY : Y.max_size = n)
    (hdis : ∀ i, ¬ (X.contains i = true ∧ Y.contains i = true)) :
    spec_step (spec_step indices (A, X)) (B, Y) =
      spec_step (spec_step indices (B, Y)) (A, X) := by
  unfold spec_step
  rw [List.map_map, List.map_map]
  apply List.map_congr_left
  intro entry he
  exact congrArg (Prod.mk entry.1)
    (IndividualIndex.pass_comm entry.2 X Y n (entry.1 = A) (entry.1 = B) (hcap entry he) hX hY
      hdis)

/-- C24. Value updates on disjoint individuals commute: on a variable whose
indices all have capacity `n`, for any categories `A` and `B`, equal or
different, and indices `X`, `Y` of capacity `n` with no individual in common,
`queue_update(A, X); queue_update(B, Y); update()` ends exactly as
`queue_update(B, Y); queue_update(A, X); update()` does: same outcome, same
per-category indices, whatever else was pending. -/
theorem disjoint_updates_commute (v : CategoricalVariable) (n : Nat) (A B : String)
    (X Y : IndividualIndex) (hcap : ∀ entry ∈ v.indices, entry.2.max_size = n)
    (hX : X.max_size = n) (hY : Y.max_size = n)
    (hdis : ∀ i, ¬ (X.contains i = true ∧ Y.contains i = true)) :
    ((v.queue_update A X).queue_update B Y).update =
      ((v.queue_update B Y).queue_update A X).update ∧
    (final ((v.queue_update A X).queue_update B Y).update).indices =
      (final ((v.queue_update B Y).queue_update A X).update).indices := by
  have hidx : CategoricalVariable.apply_updates (v.updates ++ [(A, X)] ++ [(B, Y)]) v.indices =
      CategoricalVariable.apply_updates (v.updates ++ [(B, Y)] ++ [(A, X)]) v.indices := by
    have hc := foldl_spec_step_capacity v.updates n v.indices hcap
    simp only [CategoricalVariable.apply_updates_eq_foldl, List.foldl_append, List.foldl_cons,
      List.foldl_nil]
    exact spec_step_comm _ n hc A B X Y hX hY hdis
  have hupd : ((v.queue_update A X).queue_update B Y).update =
      ((v.queue_update B Y).queue_update A X).update := by
    simp only [CategoricalVariable.update, CategoricalVariable.queue_update, hidx]
  exact ⟨hupd, by rw [hupd]⟩

/-- Witness for C24: individual 0 goes to `"I"`, individual 2 to `"R"`. -/
theorem disjoint_updates_commute_witness :
    ((CategoricalVariable.queue_update
        ⟨["S", "I", "R"], [("S", ⟨[true, true, true]⟩), ("I", ⟨[false, false, false]⟩),
          ("R", ⟨[false, false, false]⟩)], [], []⟩ "I" ⟨[true, false, false]⟩).queue_update
        "R" ⟨[false, false, true]⟩).update =
      .ok ⟨["S", "I", "R"], [("S", ⟨[false, true, false]⟩), ("I", ⟨[true, false, false]⟩),
        ("R", ⟨[false, false, true]⟩)], [], []⟩ ∧
    ((CategoricalVariable.queue_update
        ⟨["S", "I", "R"], [("S", ⟨[true, true, true]⟩), ("I", ⟨[false, false, false]⟩),
          ("R", ⟨[false, false, false]⟩)], [], []⟩ "I" ⟨[true, false, false]⟩).queue_update
        "R" ⟨[false, false, true]⟩).update =
      ((CategoricalVariable.queue_update
        ⟨["S", "I", "R"], [("S", ⟨[true, true, true]⟩), ("I", ⟨[false, false, false]⟩),
          ("R", ⟨[false, false, false]⟩)], [], []⟩ "R" ⟨[false, false, true]⟩).queue_update
        "I" ⟨[true, false, false]⟩).update :=
  ⟨by decide,
    (disjoint_updates_commute
      ⟨["S", "I", "R"], [("S", ⟨[true, true, true]⟩), ("I", ⟨[false, false, false]⟩),
        ("R", ⟨[false, false, false]⟩)], [], []⟩ 3 "I" "R" ⟨[true, false, false]⟩
      ⟨[false, false, true]⟩ (by decide) rfl rfl (by
        intro i hi
        have hlt := IndividualIndex.contains_lt hi.1
        simp only [IndividualIndex.max_size, List.length_cons, List.length_nil] at hlt
        interval_cases i <;> simp_all [IndividualIndex.contains])).1⟩

/-! ## Scheduled timesteps never lie in the past -/

namespace Event

theorem event_create_timely : create.Timely := by
  refine ⟨by simp [create, SIZE_T], List.Pairwise.nil, ?_⟩
  intro x hx
  simp [create] at hx

theorem event_add_listener_timely (e : Event) (listener : SEXP) (h : e.Timely) :
    (e.add_listener listener).Timely := h

theorem event_clear_schedule_timely (e : Event) (h : e.Timely) : e.clear_schedule.Timely := by
  refine ⟨h.1, List.Pairwise.nil, ?_⟩
  intro x hx
  simp [clear_schedule] at hx

theorem event_tick_timely (e : Event) (h : e.Timely) : e.tick.Timely := by
  obtain ⟨ht, ho, hge⟩ := h
  refine ⟨Nat.mod_lt _ (by simp [SIZE_T]),
    List.Pairwise.sublist (schedule_set.erase_sublist_set _ _) ho, ?_⟩
  intro x hx
  obtain ⟨hmem, hne⟩ := (schedule_set.mem_erase ho e.t x).1 hx
  obtain ⟨h₁, h₂⟩ := hge x hmem
  have hlt : e.t + 1 < SIZE_T := by omega
  show (e.t + 1) % SIZE_T ≤ x ∧ x < SIZE_T
  rw [Nat.mod_eq_of_lt hlt]
  omega

theorem event_schedule_timely (e e' : Event) (delays : List ℚ) (h : e.Timely)
    (hrun : e.schedule delays = .ok e' ∨ e.schedule delays = .error (.threw e'))
    (hover : ∀ d ∈ delays, 0 ≤ d → e.t + (round_half_away d).toNat < SIZE_T) :
    e'.Timely := by
  unfold schedule at hrun
  cases hr : round_delay delays with
  | error failure =>
    cases failure with
    | stop message =>
      simp only [hr, reduceCtorEq, Except.error.injEq, Thrown.threw.injEq, false_or] at hrun
      rw [← hrun]
      exact h
    | undefined => simp [hr] at hrun
  | ok rounded =>
    obtain ⟨hdom, hrounded⟩ := TargetedEvent.round_delay_ok hr
    have hpos : ∀ d ∈ delays, 0 ≤ d := fun d hd => (hdom d hd).1
    simp only [hr, hrounded, Except.ok.injEq, reduceCtorEq, or_false] at hrun
    rw [← hrun]
    obtain ⟨ht, ho, hge⟩ := h
    refine ⟨ht, schedule_set.foldl_insert_ordered (fun delay => (e.t + delay) % SIZE_T) _ _ ho,
      ?_⟩
    intro x hx
    rcases (schedule_set.mem_foldl_insert (fun delay => (e.t + delay) % SIZE_T) _ _ x).1 hx with
      hmem | ⟨r, hr, rfl⟩
    · exact hge x hmem
    · obtain ⟨d, hd, rfl⟩ := List.mem_map.1 hr
      have := hover d hd (hpos d hd)
      show e.t ≤ (e.t + _) % SIZE_T ∧ (e.t + _) % SIZE_T < SIZE_T
      rw [Nat.mod_eq_of_lt this]
      omega

/-- In every state an `Event` reaches from its construction, by calls in which
no `t + delay` overflows, no scheduled timestep lies before `t`. -/
theorem event_reachable_timely (e : Event) (h : e.Reachable) : e.Timely := by
  induction h with
  | initial => exact event_create_timely
  | step _ s ih =>
    cases s with
    | add_listener listener => exact event_add_listener_timely _ listener ih
    | schedule _ delays hrun hover => exact event_schedule_timely _ _ delays ih hrun hover
    | clear_schedule => exact event_clear_schedule_timely _ ih
    | process calls _ => exact ih
    | tick => exact event_tick_timely _ ih

/-- On a reachable `Event` with a non-empty schedule `process()` calls the
listeners exactly when `t` is in the schedule. -/
theorem process_of_reachable (e : Event) (h : e.Reachable) (hne : e.simple_schedule ≠ []) :
    e.process = .ok (if e.t ∈ e.simple_schedule then fire e.listeners e.t else []) := by
  obtain ⟨_, ho, hge⟩ := event_reachable_timely e h
  exact (event_process_of_nonempty e hne ho fun x hx => (hge x hx).1).1

end Event

namespace TargetedEvent

theorem create_timely (size : Nat) : (create size).Timely := by
  refine ⟨by simp [create, SIZE_T], List.Pairwise.nil, ?_⟩
  intro x hx
  simp [create] at hx

theorem add_listener_timely (e : TargetedEvent) (listener : SEXP) (h : e.Timely) :
    (e.add_listener listener).Timely := h

theorem clear_schedule_timely (e : TargetedEvent) (target : IndividualIndex) (h : e.Timely) :
    (e.clear_schedule target).Timely := by
  obtain ⟨ht, ho, hge⟩ := h
  refine ⟨ht, ordered_of_keys_eq
    (schedule_map.keys_of_map_snd e.targeted_schedule fun p => p.2.and target.not) ho, ?_⟩
  intro entry he
  obtain ⟨e₀, he₀, rfl⟩ := List.mem_map.1 he
  exact hge e₀ he₀

theorem tick_timely (e : TargetedEvent) (h : e.Timely) : e.tick.Timely := by
  obtain ⟨ht, ho, hge⟩ := h
  have ho' : e.tick.targeted_schedule.Ordered := List.Pairwise.sublist (erase_sublist _ _) ho
  refine ⟨Nat.mod_lt _ (by simp [SIZE_T]), ho', ?_⟩
  intro entry he
  have hfind := schedule_map.lookup_of_mem ho' he
  have hfind' : (e.targeted_schedule.erase e.t).find entry.1 = some entry.2 := hfind
  rw [schedule_map.find_erase ho] at hfind'
  by_cases hk : entry.1 = e.t
  · simp [hk] at hfind'
  · simp only [hk, if_false] at hfind'
    obtain ⟨h₁, h₂⟩ := hge _ (schedule_map.mem_of_lookup hfind')
    have hlt : e.t + 1 < SIZE_T := by
      simp only at h₁ h₂
      omega
    show (e.t + 1) % SIZE_T ≤ entry.1 ∧ entry.1 < SIZE_T
    rw [Nat.mod_eq_of_lt hlt]
    simp only at h₁ h₂
    omega

theorem schedule_timely (e : TargetedEvent) (target : IndividualIndex) (delay : Nat)
    (h : e.Timely) (hover : e.t + delay < SIZE_T) : (e.schedule target delay).Timely := by
  obtain ⟨ht, ho, hge⟩ := h
  have ho' := schedule_ordered e target delay ho
  refine ⟨ht, ho', ?_⟩
  intro entry he
  have hfind := schedule_map.lookup_of_mem ho' he
  rw [find_schedule, Nat.mod_eq_of_lt hover] at hfind
  show e.t ≤ entry.1 ∧ entry.1 < SIZE_T
  by_cases hk : entry.1 = e.t + delay
  · omega
  · simp only [hk, if_false] at hfind
    exact hge _ (schedule_map.mem_of_lookup hfind)

theorem schedule_all_timely (calls : List (Nat × IndividualIndex)) :
    ∀ e : TargetedEvent, e.Timely → (∀ call ∈ calls, e.t + call.1 < SIZE_T) →
      (e.schedule_all calls).Timely := by
  induction calls with
  | nil => intro e h _; exact h
  | cons call rest ih =>
    intro e h hover
    exact ih (e.schedule call.2 call.1)
      (schedule_timely e _ _ h (hover call (List.mem_cons_self _ _)))
      fun c hc => hover c (List.mem_cons_of_mem _ hc)

theorem schedule_loop_timely (target_vector rounded : List Nat) (delay_values : List Nat) :
    ∀ e : TargetedEvent, e.Timely → (∀ v ∈ delay_values, e.t + v < SIZE_T) →
      (final (schedule_loop target_vector rounded delay_values e)).Timely := by
  induction delay_values with
  | nil => intro e h _; exact h
  | cons v rest ih =>
    intro e h hover
    cases hb : bucket v rounded target_vector (IndividualIndex.empty e.size) with
    | none =>
      simp only [schedule_loop, hb]
      exact h
    | some target =>
      simp only [schedule_loop, hb]
      exact ih (e.schedule target v)
        (schedule_timely e _ _ h (hover v (List.mem_cons_self _ _)))
        fun c hc => hover c (List.mem_cons_of_mem _ hc)

theorem schedule_vector_timely (order : List Nat → List Nat) (e e' : TargetedEvent)
    (target_vector : List Nat) (delay : List ℚ) (h : e.Timely)
    (horder : ∀ rounded, IsOrderOf (order rounded) rounded)
    (hrun : schedule_vector_in order e target_vector delay = .ok e' ∨
      schedule_vector_in order e target_vector delay = .error (.threw e'))
    (hover : ∀ d ∈ delay, 0 ≤ d → e.t + (round_half_away d).toNat < SIZE_T) :
    e'.Timely := by
  unfold schedule_vector_in at hrun
  cases hr : round_delay delay with
  | error failure =>
    cases failure with
    | stop message =>
      simp only [hr, reduceCtorEq, Except.error.injEq, Thrown.threw.injEq, false_or] at hrun
      rw [← hrun]
      exact h
    | undefined => simp [hr] at hrun
  | ok rounded =>
    obtain ⟨hdom, hrounded⟩ := round_delay_ok hr
    have hloop : (final (schedule_loop target_vector rounded (order rounded) e)).Timely := by
      apply schedule_loop_timely _ _ _ e h
      intro v hv
      have hv' := ((horder rounded).2 v).1 hv
      rw [hrounded] at hv'
      obtain ⟨d, hd, rfl⟩ := List.mem_map.1 hv'
      exact hover d hd (hdom d hd).1
    simp only [hr] at hrun
    cases hl : schedule_loop target_vector rounded (order rounded) e with
    | ok e₁ =>
      simp only [hl, Except.ok.injEq, reduceCtorEq, or_false] at hrun
      rw [hl] at hloop
      rw [← hrun]
      exact hloop
    | error e₁ =>
      simp only [hl, reduceCtorEq, Except.error.injEq, Thrown.threw.injEq, false_or] at hrun
      rw [hl] at hloop
      rw [← hrun]
      exact hloop

/-- In every state a `TargetedEvent` reaches from its construction, by calls in
which no `t + delay` overflows, no pending timestep lies before `t`. -/
theorem reachable_timely (e : TargetedEvent) (h : e.Reachable) : e.Timely := by
  induction h with
  | initial size => exact create_timely size
  | step _ s ih =>
    cases s with
    | add_listener listener => exact add_listener_timely _ listener ih
    | schedule target delay hover => exact schedule_timely _ target delay ih hover
    | schedule_double _ target delay hrun hover =>
      unfold schedule_double at hrun
      split at hrun
      · cases hrun
      · cases hrun
        exact schedule_timely _ target _ ih hover
    | schedule_vector _ order target_vector delay horder hrun hover =>
      exact schedule_vector_timely order _ _ target_vector delay ih horder hrun hover
    | clear_schedule target => exact clear_schedule_timely _ target ih
    | process => exact ih
    | tick => exact tick_timely _ ih

/-- With no pending timestep before `t`, the first entry of the map is the
entry for `t` whenever there is one: `process()` acts on the entry for `t`. -/
theorem process_eq_process_by_find (e : TargetedEvent) (h : e.Timely) :
    e.process = e.process_by_find e.t := by
  obtain ⟨_, ho, hge⟩ := h
  unfold process process_by_find
  cases hs : e.targeted_schedule with
  | nil => rfl
  | cons first rest =>
    rw [hs] at ho hge
    have ho' := List.pairwise_cons.1 ho
    obtain ⟨k, b⟩ := first
    by_cases hf : k = e.t
    · simp [schedule_map.find, hf]
    · have hnone : schedule_map.find ((k, b) :: rest) e.t = none := by
        rw [schedule_map.lookup_eq_none_iff]
        intro hmem
        rcases List.mem_cons.1 hmem with heq | hmem'
        · exact hf heq.symm
        · obtain ⟨a, ha, hka⟩ := List.mem_map.1 hmem'
          have h₁ := ho'.1 a ha
          have h₂ := (hge (k, b) (List.mem_cons_self _ _)).1
          simp only at h₁ h₂
          omega
      simp [hnone, hf]

/-- Step `k` of a run acts on the entry for `t + k`, if there is one. -/
theorem run_eq_map (n : Nat) : ∀ e : TargetedEvent, e.Timely →
    run n e = (List.range n).map fun k => e.process_by_find (e.t + k) := by
  induction n with
  | zero => intro e _; rfl
  | succ n ih =>
    intro e h
    rw [run, ih e.tick (tick_timely e h), process_eq_process_by_find e h,
      List.range_succ_eq_map, List.map_cons, List.map_map]
    congr 1
    apply List.map_congr_left
    intro k _
    obtain ⟨ht, ho, hge⟩ := h
    show e.tick.process_by_find ((e.t + 1) % SIZE_T + k) = e.process_by_find (e.t + (k + 1))
    unfold process_by_find
    have hfind : e.tick.targeted_schedule.find ((e.t + 1) % SIZE_T + k) =
        e.targeted_schedule.find (e.t + (k + 1)) := by
      show (e.targeted_schedule.erase e.t).find _ = _
      rw [schedule_map.find_erase ho]
      by_cases hlt : e.t + 1 < SIZE_T
      · rw [Nat.mod_eq_of_lt hlt]
        have hne : ¬ e.t + 1 + k = e.t := by omega
        rw [if_neg hne]
        congr 1
        omega
      · have hnone : ∀ key, key ≠ e.t → e.targeted_schedule.find key = none := by
          intro key hkey
          rw [schedule_map.lookup_eq_none_iff]
          intro hmem
          obtain ⟨a, ha, hka⟩ := List.mem_map.1 hmem
          have := hge a ha
          omega
        rw [hnone (e.t + (k + 1)) (by omega)]
        split
        · rfl
        · rename_i hne
          exact hnone _ hne
    rw [hfind]
    by_cases hlt : e.t + 1 < SIZE_T
    · rw [Nat.mod_eq_of_lt hlt]
      have : e.t + 1 + k = e.t + (k + 1) := by omega
      rw [this]
      rfl
    · have hnone : e.targeted_schedule.find (e.t + (k + 1)) = none := by
        rw [schedule_map.lookup_eq_none_iff]
        intro hmem
        obtain ⟨a, ha, hka⟩ := List.mem_map.1 hmem
        have := hge a ha
        omega
      rw [hnone]

end TargetedEvent

/-- C23 fails on the code for `Event`: an event with one listener on which
`schedule({0})`, `process()` and `tick()` have been called is reachable, its
schedule is empty and `t = 1`; `process()` then reads `*simple_schedule.begin()`
of an empty set, which is undefined, where the claim has it call no listener.
The `process()` before the tick is defined and calls the listener with 0. -/
theorem event_process_after_tick :
    Event.schedule (Event.create.add_listener (.extptr 0)) [0] =
      .ok ⟨[.extptr 0], 0, [0]⟩ ∧
    Event.process ⟨[.extptr 0], 0, [0]⟩ = .ok [.cpp 0 0] ∧
    Event.tick ⟨[.extptr 0], 0, [0]⟩ = ⟨[.extptr 0], 1, []⟩ ∧
    Event.Reachable ⟨[.extptr 0], 1, []⟩ ∧
    Event.Timely ⟨[.extptr 0], 1, []⟩ ∧
    Event.process ⟨[.extptr 0], 1, []⟩ = .error .undefined := by
  have hr : round_half_away 0 = 0 := by norm_num [round_half_away]
  have hs : Event.schedule (Event.create.add_listener (.extptr 0)) [0] =
      .ok ⟨[.extptr 0], 0, [0]⟩ := by
    simp [Event.schedule, Event.create, Event.add_listener, round_delay, hr,
      schedule_set.insert, SIZE_T]
  have htick : Event.tick ⟨[.extptr 0], 0, [0]⟩ = ⟨[.extptr 0], 1, []⟩ := by
    simp [Event.tick, schedule_set.erase, SIZE_T]
  refine ⟨hs, by decide, htick, ?_, ?_, by decide⟩
  · have h₁ : Event.Reachable (Event.create.add_listener (.extptr 0)) :=
      .step .initial (.add_listener _ _)
    have h₂ := Event.Reachable.step h₁ (Event.Step.schedule _ _ [0] (Or.inl hs) (by
      intro d hd _
      rw [List.mem_singleton.1 hd]
      simp [Event.create, Event.add_listener, hr, SIZE_T]))
    have h₃ := Event.Reachable.step h₂ (Event.Step.process _ [.cpp 0 0] (by decide))
    have h₄ := Event.Reachable.step h₃ (Event.Step.tick _)
    rw [htick] at h₄
    exact h₄
  · refine ⟨by simp [SIZE_T], List.Pairwise.nil, ?_⟩
    intro x hx
    simp at hx

/-! ### The vectorised `schedule` followed by a run -/

namespace TargetedEvent

theorem filter_eq_of_nodup (l : List Nat) (hl : l.Nodup) (k : Nat) :
    l.filter (fun v => decide (v = k)) = if k ∈ l then [k] else [] := by
  induction l with
  | nil => rfl
  | cons a rest ih =>
    obtain ⟨ha, hrest⟩ := List.nodup_cons.1 hl
    by_cases hak : a = k
    · subst hak
      simp [List.filter_cons, ih hrest, ha]
    · have hka : ¬ k = a := fun h => hak h.symm
      simp [List.filter_cons, hak, hka, ih hrest]

theorem max_size_spec_bucket (size : Nat) (target_vector rounded : List Nat) (v : Nat) :
    (spec_bucket size target_vector rounded v).max_size = size := by
  simp [spec_bucket, IndividualIndex.max_size]

/-- With distinct identifiers, `target_vector[i]` is in the bucket of `v`
exactly when its own rounded delay is `v`. -/
theorem contains_spec_bucket (size : Nat) (target_vector rounded : List Nat)
    (hlen : target_vector.length = rounded.length) (hnodup : target_vector.Nodup)
    (hids : ∀ id ∈ target_vector, id < size) (i : Nat) (hi : i < target_vector.length)
    (v : Nat) :
    (spec_bucket size target_vector rounded v).contains target_vector[i] = true ↔
      rounded[i] = v := by
  rw [spec_bucket, IndividualIndex.contains_range_map]
  simp only [Bool.and_eq_true, decide_eq_true_eq, zip_contains_iff]
  constructor
  · rintro ⟨_, hz⟩
    obtain ⟨j, hj, hjeq⟩ := List.getElem_of_mem hz
    rw [List.getElem_zip] at hjeq
    simp only [List.length_zip] at hj
    have hj₁ : j < target_vector.length := by omega
    have hfst : target_vector[j] = target_vector[i] := congrArg Prod.fst hjeq
    have hsnd : rounded[j] = v := congrArg Prod.snd hjeq
    have hji : j = i := (List.Nodup.getElem_inj_iff hnodup).1 hfst
    subst hji
    exact hsnd
  · intro hr
    refine ⟨hids _ (List.getElem_mem _), ?_⟩
    rw [List.mem_iff_getElem]
    exact ⟨i, by simp [hi, ← hlen], by simp [List.getElem_zip, hr]⟩

/-- The entry timestep `t + k` has after one scalar `schedule(bucket_v, v)` per
distinct rounded delay on an empty schedule, when no `t + v` overflows. -/
theorem find_schedule_per_bucket (e : TargetedEvent) (target_vector rounded : List Nat)
    (delay_values : List Nat) (hempty : e.targeted_schedule = [])
    (horder : IsOrderOf delay_values rounded)
    (hover : ∀ v ∈ rounded, e.t + v < SIZE_T) (k : Nat) :
    (schedule_per_bucket e target_vector rounded delay_values).targeted_schedule.find
        (e.t + k) =
      if k ∈ rounded then some (spec_bucket e.size target_vector rounded k) else none := by
  unfold schedule_per_bucket
  rw [foldl_schedule_eq_schedule_all (fun size v => spec_bucket size target_vector rounded v)
    (fun v => v) delay_values e, find_schedule_all, hempty]
  have hfilter : (delay_values.map fun v => (v, spec_bucket e.size target_vector rounded v)).filter
      (fun call => decide ((e.t + call.1) % SIZE_T = e.t + k)) =
      if k ∈ rounded then [(k, spec_bucket e.size target_vector rounded k)] else [] := by
    rw [List.filter_map]
    have hcongr : delay_values.filter
        ((fun call : Nat × IndividualIndex => decide ((e.t + call.1) % SIZE_T = e.t + k)) ∘
          fun v => (v, spec_bucket e.size target_vector rounded v)) =
        delay_values.filter fun v => decide (v = k) := by
      apply List.filter_congr
      intro v hv
      have hlt := hover v ((horder.2 v).1 hv)
      simp only [Function.comp_apply, Nat.mod_eq_of_lt hlt, decide_eq_decide]
      omega
    rw [hcongr, filter_eq_of_nodup _ horder.1]
    by_cases hk : k ∈ rounded
    · simp [hk, (horder.2 k).2 hk]
    · have hk' : k ∉ delay_values := fun h => hk ((horder.2 k).1 h)
      simp [hk, hk']
  rw [hfilter]
  by_cases hk : k ∈ rounded
  · simp only [hk, if_true, List.cons_ne_nil, if_false, List.foldl_cons, List.foldl_nil,
      schedule_map.find, Option.getD_none]
    rw [empty_or_eq (max_size_spec_bucket _ _ _ _)]
  · simp [hk, schedule_map.find]

/-- C21, amended. On a `TargetedEvent` with an empty schedule at `t = t0`, for
equal-length lists of distinct `target_ids` (each below `size`) and non-negative
`delays` such that no `t0 + round(delays[i])` overflows a `size_t`, and whatever
order the distinct rounded delays are visited in, the vectorised
`schedule(target_ids, delays)` returns normally; in the run of `process()` then
`tick()` that follows, the step at timestep `t0 + k` calls every listener once
with the set of the identifiers whose delay rounds to `k` when there is such an
identifier, and calls no listener otherwise; and `target_ids[i]` is in the set
of step `k` exactly when `round(delays[i]) = k`. -/
theorem schedule_vector_fires (e : TargetedEvent) (target_ids : List Nat) (delays : List ℚ)
    (order : List Nat → List Nat)
    (hempty : e.targeted_schedule = []) (ht : e.t < SIZE_T)
    (hlen : target_ids.length = delays.length)
    (hids : ∀ id ∈ target_ids, id < e.size) (hnodup : target_ids.Nodup)
    (hdelays : ∀ d ∈ delays, 0 ≤ d)
    (hover : ∀ d ∈ delays, e.t + (round_half_away d).toNat < SIZE_T)
    (horder : ∀ rounded, IsOrderOf (order rounded) rounded) :
    ∃ e', schedule_vector_in order e target_ids delays = .ok e' ∧
      (∀ n, run n e' = (List.range n).map fun k =>
        if k ∈ delays.map (fun d => (round_half_away d).toNat) then
          fire e.listeners (e.t + k)
            (spec_bucket e.size target_ids (delays.map fun d => (round_half_away d).toNat) k)
        else []) ∧
      ∀ (i : Nat) (hi : i < target_ids.length) (hd : i < delays.length) (k : Nat),
        (spec_bucket e.size target_ids (delays.map fun d => (round_half_away d).toNat)
          k).contains target_ids[i] = true ↔
        (round_half_away delays[i]).toNat = k := by
  have hrange : ∀ d ∈ delays, round_half_away d < (SIZE_T : Int) := by
    intro d hd
    have h₁ := hover d hd
    have h₂ := (round_half_away_nearest d (hdelays d hd)).1
    omega
  have hround := round_delay_eq_map delays hdelays hrange
  have hget : ∀ (i : Nat) (hd : i < delays.length)
      (hr : i < (delays.map fun d => (round_half_away d).toNat).length),
      (delays.map fun d => (round_half_away d).toNat)[i] = (round_half_away delays[i]).toNat := by
    intro i hd hr
    simp
  obtain ⟨rounded, hR⟩ : ∃ rounded, rounded = delays.map fun d => (round_half_away d).toNat :=
    ⟨_, rfl⟩
  rw [← hR] at hround hget
  simp only [← hR]
  have hlen' : target_ids.length = rounded.length := by
    simp [hR, hlen]
  have hover' : ∀ v ∈ rounded, e.t + v < SIZE_T := by
    intro v hv
    rw [hR] at hv
    obtain ⟨d, hd, rfl⟩ := List.mem_map.1 hv
    exact hover d hd
  have htimely : e.Timely := by
    refine ⟨ht, by rw [hempty]; exact List.Pairwise.nil, ?_⟩
    intro entry he
    rw [hempty] at he
    simp at he
  refine ⟨schedule_per_bucket e target_ids rounded (order rounded), ?_, ?_, ?_⟩
  · simp only [schedule_vector_in, hround,
      schedule_loop_eq target_ids _ (le_of_eq hlen'.symm) _ e hids]
  · intro n
    have hall : schedule_per_bucket e target_ids rounded (order rounded) =
        e.schedule_all ((order rounded).map fun v =>
          (v, spec_bucket e.size target_ids rounded v)) :=
      foldl_schedule_eq_schedule_all (fun size v => spec_bucket size target_ids rounded v)
        (fun v => v) _ e
    obtain ⟨hte, _, hle, _⟩ := schedule_all_fields
      ((order rounded).map fun v => (v, spec_bucket e.size target_ids rounded v)) e
    rw [← hall] at hte hle
    have htimely' : (schedule_per_bucket e target_ids rounded (order rounded)).Timely := by
      rw [hall]
      apply schedule_all_timely _ e htimely
      intro call hcall
      obtain ⟨v, hv, rfl⟩ := List.mem_map.1 hcall
      exact hover' v (((horder _).2 v).1 hv)
    rw [run_eq_map n _ htimely']
    apply List.map_congr_left
    intro k _
    unfold process_by_find
    rw [hte, hle, find_schedule_per_bucket e target_ids _ _ hempty (horder _) hover' k]
    by_cases hk : k ∈ rounded
    · rw [if_pos hk, if_pos hk]
    · rw [if_neg hk, if_neg hk]
  · intro i hi hd k
    rw [contains_spec_bucket e.size target_ids _ hlen' hnodup hids i hi k,
      hget i hd (hlen' ▸ hi)]

/-- Witness for C21: the scenario of the specification. Size 100, identifiers
3 and 7 with the delays 2.4 and 2.6, which round to 2 and 3: nothing is called
at timesteps 0 and 1, the listener is called with `{3}` at timestep 2 and with
`{7}` at timestep 3. -/
theorem schedule_vector_fires_witness :
    ∃ e', schedule_vector_in List.dedup ⟨[.extptr 0], 0, [], 100⟩ [3, 7] [2.4, 2.6] = .ok e' ∧
      run 4 e' = [[], [], [.cpp 0 2 (spec_bucket 100 [3, 7] [2, 3] 2)],
        [.cpp 0 3 (spec_bucket 100 [3, 7] [2, 3] 3)]] ∧
      (spec_bucket 100 [3, 7] [2, 3] 2).toList = [3] ∧
      (spec_bucket 100 [3, 7] [2, 3] 3).toList = [7] := by
  have h₁ : round_half_away 2.4 = 2 := by norm_num [round_half_away]
  have h₂ : round_half_away 2.6 = 3 := by norm_num [round_half_away]
  have hr : ([2.4, 2.6] : List ℚ).map (fun d => (round_half_away d).toNat) = [2, 3] := by
    simp [h₁, h₂]
  obtain ⟨e', hrun, hfire, _⟩ := schedule_vector_fires ⟨[.extptr 0], 0, [], 100⟩ [3, 7]
    [2.4, 2.6] List.dedup rfl (by simp [SIZE_T]) rfl (by decide) (by decide)
    (by intro d hd; simp only [List.mem_cons, List.mem_singleton, List.not_mem_nil,
          or_false] at hd; rcases hd with rfl | rfl <;> norm_num)
    (by intro d hd; simp only [List.mem_cons, List.mem_singleton, List.not_mem_nil,
          or_false] at hd; rcases hd with rfl | rfl <;> simp [h₁, h₂, SIZE_T])
    (fun rounded => ⟨List.nodup_dedup rounded, fun _ => List.mem_dedup⟩)
  refine ⟨e', hrun, ?_, by decide, by decide⟩
  rw [hfire 4, hr]
  decide

/-- C21 as stated fails when a `t0 + round(delays[i])` overflows. At `t0 = 2049`
with an empty schedule, identifiers 0 and 1 and the delays `2 ^ 64 - 2048` (a
`double`) and 1: the first timestep wraps to 1, so the map holds the entries 1
and 2050. At timestep 2050 `process()` looks at the first entry, which is the
one for 1, and calls no listener; `tick()` then erases the entry for 2050.
Individual 1 is never passed to a listener. -/
theorem schedule_vector_overflow_counterexample :
    ∃ e', schedule_vector_in List.dedup ⟨[.extptr 0], 2049, [], 2⟩ [0, 1]
        [18446744073709549568, 1] = .ok e' ∧
      e'.targeted_schedule = [(1, ⟨[true, false]⟩), (2050, ⟨[false, true]⟩)] ∧
      (round_half_away 1).toNat = 1 ∧
      run 2 e' = [[], []] ∧
      (after 2 e') = ⟨[.extptr 0], 2051, [(1, ⟨[true, false]⟩)], 2⟩ := by
  have h₁ : round_half_away 18446744073709549568 = 18446744073709549568 := by
    norm_num [round_half_away]
  have h₂ : round_half_away 1 = 1 := by norm_num [round_half_away]
  have hr : round_delay [18446744073709549568, 1] = .ok [18446744073709549568, 1] := by
    norm_num [round_delay, h₁, h₂, SIZE_T]
    rfl
  refine ⟨⟨[.extptr 0], 2049, [(1, ⟨[true, false]⟩), (2050, ⟨[false, true]⟩)], 2⟩, ?_, rfl,
    by simp [h₂], by decide, by decide⟩
  simp only [schedule_vector_in, hr]
  decide

end TargetedEvent

end Individual

